import Mathlib

/-!
# Verification of the graph-colouring benchmark engine

A shallow embedding, in Lean 4, of the algorithmic core of the
`graph-colouring` repository (C++): the graph model, conflict counting,
the Welsh–Powell and DSATUR greedy colourers, greedy repair under a
bounded palette, the Tabu Search / Simulated Annealing / Genetic
metaheuristics, the exact branch-and-bound solver, the strategy
dispatcher of `benchmark_runner.cpp`, and the DIMACS graph loader.

Conventions of the embedding:
* C++ `std::vector<int>` colourings become `List Int`; the value `-1`
  marks an uncoloured vertex exactly as in the source.
* Machine `int` indices become `Nat` where the source guarantees
  non-negativity (vertex ids), `Int` where `-1` is meaningful (colours).
  No quantity in the modelled code approaches integer overflow.
* Out-of-range accesses never occur in the source under the graph
  invariants; the embedding uses `List.getD` with the source's initial
  value (`-1` for colour arrays) as the default.
* Calls to the Mersenne-twister RNG are modelled by oracle streams
  (`Nat → Nat` for integer draws, consumed via an explicit counter, with
  `% bound` giving a value in the range the C++ uniform distribution
  yields; `Nat → Bool` for the probabilistic accept decision of
  simulated annealing, whose floating-point comparison is otherwise not
  representable).  All theorems about randomised strategies quantify
  over every oracle stream.
* `std::sort` with a strict-weak comparator leaves the order of tied
  elements unspecified; the embedding fixes one valid execution by
  using a stable merge sort over the same comparator.
-/

namespace GraphColouring

/-- The `Graph` struct of `utils.h`: a vertex count and an adjacency
list (`adjacency_list[u]` lists the neighbours of `u`). -/
structure Graph where
  vertex_count : Nat
  adjacency_list : List (List Nat)
  deriving Repr, DecidableEq

/-- Neighbour list of `v` (`graph.adjacency_list[v]`). -/
def adjAt (g : Graph) (v : Nat) : List Nat :=
  g.adjacency_list.getD v []

/-- Colour of vertex `v` in colour vector `c` (`colours[v]`); `-1` is
the source's "uncoloured" marker and also the initial value. -/
def colAt (c : List Int) (v : Nat) : Int :=
  c.getD v (-1)

/-- `colours[v] = x` (in-place array write of the source). -/
def setCol (c : List Int) (v : Nat) (x : Int) : List Int :=
  c.set v x

/-- The documented graph invariants (`spec.md` §3, established by
`load_graph`): adjacency list of length `n`, all neighbour indices in
`[0, n)`, no self-loops, no duplicate neighbours, and symmetry. -/
def Graph.WF (g : Graph) : Prop :=
  g.adjacency_list.length = g.vertex_count ∧
  (∀ u ∈ List.range g.vertex_count, ∀ v ∈ adjAt g u, v < g.vertex_count) ∧
  (∀ u ∈ List.range g.vertex_count, u ∉ adjAt g u) ∧
  (∀ u ∈ List.range g.vertex_count, (adjAt g u).Nodup) ∧
  (∀ u ∈ List.range g.vertex_count, ∀ v ∈ adjAt g u, u ∈ adjAt g v)

instance (g : Graph) : Decidable g.WF := by
  unfold Graph.WF
  infer_instance

/-- `count_colours` (§ helpers of `exact_solver.cpp`, duplicated as
`count_colour_usage` in `genetic.cpp` / the SA unit and `count_colours`
in `benchmark_runner.cpp`): `max(c) + 1` when some entry is `≥ 0`,
otherwise `0`. -/
def count_colours (colours : List Int) : Int :=
  let max_colour := colours.foldl (fun m c => max m c) (-1)
  if max_colour ≥ 0 then max_colour + 1 else 0

/-- `max_degree` (helper of `tabu.cpp`, `genetic.cpp`, the SA unit):
the largest adjacency-list length. -/
def max_degree (g : Graph) : Nat :=
  g.adjacency_list.foldl (fun m nb => max m nb.length) 0

/-- `count_conflicts` (`tabu.cpp`, `genetic.cpp`, the SA unit): number
of edges whose endpoints share a colour, counted once per edge with the
`u < v` convention. -/
def count_conflicts (g : Graph) (colours : List Int) : Nat :=
  ((List.range g.vertex_count).map (fun u =>
    (adjAt g u).countP (fun v => decide (u < v) && decide (colAt colours u = colAt colours v)))).sum

/-- `count_conflicts_if_colour` (`tabu.cpp`): how many conflicts vertex
`vertex` would have if it were assigned colour `c`. -/
def count_conflicts_if_colour (g : Graph) (colours : List Int) (vertex : Nat) (c : Int) : Nat :=
  (adjAt g vertex).countP (fun nb => decide (colAt colours nb = c))

/-- `count_conflicts_for_vertex` (`tabu.cpp`; `count_conflicts_local`
in the SA unit): conflicts of `vertex` at its current colour. -/
def count_conflicts_for_vertex (g : Graph) (colours : List Int) (vertex : Nat) : Nat :=
  count_conflicts_if_colour g colours vertex (colAt colours vertex)

/-- A total colouring: every vertex carries a non-negative colour. -/
def TotalColouring (g : Graph) (c : List Int) : Prop :=
  c.length = g.vertex_count ∧ ∀ v ∈ List.range g.vertex_count, 0 ≤ colAt c v

/-- Properness of a (possibly partial) colouring: no edge joins two
vertices that share a non-negative colour; `-1` entries never conflict. -/
def ProperPartial (g : Graph) (c : List Int) : Prop :=
  ∀ u ∈ List.range g.vertex_count, ∀ v ∈ adjAt g u,
    colAt c u = colAt c v → colAt c u = -1

/-- Validity as the spec states it: total, non-negative and conflict-free. -/
def ValidColouring (g : Graph) (c : List Int) : Prop :=
  TotalColouring g c ∧ ProperPartial g c

instance (g : Graph) (c : List Int) : Decidable (TotalColouring g c) := by
  unfold TotalColouring; infer_instance

instance (g : Graph) (c : List Int) : Decidable (ProperPartial g c) := by
  unfold ProperPartial; infer_instance

/-- All entries lie in `[0, K)` and the vector has length `n`: the
shape every palette-bounded routine guarantees. -/
def ColOK (g : Graph) (K : Int) (c : List Int) : Prop :=
  c.length = g.vertex_count ∧
  ∀ v ∈ List.range g.vertex_count, 0 ≤ colAt c v ∧ colAt c v < K

instance (g : Graph) (K : Int) (c : List Int) : Decidable (ColOK g K c) := by
  unfold ColOK; infer_instance

end GraphColouring

namespace GraphColouring

/-! ## Basic lemmas about the embedding primitives -/

theorem length_setCol (c : List Int) (v : Nat) (x : Int) :
    (setCol c v x).length = c.length := by
  simp [setCol]

theorem colAt_setCol_self (c : List Int) (v : Nat) (x : Int) (h : v < c.length) :
    colAt (setCol c v x) v = x := by
  simp [colAt, setCol, List.getD, List.getElem?_set_self, h]

theorem colAt_setCol_ne (c : List Int) (u v : Nat) (x : Int) (h : u ≠ v) :
    colAt (setCol c v x) u = colAt c u := by
  simp [colAt, setCol, List.getD, List.getElem?_set_ne (Ne.symm h)]

theorem colAt_mem (c : List Int) (v : Nat) (h : v < c.length) : colAt c v ∈ c := by
  rw [show colAt c v = c.get ⟨v, h⟩ by
    simp [colAt, List.getD_eq_getElem?_getD, List.getElem?_eq_getElem h]]
  exact c.get_mem v h

/-- Maximum entry seen by `count_colours`' fold. -/
def maxColour (colours : List Int) : Int :=
  colours.foldl (fun m c => max m c) (-1)

theorem count_colours_eq (colours : List Int) :
    count_colours colours = if maxColour colours ≥ 0 then maxColour colours + 1 else 0 := rfl

theorem foldl_max_le_iff (l : List Int) (a b : Int) :
    l.foldl (fun m c => max m c) a ≤ b ↔ a ≤ b ∧ ∀ x ∈ l, x ≤ b := by
  induction l generalizing a with
  | nil => simp
  | cons y t ih =>
    simp only [List.foldl_cons, ih, max_le_iff, List.mem_cons]
    constructor
    · rintro ⟨⟨h1, h2⟩, h3⟩
      exact ⟨h1, fun x hx => hx.elim (fun e => e ▸ h2) (h3 x)⟩
    · rintro ⟨h1, h2⟩
      exact ⟨⟨h1, h2 y (Or.inl rfl)⟩, fun x hx => h2 x (Or.inr hx)⟩

theorem le_foldl_max (l : List Int) (a : Int) :
    a ≤ l.foldl (fun m c => max m c) a := by
  induction l generalizing a with
  | nil => simp
  | cons y t ih => exact le_trans (le_max_left a y) (ih (max a y))

theorem mem_le_foldl_max (l : List Int) (a : Int) (x : Int) (hx : x ∈ l) :
    x ≤ l.foldl (fun m c => max m c) a := by
  induction l generalizing a with
  | nil => simp at hx
  | cons y t ih =>
    rw [List.foldl_cons]
    rcases List.mem_cons.mp hx with h | h
    · subst h; exact le_trans (le_max_right a x) (le_foldl_max t (max a x))
    · exact ih (max a y) h

theorem foldl_max_eq_or_mem (l : List Int) (a : Int) :
    l.foldl (fun m c => max m c) a = a ∨ l.foldl (fun m c => max m c) a ∈ l := by
  induction l generalizing a with
  | nil => simp
  | cons y t ih =>
    rcases ih (max a y) with h | h
    · rcases max_cases a y with ⟨he, _⟩ | ⟨he, _⟩
      · left; rw [List.foldl_cons, h, he]
      · right; rw [List.foldl_cons, h, he]; exact List.mem_cons_self y t
    · right; exact List.mem_cons_of_mem y h

theorem maxColour_lt_iff (colours : List Int) (K : Int) (hK : -1 < K) :
    maxColour colours < K ↔ ∀ x ∈ colours, x < K := by
  unfold maxColour
  constructor
  · intro h x hx
    exact lt_of_le_of_lt (mem_le_foldl_max colours (-1) x hx) h
  · intro h
    rcases foldl_max_eq_or_mem colours (-1) with he | he
    · rw [he]; exact hK
    · exact h _ he

theorem maxColour_mem_le (colours : List Int) (x : Int) (hx : x ∈ colours) :
    x ≤ maxColour colours := mem_le_foldl_max colours (-1) x hx

theorem neg_one_le_maxColour (colours : List Int) :
    -1 ≤ maxColour colours := le_foldl_max colours (-1)

/-- `count_colours` is at most `K` as soon as all entries are below `K`. -/
theorem count_colours_le_of_lt (colours : List Int) (K : Int) (hK : 0 ≤ K)
    (h : ∀ x ∈ colours, x < K) : count_colours colours ≤ K := by
  rw [count_colours_eq]
  split
  · have := (maxColour_lt_iff colours K (by omega)).mpr h
    omega
  · exact hK

theorem count_colours_nonneg (colours : List Int) : 0 ≤ count_colours colours := by
  rw [count_colours_eq]; split <;> omega

end GraphColouring

namespace GraphColouring

/-! ## The chromatic number (specification side)

`χ(G)` is defined, as in the spec's glossary, as the least `k` such
that a proper colouring with colours in `[0, k)` exists.  It is stated
over functions `Fin n → Fin k` so that colourability is decidable; the
lemmas below convert to and from the `List Int` colourings the embedded
algorithms produce. -/

/-- Extend a palette-bounded colouring function to all of `Nat`
(vertices out of range get a dummy colour; they never matter). -/
def finColourExt (g : Graph) {k : Nat} (f : Fin g.vertex_count → Fin k) (v : Nat) : Int :=
  if h : v < g.vertex_count then ((f ⟨v, h⟩ : Nat) : Int) else 0

/-- `G` admits a proper colouring with `k` colours. -/
def Colourable (g : Graph) (k : Nat) : Prop :=
  ∃ f : Fin g.vertex_count → Fin k,
    ∀ u ∈ List.range g.vertex_count, ∀ v ∈ adjAt g u,
      finColourExt g f u ≠ finColourExt g f v

instance (g : Graph) (k : Nat) : Decidable (Colourable g k) := by
  unfold Colourable; infer_instance

/-- Any well-formed graph is `n`-colourable (give each vertex its own
colour; no self-loops). -/
theorem colourable_vertex_count (g : Graph) (hwf : g.WF) :
    Colourable g g.vertex_count := by
  refine ⟨fun v => v, ?_⟩
  intro u hu v hv
  have hun : u < g.vertex_count := List.mem_range.mp hu
  have hvn : v < g.vertex_count := hwf.2.1 u hu v hv
  have hne : u ≠ v := by
    intro he
    exact hwf.2.2.1 u hu (he ▸ hv)
  simp only [finColourExt, dif_pos hun, dif_pos hvn]
  exact_mod_cast hne

theorem colourable_mono (g : Graph) {j k : Nat} (hjk : j ≤ k)
    (h : Colourable g j) : Colourable g k := by
  obtain ⟨f, hf⟩ := h
  refine ⟨fun v => Fin.castLE hjk (f v), ?_⟩
  intro u hu v hv
  have := hf u hu v hv
  simpa [finColourExt] using this

/-- The chromatic number `χ(G)`. -/
def chromaticNumber (g : Graph) : Nat :=
  if h : Colourable g g.vertex_count then
    Nat.find (⟨g.vertex_count, h⟩ : ∃ k, Colourable g k)
  else 0

theorem chromaticNumber_le (g : Graph) (hwf : g.WF) {k : Nat}
    (h : Colourable g k) : chromaticNumber g ≤ k := by
  unfold chromaticNumber
  rw [dif_pos (colourable_vertex_count g hwf)]
  exact Nat.find_le h

theorem colourable_chromaticNumber (g : Graph) (hwf : g.WF) :
    Colourable g (chromaticNumber g) := by
  unfold chromaticNumber
  rw [dif_pos (colourable_vertex_count g hwf)]
  exact Nat.find_spec _

/-- A valid list colouring witnesses colourability with
`count_colours` many colours. -/
theorem colourable_of_valid (g : Graph) (hwf : g.WF) (c : List Int)
    (hv : ValidColouring g c) : Colourable g (count_colours c).toNat := by
  obtain ⟨⟨hlen, hpos⟩, hproper⟩ := hv
  have hbound : ∀ v ∈ List.range g.vertex_count,
      (colAt c v).toNat < (count_colours c).toNat := by
    intro v hv'
    have hvn : v < g.vertex_count := List.mem_range.mp hv'
    have hmem : colAt c v ∈ c := colAt_mem c v (by omega)
    have hle : colAt c v ≤ maxColour c := maxColour_mem_le c _ hmem
    have h0 : 0 ≤ colAt c v := hpos v hv'
    have hmax : 0 ≤ maxColour c := le_trans h0 hle
    rw [count_colours_eq, if_pos hmax]
    omega
  refine ⟨fun v => ⟨(colAt c v.1).toNat, hbound v.1 (List.mem_range.mpr v.2)⟩, ?_⟩
  intro u hu v hv'
  have hun : u < g.vertex_count := List.mem_range.mp hu
  have hvn : v < g.vertex_count := hwf.2.1 u hu v hv'
  have hne : colAt c u ≠ colAt c v := by
    intro he
    have := hproper u hu v hv' he
    have h0 := hpos u hu
    omega
  simp only [finColourExt, dif_pos hun, dif_pos hvn]
  intro he
  apply hne
  have h0u := hpos u hu
  have h0v := hpos v (List.mem_range.mpr hvn)
  have : (colAt c u).toNat = (colAt c v).toNat := by exact_mod_cast he
  omega

/-- A valid list colouring keeps `χ(G)` below its colour count. -/
theorem chromaticNumber_le_count (g : Graph) (hwf : g.WF) (c : List Int)
    (hv : ValidColouring g c) :
    (chromaticNumber g : Int) ≤ count_colours c := by
  have h := chromaticNumber_le g hwf (colourable_of_valid g hwf c hv)
  have h0 := count_colours_nonneg c
  omega

/-- Conversely, colourability with `k` colours yields a valid list
colouring with at most `k` colours. -/
theorem exists_valid_of_colourable (g : Graph) (hwf : g.WF) {k : Nat}
    (h : Colourable g k) :
    ∃ c : List Int, ValidColouring g c ∧ count_colours c ≤ (k : Int) := by
  obtain ⟨f, hf⟩ := h
  refine ⟨(List.range g.vertex_count).map (fun v => finColourExt g f v), ?_, ?_⟩
  · have hcol : ∀ v ∈ List.range g.vertex_count,
        colAt ((List.range g.vertex_count).map (fun v => finColourExt g f v)) v
          = finColourExt g f v := by
      intro v hv
      have hvn : v < g.vertex_count := List.mem_range.mp hv
      simp [colAt, List.getD, List.getElem?_map, List.getElem?_range, hvn]
    refine ⟨⟨by simp, ?_⟩, ?_⟩
    · intro v hv
      rw [hcol v hv]
      have hvn : v < g.vertex_count := List.mem_range.mp hv
      simp [finColourExt, dif_pos hvn]
    · intro u hu v hv heq
      have hvn : v < g.vertex_count := hwf.2.1 u hu v hv
      rw [hcol u hu, hcol v (List.mem_range.mpr hvn)] at heq
      exact absurd heq (hf u hu v hv)
  · apply count_colours_le_of_lt
    · exact_mod_cast Nat.zero_le k
    · intro x hx
      obtain ⟨v, hv, rfl⟩ := List.mem_map.mp hx
      have hvn : v < g.vertex_count := List.mem_range.mp hv
      have hk : 0 < k := Fin.pos (f ⟨v, hvn⟩)
      simp only [finColourExt, dif_pos hvn]
      exact_mod_cast (f ⟨v, hvn⟩).2

end GraphColouring

namespace GraphColouring

/-! ## Shared algorithmic primitives

The descending-degree vertex order (the `std::sort` by
`adjacency_list[a].size() > adjacency_list[b].size()` appearing in
Welsh–Powell, greedy repair and the tabu initialiser), and the
"smallest colour not used by a coloured neighbour" selection (the
`used` bitmap + while loop of DSATUR, and the fallback of the tabu
fallback greedy). -/

/-- Comparator of the descending-degree sorts: `a` may precede `b` iff
`deg a ≥ deg b`.  A stable merge sort over it realises one valid
execution of `std::sort` with the strict comparator `deg a > deg b`. -/
def degGE (g : Graph) (a b : Nat) : Bool :=
  decide ((adjAt g b).length ≤ (adjAt g a).length)

/-- The traversal order `order`: vertices `0..n-1` sorted by descending
degree (ties keep ascending vertex id, by stability). -/
def degreeOrder (g : Graph) : List Nat :=
  (List.range g.vertex_count).mergeSort (degGE g)

theorem degreeOrder_perm (g : Graph) :
    (degreeOrder g).Perm (List.range g.vertex_count) :=
  List.mergeSort_perm _ _

theorem degreeOrder_nodup (g : Graph) : (degreeOrder g).Nodup :=
  ((degreeOrder_perm g).nodup_iff).mpr (List.nodup_range g.vertex_count)

theorem mem_degreeOrder (g : Graph) (v : Nat) :
    v ∈ degreeOrder g ↔ v < g.vertex_count := by
  rw [(degreeOrder_perm g).mem_iff, List.mem_range]

theorem degreeOrder_sorted (g : Graph) :
    (degreeOrder g).Pairwise (fun a b => degGE g a b) := by
  refine List.sorted_mergeSort ?_ ?_ (List.range g.vertex_count)
  · intro a b c hab hbc
    simp only [degGE, decide_eq_true_eq] at hab hbc ⊢
    omega
  · intro a b
    simp only [degGE, Bool.or_eq_true, decide_eq_true_eq]
    omega

/-- Nat version of the fold-max lemmas, for `max_degree`. -/
theorem le_foldl_maxN (l : List Nat) (a : Nat) :
    a ≤ l.foldl (fun m x => max m x) a := by
  induction l generalizing a with
  | nil => simp
  | cons y t ih => exact le_trans (le_max_left a y) (ih (max a y))

theorem mem_le_foldl_maxN (l : List Nat) (a : Nat) (x : Nat) (hx : x ∈ l) :
    x ≤ l.foldl (fun m x => max m x) a := by
  induction l generalizing a with
  | nil => simp at hx
  | cons y t ih =>
    rw [List.foldl_cons]
    rcases List.mem_cons.mp hx with h | h
    · rw [h]; exact le_trans (le_max_right a y) (le_foldl_maxN t (max a y))
    · exact ih (max a y) h

/-- Every degree is bounded by `max_degree`. -/
theorem degree_le_max_degree (g : Graph) (u : Nat) (hu : u < g.vertex_count)
    (hlen : g.adjacency_list.length = g.vertex_count) :
    (adjAt g u).length ≤ max_degree g := by
  unfold max_degree
  have hmem : adjAt g u ∈ g.adjacency_list := by
    unfold adjAt
    have hl : u < g.adjacency_list.length := by omega
    rw [show g.adjacency_list.getD u [] = g.adjacency_list.get ⟨u, hl⟩ by
      simp [List.getD_eq_getElem?_getD, List.getElem?_eq_getElem hl]]
    exact g.adjacency_list.get_mem u hl
  have := mem_le_foldl_maxN (g.adjacency_list.map List.length) 0 (adjAt g u).length
    (List.mem_map.mpr ⟨adjAt g u, hmem, rfl⟩)
  calc (adjAt g u).length
      ≤ (g.adjacency_list.map List.length).foldl (fun m x => max m x) 0 := this
    _ = g.adjacency_list.foldl (fun m nb => max m nb.length) 0 := by
        rw [List.foldl_map]

/-- The list of colours in use among `u`'s coloured neighbours: what the
source's `used` bitmap marks. -/
def neighbourCols (g : Graph) (colours : List Int) (u : Nat) : List Int :=
  ((adjAt g u).map (fun nb => colAt colours nb)).filter (fun c => decide (0 ≤ c))

/-- The `while (c < used.size() && used[c]) ++c;` loop: the smallest
non-negative colour not marked in the bitmap. -/
def smallestFree (banned : List Int) : Int :=
  ((((List.range (banned.length + 1))).find?
    (fun c => !banned.contains ((c : Nat) : Int))).getD 0 : Nat)

theorem smallestFree_spec (banned : List Int) :
    smallestFree banned ∉ banned ∧ 0 ≤ smallestFree banned ∧
      smallestFree banned ≤ (banned.length : Int) := by
  unfold smallestFree
  have hsome : ∃ x ∈ List.range (banned.length + 1),
      (!banned.contains ((x : Nat) : Int)) = true := by
    by_contra hnone
    push_neg at hnone
    have hsub : ∀ c ∈ List.range (banned.length + 1), ((c : Nat) : Int) ∈ banned := by
      intro c hc
      have := hnone c hc
      simpa using this
    have hnd : ((List.range (banned.length + 1)).map (fun c => ((c : Nat) : Int))).Nodup := by
      refine List.Nodup.map ?_ (List.nodup_range (banned.length + 1))
      exact fun a b hab => Nat.cast_injective hab
    have hcard : ((List.range (banned.length + 1)).map
        (fun c => ((c : Nat) : Int))).toFinset.card ≤ banned.toFinset.card := by
      apply Finset.card_le_card
      intro x hx
      rw [List.mem_toFinset] at *
      obtain ⟨c, hc, rfl⟩ := List.mem_map.mp hx
      exact hsub c hc
    have hlc : ((List.range (banned.length + 1)).map
        (fun c => ((c : Nat) : Int))).toFinset.card = banned.length + 1 := by
      rw [List.toFinset_card_of_nodup hnd]
      simp
    have hbc : banned.toFinset.card ≤ banned.length := banned.toFinset_card_le
    omega
  obtain ⟨x, hx, hpx⟩ := hsome
  have hiss : ((List.range (banned.length + 1)).find?
      (fun c => !banned.contains ((c : Nat) : Int))).isSome :=
    List.find?_isSome.mpr ⟨x, hx, hpx⟩
  obtain ⟨y, hfind⟩ := Option.isSome_iff_exists.mp hiss
  rw [hfind]
  have hy := List.find?_some hfind
  have hymem := List.mem_of_find?_eq_some hfind
  have hylt : y < banned.length + 1 := List.mem_range.mp hymem
  refine ⟨by simpa using hy, by simp, by simp; omega⟩

theorem smallestFree_not_mem (banned : List Int) : smallestFree banned ∉ banned :=
  (smallestFree_spec banned).1

theorem smallestFree_nonneg (banned : List Int) : 0 ≤ smallestFree banned :=
  (smallestFree_spec banned).2.1

theorem smallestFree_le (banned : List Int) : smallestFree banned ≤ (banned.length : Int) :=
  (smallestFree_spec banned).2.2

end GraphColouring

namespace GraphColouring

/-! ## Step lemmas shared by the greedy algorithms -/

/-- Colouring an uncoloured vertex with a colour that no neighbour
carries preserves properness (needs symmetry of the adjacency). -/
theorem properPartial_setCol (g : Graph) (hwf : g.WF) (c : List Int)
    (hlen : c.length = g.vertex_count)
    (hprop : ProperPartial g c) (u : Nat) (hu : u < g.vertex_count)
    (newc : Int)
    (hfree : ∀ nb ∈ adjAt g u, colAt c nb ≠ newc) :
    ProperPartial g (setCol c u newc) := by
  intro a ha b hb heq
  have han : a < g.vertex_count := List.mem_range.mp ha
  have hul : u < c.length := by omega
  by_cases hau : a = u
  · subst hau
    exfalso
    have hbu : b ≠ a := fun hba => hwf.2.2.1 a ha (hba ▸ hb)
    rw [colAt_setCol_self c a newc hul, colAt_setCol_ne c b a newc hbu] at heq
    exact hfree b hb heq.symm
  · by_cases hbu : b = u
    · subst hbu
      exfalso
      rw [colAt_setCol_ne c a b newc hau, colAt_setCol_self c b newc hul] at heq
      have hmem : a ∈ adjAt g b := hwf.2.2.2.2 a ha b hb
      exact hfree a hmem heq
    · rw [colAt_setCol_ne c a u newc hau, colAt_setCol_ne c b u newc hbu] at heq
      rw [colAt_setCol_ne c a u newc hau]
      exact hprop a ha b hb heq

end GraphColouring

namespace GraphColouring

/-! ## The local-delta identity for conflict counting

`colour_with_tabu` (and the SA loop) update their running conflict
counter by the local delta
`count_conflicts_if_colour(v, new) - count_conflicts_for_vertex(v)`.
The lemmas below establish that the delta of the.global `u < v` count
equals this local delta on well-formed graphs. -/

/-- Per-vertex contribution to `count_conflicts`. -/
def conflictTerm (g : Graph) (colours : List Int) (u : Nat) : Nat :=
  (adjAt g u).countP (fun v => decide (u < v) && decide (colAt colours u = colAt colours v))

theorem count_conflicts_eq_sum (g : Graph) (colours : List Int) :
    count_conflicts g colours =
      ((List.range g.vertex_count).map (conflictTerm g colours)).sum := rfl

/-- Changing a predicate at (at most) the single occurrence of `v`
changes `countP` by the difference of the point values. -/
theorem countP_update_point {l : List Nat} (hnd : l.Nodup) (v : Nat)
    (p q : Nat → Bool) (hagree : ∀ x ∈ l, x ≠ v → p x = q x) :
    (l.countP p : Int) + (if v ∈ l ∧ q v then 1 else 0)
      = (l.countP q : Int) + (if v ∈ l ∧ p v then 1 else 0) := by
  induction l with
  | nil => simp
  | cons x t ih =>
    have hndt : t.Nodup := hnd.of_cons
    rw [List.countP_cons, List.countP_cons]
    by_cases hxv : x = v
    · subst hxv
      have hnt : x ∉ t := (List.nodup_cons.mp hnd).1
      have hcong : t.countP p = t.countP q :=
        List.countP_congr (fun y hy => by
          have hyx : y ≠ x := fun he => hnt (he ▸ hy)
          rw [hagree y (List.mem_cons_of_mem x hy) hyx])
      have hxm : x ∈ x :: t := List.mem_cons_self x t
      rw [hcong]
      simp only [hxm, true_and]
      by_cases hp : p x <;> by_cases hq : q x <;> simp [hp, hq]
    · have hpx : p x = q x := hagree x (List.mem_cons_self x t) hxv
      have hvm : (v ∈ x :: t) ↔ (v ∈ t) := by
        constructor
        · intro h
          rcases List.mem_cons.mp h with h | h
          · exact absurd h.symm hxv
          · exact h
        · exact List.mem_cons_of_mem x
      have := ih hndt (fun y hy hyv => hagree y (List.mem_cons_of_mem x hy) hyv)
      simp only [hvm, hpx]
      omega

/-- Counting members of a bounded `Nodup` list through `List.range`. -/
theorem countP_range_mem (n : Nat) (l : List Nat) (hnd : l.Nodup)
    (hlt : ∀ x ∈ l, x < n) (P : Nat → Bool) :
    (List.range n).countP (fun u => decide (u ∈ l) && P u) = l.countP P := by
  have hfilter : (List.range n).countP (fun u => decide (u ∈ l) && P u)
      = ((List.range n).filter (fun u => decide (u ∈ l))).countP P := by
    rw [List.countP_filter]
    apply List.countP_congr
    intro x _
    simp [Bool.and_comm]
  rw [hfilter]
  have hperm : ((List.range n).filter (fun u => decide (u ∈ l))).Perm l := by
    rw [List.perm_ext_iff_of_nodup (List.Nodup.filter _ (List.nodup_range n)) hnd]
    intro a
    simp only [List.mem_filter, List.mem_range, decide_eq_true_eq]
    exact ⟨fun h => h.2, fun h => ⟨hlt a h, h⟩⟩
  exact hperm.countP_eq P

/-- Splitting a count over the trichotomy `w < v` / `w > v` for lists
avoiding `v`. -/
theorem countP_split_lt_gt (l : List Nat) (v : Nat) (hv : v ∉ l) (P : Nat → Bool) :
    l.countP P =
      l.countP (fun w => decide (w < v) && P w) +
      l.countP (fun w => decide (v < w) && P w) := by
  induction l with
  | nil => simp
  | cons x t ih =>
    have hxv : x ≠ v := fun he => hv (he ▸ List.mem_cons_self x t)
    have hvt : v ∉ t := fun h => hv (List.mem_cons_of_mem x h)
    rw [List.countP_cons, List.countP_cons, List.countP_cons, ih hvt]
    rcases Nat.lt_trichotomy x v with h | h | h
    · simp [h, Nat.not_lt_of_lt h]
      omega
    · exact absurd h hxv
    · simp [h, Nat.lt_asymm h]
      omega

/-- Sum of mapped differences over a list (`Int`-valued bookkeeping). -/
theorem sum_map_sub (l : List Nat) (f h : Nat → Int) :
    (l.map (fun u => f u - h u)).sum = (l.map f).sum - (l.map h).sum := by
  induction l with
  | nil => simp
  | cons x t ih =>
    simp only [List.map_cons, List.sum_cons, ih]
    ring

end GraphColouring

namespace GraphColouring

/-- Sum of 0/1 indicator values equals a `countP`. -/
theorem sum_map_ite_eq_countP (l : List Nat) (Q : Nat → Prop) [DecidablePred Q] :
    (l.map (fun u => if Q u then (1 : Int) else 0)).sum
      = l.countP (fun u => decide (Q u)) := by
  induction l with
  | nil => simp
  | cons x t ih =>
    simp only [List.map_cons, List.sum_cons, List.countP_cons, ih]
    by_cases h : Q x <;> simp [h] <;> try omega


/-- Summing a function that deviates at the single occurrence of `v`. -/
theorem sum_map_ite_point (l : List Nat) (hnd : l.Nodup) (v : Nat) (hv : v ∈ l)
    (D : Int) (E : Nat → Int) :
    (l.map (fun u => if u = v then D else E u)).sum
      = D - E v + (l.map E).sum := by
  induction l with
  | nil => simp at hv
  | cons x t ih =>
    have hndt : t.Nodup := hnd.of_cons
    by_cases hxv : x = v
    · subst hxv
      have hnt : x ∉ t := (List.nodup_cons.mp hnd).1
      have hmap : t.map (fun u => if u = x then D else E u) = t.map E := by
        apply List.map_congr_left
        intro u hu
        have : u ≠ x := fun he => hnt (he ▸ hu)
        simp [this]
      simp only [List.map_cons, List.sum_cons, hmap]
      simp
      ring
    · have hvt : v ∈ t := by
        rcases List.mem_cons.mp hv with h | h
        · exact absurd h.symm hxv
        · exact h
      simp only [List.map_cons, List.sum_cons, if_neg hxv, ih hndt hvt]
      ring

/-- **The local-delta identity.**  On a well-formed graph, re-colouring
`v` to `newc` changes the global `u < v` conflict count by exactly the
local difference at `v` (stated in balanced form over `ℤ`). -/
theorem conflict_delta (g : Graph) (hwf : g.WF) (c : List Int)
    (hlen : c.length = g.vertex_count) (v : Nat) (hv : v < g.vertex_count)
    (newc : Int) :
    (count_conflicts g (setCol c v newc) : Int)
        + count_conflicts_if_colour g c v (colAt c v)
      = (count_conflicts g c : Int) + count_conflicts_if_colour g c v newc := by
  set c' := setCol c v newc with hc'
  have hvr : v ∈ List.range g.vertex_count := List.mem_range.mpr hv
  have hvnotself : v ∉ adjAt g v := hwf.2.2.1 v hvr
  have hadjnodup : (adjAt g v).Nodup := hwf.2.2.2.1 v hvr
  have hvl : v < c.length := by omega
  have hcv' : colAt c' v = newc := colAt_setCol_self c v newc hvl
  have hother : ∀ x, x ≠ v → colAt c' x = colAt c x := fun x hx =>
    colAt_setCol_ne c x v newc hx
  -- difference form of the per-vertex terms
  have hdiff : ∀ u ∈ List.range g.vertex_count,
      (conflictTerm g c' u : Int) - conflictTerm g c u =
        if u = v then
          ((adjAt g v).countP (fun w => decide (v < w) && decide (colAt c w = newc)) : Int)
            - (adjAt g v).countP (fun w => decide (v < w) && decide (colAt c w = colAt c v))
        else
          (if v ∈ adjAt g u ∧ u < v ∧ colAt c u = newc then (1 : Int) else 0)
            - (if v ∈ adjAt g u ∧ u < v ∧ colAt c u = colAt c v then (1 : Int) else 0) := by
    intro u hu
    by_cases huv : u = v
    · subst huv
      rw [if_pos rfl]
      have h1 : conflictTerm g c' u =
          (adjAt g u).countP (fun w => decide (u < w) && decide (colAt c w = newc)) := by
        unfold conflictTerm
        apply List.countP_congr
        intro w hw
        have hwv : w ≠ u := fun he => hvnotself (he ▸ hw)
        simp only [hcv', hother w hwv]
        constructor
        · intro h
          simp only [Bool.and_eq_true, decide_eq_true_eq] at h ⊢
          exact ⟨h.1, h.2.symm⟩
        · intro h
          simp only [Bool.and_eq_true, decide_eq_true_eq] at h ⊢
          exact ⟨h.1, h.2.symm⟩
      have h2 : conflictTerm g c u =
          (adjAt g u).countP (fun w => decide (u < w) && decide (colAt c w = colAt c u)) := by
        unfold conflictTerm
        apply List.countP_congr
        intro w hw
        simp only [Bool.and_eq_true, decide_eq_true_eq]
        constructor
        · intro h; exact ⟨h.1, h.2.symm⟩
        · intro h; exact ⟨h.1, h.2.symm⟩
      rw [h1, h2]
    · have hnodup_u : (adjAt g u).Nodup := hwf.2.2.2.1 u hu
      have hcu : colAt c' u = colAt c u := hother u huv
      have hupd := countP_update_point hnodup_u v
        (fun x => decide (u < x) && decide (colAt c' u = colAt c' x))
        (fun x => decide (u < x) && decide (colAt c u = colAt c x))
        (fun x _ hxv => by
          show (decide (u < x) && decide (colAt c' u = colAt c' x))
            = (decide (u < x) && decide (colAt c u = colAt c x))
          rw [hcu, hother x hxv])
      have heq1 : ((fun x => decide (u < x) && decide (colAt c u = colAt c x)) v)
          = (decide (u < v) && decide (colAt c u = colAt c v)) := rfl
      have heq2 : ((fun x => decide (u < x) && decide (colAt c' u = colAt c' x)) v)
          = (decide (u < v) && decide (colAt c u = newc)) := by
        show (decide (u < v) && decide (colAt c' u = colAt c' v))
          = (decide (u < v) && decide (colAt c u = newc))
        rw [hcu, hcv']
      rw [heq1, heq2] at hupd
      have hT1 : conflictTerm g c' u =
          (adjAt g u).countP (fun x => decide (u < x) && decide (colAt c' u = colAt c' x)) := rfl
      have hT2 : conflictTerm g c u =
          (adjAt g u).countP (fun x => decide (u < x) && decide (colAt c u = colAt c x)) := rfl
      rw [if_neg huv]
      have hiff1 : (v ∈ adjAt g u ∧ (decide (u < v) && decide (colAt c u = colAt c v)) = true)
          ↔ (v ∈ adjAt g u ∧ u < v ∧ colAt c u = colAt c v) := by
        simp [Bool.and_eq_true, decide_eq_true_eq]
      have hiff2 : (v ∈ adjAt g u ∧ (decide (u < v) && decide (colAt c u = newc)) = true)
          ↔ (v ∈ adjAt g u ∧ u < v ∧ colAt c u = newc) := by
        simp [Bool.and_eq_true, decide_eq_true_eq]
      rw [if_congr hiff1 rfl rfl, if_congr hiff2 rfl rfl] at hupd
      rw [hT1, hT2]
      omega
  -- sum over all vertices
  have hsum : (count_conflicts g c' : Int) - count_conflicts g c =
      ((List.range g.vertex_count).map (fun u =>
        (conflictTerm g c' u : Int) - conflictTerm g c u)).sum := by
    rw [sum_map_sub]
    have hA : ((List.range g.vertex_count).map (fun u => (conflictTerm g c' u : Int))).sum
        = (count_conflicts g c' : Int) := by
      rw [count_conflicts_eq_sum]
      push_cast
      rw [List.map_map]
      rfl
    have hB : ((List.range g.vertex_count).map (fun u => (conflictTerm g c u : Int))).sum
        = (count_conflicts g c : Int) := by
      rw [count_conflicts_eq_sum]
      push_cast
      rw [List.map_map]
      rfl
    rw [hA, hB]
  rw [List.map_congr_left hdiff] at hsum
  rw [sum_map_ite_point (List.range g.vertex_count) (List.nodup_range _) v hvr] at hsum
  -- the deviation at `v` itself vanishes
  have hEv : ((if v ∈ adjAt g v ∧ v < v ∧ colAt c v = newc then (1 : Int) else 0)
      - (if v ∈ adjAt g v ∧ v < v ∧ colAt c v = colAt c v then (1 : Int) else 0)) = 0 := by
    simp [hvnotself]
  -- sum of the indicator differences over all `u ≠ v`
  have hsplit : ((List.range g.vertex_count).map (fun u =>
      (if v ∈ adjAt g u ∧ u < v ∧ colAt c u = newc then (1 : Int) else 0)
        - (if v ∈ adjAt g u ∧ u < v ∧ colAt c u = colAt c v then (1 : Int) else 0))).sum
      = ((adjAt g v).countP (fun w => decide (w < v) && decide (colAt c w = newc)) : Int)
        - (adjAt g v).countP (fun w => decide (w < v) && decide (colAt c w = colAt c v)) := by
    rw [show (fun u =>
        (if v ∈ adjAt g u ∧ u < v ∧ colAt c u = newc then (1 : Int) else 0)
          - (if v ∈ adjAt g u ∧ u < v ∧ colAt c u = colAt c v then (1 : Int) else 0))
      = (fun u =>
        (fun u => if v ∈ adjAt g u ∧ u < v ∧ colAt c u = newc then (1 : Int) else 0) u
          - (fun u => if v ∈ adjAt g u ∧ u < v ∧ colAt c u = colAt c v then (1 : Int) else 0) u)
      from rfl]
    rw [sum_map_sub]
    have hs1 : ∀ X : Int, ((List.range g.vertex_count).map
        (fun u => if v ∈ adjAt g u ∧ u < v ∧ colAt c u = X then (1 : Int) else 0)).sum
        = ((adjAt g v).countP (fun w => decide (w < v) && decide (colAt c w = X)) : Int) := by
      intro X
      rw [sum_map_ite_eq_countP]
      have hcong : (List.range g.vertex_count).countP
          (fun u => decide (v ∈ adjAt g u ∧ u < v ∧ colAt c u = X))
          = (List.range g.vertex_count).countP
          (fun u => decide (u ∈ adjAt g v) && (decide (u < v) && decide (colAt c u = X))) := by
        apply List.countP_congr
        intro u hu
        simp only [decide_eq_true_eq, Bool.and_eq_true]
        constructor
        · rintro ⟨h1, h2, h3⟩
          exact ⟨hwf.2.2.2.2 u hu v h1, h2, h3⟩
        · rintro ⟨h1, h2, h3⟩
          exact ⟨hwf.2.2.2.2 v hvr u h1, h2, h3⟩
      rw [hcong]
      rw [countP_range_mem g.vertex_count (adjAt g v) hadjnodup
        (fun x hx => hwf.2.1 v hvr x hx)
        (fun w => decide (w < v) && decide (colAt c w = X))]
    rw [hs1 newc, hs1 (colAt c v)]
  -- the two split identities for the local counts
  have hsplitnew := countP_split_lt_gt (adjAt g v) v hvnotself
    (fun w => decide (colAt c w = newc))
  have hsplitold := countP_split_lt_gt (adjAt g v) v hvnotself
    (fun w => decide (colAt c w = colAt c v))
  unfold count_conflicts_if_colour
  rw [hEv] at hsum
  rw [hsplit] at hsum
  rw [hsplitnew, hsplitold]
  omega

/-- Subtraction form of the local-delta identity, as the source writes it
(`delta = new_conf - old_conf`, `conflicts += delta`). -/
theorem conflict_delta_sub (g : Graph) (hwf : g.WF) (c : List Int)
    (hlen : c.length = g.vertex_count) (v : Nat) (hv : v < g.vertex_count)
    (newc : Int) :
    (count_conflicts g (setCol c v newc) : Int)
      = (count_conflicts g c : Int)
        + ((count_conflicts_if_colour g c v newc : Int)
            - count_conflicts_for_vertex g c v) := by
  have := conflict_delta g hwf c hlen v hv newc
  unfold count_conflicts_for_vertex
  omega

/-- `count_conflicts = 0` says exactly that no `u < w` edge is
monochromatic. -/
theorem count_conflicts_eq_zero_iff (g : Graph) (c : List Int) :
    count_conflicts g c = 0 ↔
      ∀ u ∈ List.range g.vertex_count, ∀ w ∈ adjAt g u,
        u < w → colAt c u ≠ colAt c w := by
  unfold count_conflicts
  rw [List.sum_eq_zero_iff]
  constructor
  · intro h u hu w hw hlt heq
    have hz := h _ (List.mem_map.mpr ⟨u, hu, rfl⟩)
    rw [List.countP_eq_zero] at hz
    have := hz w hw
    simp [hlt, heq] at this
  · intro h x hx
    obtain ⟨u, hu, rfl⟩ := List.mem_map.mp hx
    rw [List.countP_eq_zero]
    intro w hw
    simp only [Bool.and_eq_true, decide_eq_true_eq, not_and]
    intro hlt
    exact h u hu w hw hlt

/-- On a well-formed graph a total colouring is proper iff the `u < v`
conflict count is zero. -/
theorem valid_iff_no_conflicts (g : Graph) (hwf : g.WF) (c : List Int)
    (htotal : ∀ v ∈ List.range g.vertex_count, 0 ≤ colAt c v) :
    ProperPartial g c ↔ count_conflicts g c = 0 := by
  rw [count_conflicts_eq_zero_iff]
  constructor
  · intro hp u hu w hw _ heq
    have := hp u hu w hw heq
    have h0 := htotal u hu
    omega
  · intro h u hu w hw heq
    exfalso
    have hun : u < g.vertex_count := List.mem_range.mp hu
    have hwn : w < g.vertex_count := hwf.2.1 u hu w hw
    have hne : u ≠ w := fun he => hwf.2.2.1 u hu (he ▸ hw)
    rcases Nat.lt_or_ge u w with hlt | hge
    · exact h u hu w hw hlt heq
    · have hlt : w < u := by omega
      have hmem : u ∈ adjAt g w := hwf.2.2.2.2 u hu w hw
      exact h w (List.mem_range.mpr hwn) u hmem hlt heq.symm

/-! ## Welsh–Powell (`welsh_powell.cpp`, `colour_with_welsh_powell`) -/

/-- The inner sweep (`for j = i+1 .. n-1`): colour every later vertex in
the order that is still uncoloured and has no neighbour already on
`current_color`. -/
def wpSweep (g : Graph) (k : Int) : List Nat → List Int → List Int
  | [], colours => colours
  | u :: rest, colours =>
    if colAt colours u = -1 ∧ ¬(adjAt g u).any (fun nb => decide (colAt colours nb = k)) then
      wpSweep g k rest (setCol colours u k)
    else
      wpSweep g k rest colours

/-- The outer scan: take the next vertex of the order; if uncoloured,
assign `current_color`, sweep the remaining order, and increment the
colour. -/
def wpOuter (g : Graph) : List Nat → List Int → Int → List Int
  | [], colours, _ => colours
  | v :: rest, colours, k =>
    if colAt colours v ≠ -1 then
      wpOuter g rest colours k
    else
      wpOuter g rest (wpSweep g k rest (setCol colours v k)) (k + 1)

/-- `colour_with_welsh_powell`: sort by descending degree, scan. -/
def colour_with_welsh_powell (g : Graph) : List Int :=
  if g.vertex_count = 0 then []
  else wpOuter g (degreeOrder g) (List.replicate g.vertex_count (-1)) 0

theorem wpSweep_length (g : Graph) (k : Int) (l : List Nat) (c : List Int) :
    (wpSweep g k l c).length = c.length := by
  induction l generalizing c with
  | nil => rfl
  | cons u rest ih =>
    unfold wpSweep
    split
    · rw [ih, length_setCol]
    · exact ih c

theorem wpOuter_length (g : Graph) (l : List Nat) (c : List Int) (k : Int) :
    (wpOuter g l c k).length = c.length := by
  induction l generalizing c k with
  | nil => rfl
  | cons v rest ih =>
    unfold wpOuter
    split
    · exact ih c k
    · rw [ih, wpSweep_length, length_setCol]

/-- The sweep never changes an already-coloured vertex. -/
theorem wpSweep_keeps (g : Graph) (k : Int) (l : List Nat) (c : List Int)
    (u : Nat) (hu : colAt c u ≠ -1) :
    colAt (wpSweep g k l c) u = colAt c u := by
  induction l generalizing c with
  | nil => rfl
  | cons x rest ih =>
    unfold wpSweep
    split
    · next hcond =>
      have hxu : u ≠ x := fun he => hu (he ▸ hcond.1)
      rw [ih (setCol c x k) (by rw [colAt_setCol_ne c u x k hxu]; exact hu),
        colAt_setCol_ne c u x k hxu]
    · exact ih c hu

/-- Pigeonhole: if every colour `0 ≤ j < k` appears on some member of a
duplicate-free list, the list has at least `k` members. -/
theorem witnesses_le_length (c : List Int) (l : List Nat) (hnd : l.Nodup)
    (k : Int) (hk : 0 ≤ k)
    (hw : ∀ j : Int, 0 ≤ j → j < k → ∃ nb ∈ l, colAt c nb = j) :
    k ≤ (l.length : Int) := by
  have hsub : (Finset.range k.toNat).image (fun j : Nat => (j : Int))
      ⊆ l.toFinset.image (fun nb => colAt c nb) := by
    intro x hx
    obtain ⟨j, hj, rfl⟩ := Finset.mem_image.mp hx
    have hjk : (j : Int) < k := by
      have := Finset.mem_range.mp hj
      omega
    obtain ⟨nb, hnb, hnbc⟩ := hw j (Int.natCast_nonneg j) hjk
    exact Finset.mem_image.mpr ⟨nb, List.mem_toFinset.mpr hnb, hnbc⟩
  have h1 : (Finset.range k.toNat).card ≤ ((Finset.range k.toNat).image (fun j : Nat => (j : Int))).card := by
    rw [Finset.card_image_of_injective _ (fun a b hab => by exact_mod_cast hab)]
  have h2 : ((Finset.range k.toNat).image (fun j : Nat => (j : Int))).card
      ≤ (l.toFinset.image (fun nb => colAt c nb)).card := Finset.card_le_card hsub
  have h3 : (l.toFinset.image (fun nb => colAt c nb)).card ≤ l.toFinset.card :=
    Finset.card_image_le
  have h4 : l.toFinset.card ≤ l.length := l.toFinset_card_le
  have h5 : (Finset.range k.toNat).card = k.toNat := Finset.card_range _
  omega

/-- What the sweep can change: only vertices of the sweep list that were
uncoloured, and only to colour `k`. -/
theorem wpSweep_change (g : Graph) (k : Int) (hk : 0 ≤ k) (l : List Nat)
    (c : List Int) (hxl : ∀ x ∈ l, x < c.length) (u : Nat) :
    colAt (wpSweep g k l c) u = colAt c u ∨
      (u ∈ l ∧ colAt c u = -1 ∧ colAt (wpSweep g k l c) u = k) := by
  induction l generalizing c with
  | nil => left; rfl
  | cons x rest ih =>
    unfold wpSweep
    split
    · next hcond =>
      have hxlen : x < c.length := hxl x (List.mem_cons_self x rest)
      by_cases hux : u = x
      · subst hux
        right
        refine ⟨List.mem_cons_self u rest, hcond.1, ?_⟩
        rw [wpSweep_keeps g k rest (setCol c u k) u
          (by rw [colAt_setCol_self c u k hxlen]; omega)]
        exact colAt_setCol_self c u k hxlen
      · have hrec := ih (setCol c x k)
          (fun y hy => by rw [length_setCol]; exact hxl y (List.mem_cons_of_mem x hy))
        rcases hrec with h | ⟨hm, hu1, hu2⟩
        · rw [colAt_setCol_ne c u x k hux] at h
          left; exact h
        · right
          rw [colAt_setCol_ne c u x k hux] at hu1
          exact ⟨List.mem_cons_of_mem x hm, hu1, hu2⟩
    · next hcond =>
      rcases ih c (fun y hy => hxl y (List.mem_cons_of_mem x hy)) with h | ⟨hm, h1, h2⟩
      · left; exact h
      · right; exact ⟨List.mem_cons_of_mem x hm, h1, h2⟩

/-- The sweep preserves properness. -/
theorem wpSweep_proper (g : Graph) (hwf : g.WF) (k : Int) (l : List Nat)
    (c : List Int) (hlen : c.length = g.vertex_count)
    (hxl : ∀ x ∈ l, x < g.vertex_count)
    (hp : ProperPartial g c) : ProperPartial g (wpSweep g k l c) := by
  induction l generalizing c with
  | nil => exact hp
  | cons x rest ih =>
    unfold wpSweep
    split
    · next hcond =>
      refine ih (setCol c x k) (by rw [length_setCol]; exact hlen)
        (fun y hy => hxl y (List.mem_cons_of_mem x hy)) ?_
      refine properPartial_setCol g hwf c hlen hp x (hxl x (List.mem_cons_self x rest)) k ?_
      intro nb hnb heq
      exact hcond.2 (List.any_eq_true.mpr ⟨nb, hnb, by simp [heq]⟩)
    · next hcond =>
      exact ih c hlen (fun y hy => hxl y (List.mem_cons_of_mem x hy)) hp

/-- After a sweep with colour `k`, every member of the sweep list that is
still uncoloured has a neighbour coloured `k`. -/
theorem wpSweep_covers (g : Graph) (k : Int) (hk : 0 ≤ k) (l : List Nat)
    (c : List Int) (hxl : ∀ x ∈ l, x < c.length) :
    ∀ u ∈ l, colAt (wpSweep g k l c) u = -1 →
      ∃ nb ∈ adjAt g u, colAt (wpSweep g k l c) nb = k := by
  induction l generalizing c with
  | nil => intro u hu; simp at hu
  | cons x rest ih =>
    intro u hu hunc
    unfold wpSweep at hunc ⊢
    by_cases hcond : colAt c x = -1 ∧ ¬(adjAt g x).any (fun nb => decide (colAt c nb = k))
    · rw [if_pos hcond] at hunc ⊢
      have hxlen : x < c.length := hxl x (List.mem_cons_self x rest)
      rcases List.mem_cons.mp hu with hux | hur
      · subst hux
        exfalso
        rw [wpSweep_keeps g k rest (setCol c u k) u
          (by rw [colAt_setCol_self c u k hxlen]; omega)] at hunc
        rw [colAt_setCol_self c u k hxlen] at hunc
        omega
      · exact ih (setCol c x k)
          (fun y hy => by rw [length_setCol]; exact hxl y (List.mem_cons_of_mem x hy))
          u hur hunc
    · rw [if_neg hcond] at hunc ⊢
      rcases List.mem_cons.mp hu with hux | hur
      · subst hux
        rcases Decidable.not_and_iff_or_not.mp hcond with h | h
        · exfalso
          rw [wpSweep_keeps g k rest c u h] at hunc
          exact h hunc
        · rw [Decidable.not_not] at h
          obtain ⟨nb, hnb, hnbk⟩ := List.any_eq_true.mp h
          refine ⟨nb, hnb, ?_⟩
          rw [wpSweep_keeps g k rest c nb (by simp at hnbk; omega)]
          simpa using hnbk
      · exact ih c (fun y hy => hxl y (List.mem_cons_of_mem x hy)) u hur hunc

/-- The sweep keeps every colour bounded by the vertex degree, given
that uncoloured sweep vertices have seen all earlier colours on their
neighbourhoods. -/
theorem wpSweep_degree_bound (g : Graph) (hwf : g.WF) (k : Int) (hk : 0 ≤ k)
    (l : List Nat) (c : List Int) (hlen : c.length = g.vertex_count)
    (hxl : ∀ x ∈ l, x < g.vertex_count)
    (hF : ∀ u ∈ l, colAt c u = -1 →
      ∀ j : Int, 0 ≤ j → j < k → ∃ nb ∈ adjAt g u, colAt c nb = j)
    (hG : ∀ u, u < g.vertex_count → colAt c u ≠ -1 →
      colAt c u ≤ ((adjAt g u).length : Int)) :
    ∀ u, u < g.vertex_count → colAt (wpSweep g k l c) u ≠ -1 →
      colAt (wpSweep g k l c) u ≤ ((adjAt g u).length : Int) := by
  induction l generalizing c with
  | nil => exact fun u hu => hG u hu
  | cons x rest ih =>
    unfold wpSweep
    split
    · next hcond =>
      have hxn : x < g.vertex_count := hxl x (List.mem_cons_self x rest)
      have hxlen : x < c.length := by omega
      have hxr : x ∈ List.range g.vertex_count := List.mem_range.mpr hxn
      -- the freshly coloured vertex has at least k neighbours
      have hdegx : k ≤ ((adjAt g x).length : Int) :=
        witnesses_le_length c (adjAt g x) (hwf.2.2.2.1 x hxr) k hk
          (hF x (List.mem_cons_self x rest) hcond.1)
      refine ih (setCol c x k) (by rw [length_setCol]; exact hlen)
        (fun y hy => hxl y (List.mem_cons_of_mem x hy)) ?_ ?_
      · intro u hu hunc j hj0 hjk
        have hux : u ≠ x := by
          intro he
          rw [he, colAt_setCol_self c x k hxlen] at hunc
          omega
        rw [colAt_setCol_ne c u x k hux] at hunc
        obtain ⟨nb, hnb, hnbj⟩ := hF u (List.mem_cons_of_mem x hu) hunc j hj0 hjk
        have hnbx : nb ≠ x := by
          intro he
          rw [he, hcond.1] at hnbj
          omega
        exact ⟨nb, hnb, by rw [colAt_setCol_ne c nb x k hnbx]; exact hnbj⟩
      · intro u hu hunc
        by_cases hux : u = x
        · subst hux
          rw [colAt_setCol_self c u k hxlen]
          exact hdegx
        · rw [colAt_setCol_ne c u x k hux] at hunc ⊢
          exact hG u hu hunc
    · next hcond =>
      exact ih c hlen (fun y hy => hxl y (List.mem_cons_of_mem x hy))
        (fun u hu => hF u (List.mem_cons_of_mem x hu)) hG

theorem colAt_replicate_neg (n : Nat) (u : Nat) :
    colAt (List.replicate n (-1)) u = -1 := by
  unfold colAt
  rcases Nat.lt_or_ge u n with h | h
  · simp [List.getD, List.getElem?_replicate, h]
  · have hle : (List.replicate n (-1 : Int)).length ≤ u := by
      simp only [List.length_replicate]
      omega
    simp [List.getD, List.getElem?_eq_none hle]

/-- Invariant bundle for the Welsh–Powell outer scan. -/
theorem wpOuter_spec (g : Graph) (hwf : g.WF) :
    ∀ (l : List Nat) (c : List Int) (k : Int),
    c.length = g.vertex_count → 0 ≤ k →
    (∀ x ∈ l, x < g.vertex_count) →
    ProperPartial g c →
    (∀ u, u < g.vertex_count → -1 ≤ colAt c u ∧ colAt c u < k) →
    (∀ u, u < g.vertex_count → u ∉ l → colAt c u ≠ -1) →
    (∀ u ∈ l, colAt c u = -1 →
      ∀ j : Int, 0 ≤ j → j < k → ∃ nb ∈ adjAt g u, colAt c nb = j) →
    (∀ u, u < g.vertex_count → colAt c u ≠ -1 →
      colAt c u ≤ ((adjAt g u).length : Int)) →
    (wpOuter g l c k).length = g.vertex_count ∧
    ProperPartial g (wpOuter g l c k) ∧
    (∀ u, u < g.vertex_count → 0 ≤ colAt (wpOuter g l c k) u ∧
      colAt (wpOuter g l c k) u ≤ ((adjAt g u).length : Int)) := by
  intro l
  induction l with
  | nil =>
    intro c k hlen hk _ hp hrange hD _ hG
    simp only [wpOuter]
    refine ⟨hlen, hp, ?_⟩
    intro u hu
    have hnc := hD u hu (List.not_mem_nil u)
    have hr := hrange u hu
    exact ⟨by omega, hG u hu hnc⟩
  | cons v rest ih =>
    intro c k hlen hk hxl hp hrange hD hF hG
    have hvn : v < g.vertex_count := hxl v (List.mem_cons_self v rest)
    have hvlen : v < c.length := by omega
    unfold wpOuter
    by_cases hcol : colAt c v ≠ -1
    · rw [if_pos hcol]
      refine ih c k hlen hk (fun y hy => hxl y (List.mem_cons_of_mem v hy)) hp hrange ?_
        (fun u hu => hF u (List.mem_cons_of_mem v hu)) hG
      intro u hu hnr
      by_cases huv : u = v
      · exact huv ▸ hcol
      · exact hD u hu (fun hm => (List.mem_cons.mp hm).elim (fun h => huv h) hnr)
    · rw [if_neg hcol]
      rw [Decidable.not_not] at hcol
      set c1 := setCol c v k with hc1
      have hc1len : c1.length = g.vertex_count := by rw [hc1, length_setCol]; exact hlen
      have hfree : ∀ nb ∈ adjAt g v, colAt c nb ≠ k := by
        intro nb hnb
        by_cases hnbn : nb < g.vertex_count
        · have := hrange nb hnbn
          omega
        · exact absurd (hwf.2.1 v (List.mem_range.mpr hvn) nb hnb) hnbn
      have hp1 : ProperPartial g c1 := properPartial_setCol g hwf c hlen hp v hvn k hfree
      have hc1v : colAt c1 v = k := colAt_setCol_self c v k hvlen
      have hc1other : ∀ u, u ≠ v → colAt c1 u = colAt c u := fun u hu =>
        colAt_setCol_ne c u v k hu
      have hrestlt : ∀ x ∈ rest, x < g.vertex_count :=
        fun y hy => hxl y (List.mem_cons_of_mem v hy)
      have hrestlen : ∀ x ∈ rest, x < c1.length := fun y hy => by
        have := hrestlt y hy; omega
      -- F over c1, for colours < k
      have hF1 : ∀ u ∈ rest, colAt c1 u = -1 →
          ∀ j : Int, 0 ≤ j → j < k → ∃ nb ∈ adjAt g u, colAt c1 nb = j := by
        intro u hu hunc j hj0 hjk
        have huv : u ≠ v := by
          intro he
          rw [he, hc1v] at hunc
          omega
        rw [hc1other u huv] at hunc
        obtain ⟨nb, hnb, hnbj⟩ := hF u (List.mem_cons_of_mem v hu) hunc j hj0 hjk
        have hnbv : nb ≠ v := by
          intro he
          rw [he, hcol] at hnbj
          omega
        exact ⟨nb, hnb, by rw [hc1other nb hnbv]; exact hnbj⟩
      -- G over c1
      have hG1 : ∀ u, u < g.vertex_count → colAt c1 u ≠ -1 →
          colAt c1 u ≤ ((adjAt g u).length : Int) := by
        intro u hu hunc
        by_cases huv : u = v
        · subst huv
          rw [hc1v]
          exact witnesses_le_length c (adjAt g u) (hwf.2.2.2.1 u (List.mem_range.mpr hu))
            k hk (hF u (List.mem_cons_self u rest) hcol)
        · rw [hc1other u huv] at hunc ⊢
          exact hG u hu hunc
      set c2 := wpSweep g k rest c1 with hc2
      have hc2len : c2.length = g.vertex_count := by rw [hc2, wpSweep_length]; exact hc1len
      have hp2 : ProperPartial g c2 := wpSweep_proper g hwf k rest c1 hc1len hrestlt hp1
      have hkeep : ∀ u, colAt c1 u ≠ -1 → colAt c2 u = colAt c1 u :=
        fun u hu => wpSweep_keeps g k rest c1 u hu
      have hchange := wpSweep_change g k hk rest c1 hrestlen
      -- entry ranges for c2
      have hrange2 : ∀ u, u < g.vertex_count → -1 ≤ colAt c2 u ∧ colAt c2 u < k + 1 := by
        intro u hu
        rcases hchange u with h | ⟨_, _, h⟩
        · rw [h]
          by_cases huv : u = v
          · rw [huv, hc1v]; omega
          · rw [hc1other u huv]
            have := hrange u hu
            omega
        · rw [h]; omega
      -- D for the tail
      have hD2 : ∀ u, u < g.vertex_count → u ∉ rest → colAt c2 u ≠ -1 := by
        intro u hu hnr
        by_cases huv : u = v
        · subst huv
          rw [hkeep u (by rw [hc1v]; omega), hc1v]
          omega
        · have := hD u hu (fun hm => (List.mem_cons.mp hm).elim (fun h => huv h) hnr)
          rw [hkeep u (by rw [hc1other u huv]; exact this), hc1other u huv]
          exact this
      -- F for the tail at palette k+1
      have hF2 : ∀ u ∈ rest, colAt c2 u = -1 →
          ∀ j : Int, 0 ≤ j → j < k + 1 → ∃ nb ∈ adjAt g u, colAt c2 nb = j := by
        intro u hu hunc j hj0 hjk
        have hunc1 : colAt c1 u = -1 := by
          by_contra h
          rw [hkeep u h] at hunc
          exact h hunc
        rcases Int.lt_or_le j k with hjlt | hjge
        · obtain ⟨nb, hnb, hnbj⟩ := hF1 u hu hunc1 j hj0 hjlt
          refine ⟨nb, hnb, ?_⟩
          rw [hkeep nb (by rw [hnbj]; omega)]
          exact hnbj
        · have hjeq : j = k := by omega
          subst hjeq
          exact wpSweep_covers g j hj0 rest c1 hrestlen u hu hunc
      -- G over c2
      have hG2 : ∀ u, u < g.vertex_count → colAt c2 u ≠ -1 →
          colAt c2 u ≤ ((adjAt g u).length : Int) :=
        wpSweep_degree_bound g hwf k hk rest c1 hc1len hrestlt hF1 hG1
      exact ih c2 (k + 1) hc2len (by omega) hrestlt hp2 hrange2 hD2 hF2 hG2

/-- Full specification of the embedded Welsh–Powell colourer. -/
theorem welsh_powell_spec (g : Graph) (hwf : g.WF) :
    (colour_with_welsh_powell g).length = g.vertex_count ∧
    ProperPartial g (colour_with_welsh_powell g) ∧
    (∀ u, u < g.vertex_count → 0 ≤ colAt (colour_with_welsh_powell g) u ∧
      colAt (colour_with_welsh_powell g) u ≤ ((adjAt g u).length : Int)) := by
  unfold colour_with_welsh_powell
  by_cases hn : g.vertex_count = 0
  · rw [if_pos hn]
    refine ⟨by simp [hn], ?_, ?_⟩
    · intro u hu
      rw [hn] at hu
      simp at hu
    · intro u hu
      rw [hn] at hu
      omega
  · rw [if_neg hn]
    exact wpOuter_spec g hwf (degreeOrder g) (List.replicate g.vertex_count (-1)) 0
      (by simp) (le_refl 0)
      (fun x hx => (mem_degreeOrder g x).mp hx)
      (fun u _ v _ _ => colAt_replicate_neg _ u)
      (fun u _ => by rw [colAt_replicate_neg]; omega)
      (fun u hu hnm => absurd ((mem_degreeOrder g u).mpr hu) hnm)
      (fun u _ _ j hj0 hjk => by omega)
      (fun u _ hne => absurd (colAt_replicate_neg _ u) hne)

/-! ## DSATUR (`dsatur.cpp`, `colour_with_dsatur`)

The C++ keeps the uncoloured vertices in a `std::set<NodeInfo,
MaxSatCmp>` whose keys `(sat, deg, v)` are updated incrementally; the
set therefore always holds exactly the uncoloured vertices under their
current keys, and `*Q.begin()` is the minimum under `MaxSatCmp`.  The
embedding keeps the same `sat` / `deg` / `nb_colours` state and selects
that minimum by a scan. -/

/-- `MaxSatCmp`: `a` precedes `b` (higher saturation, then higher
degree, then smaller id). -/
def maxSatBefore (a b : Nat × Nat × Nat) : Bool :=
  if a.1 ≠ b.1 then decide (a.1 > b.1)
  else if a.2.1 ≠ b.2.1 then decide (a.2.1 > b.2.1)
  else decide (a.2.2 < b.2.2)

/-- DSATUR working state: per-vertex colour, saturation, remaining
degree and the set of neighbour colours (`nb_colours`). -/
structure DsaturState where
  colour : List Int
  sat : List Nat
  deg : List Nat
  nbCols : List (List Int)

/-- `*Q.begin()`: the uncoloured vertex whose `(sat, deg, id)` key is
minimal under `MaxSatCmp`. -/
def dsaturSelect (n : Nat) (st : DsaturState) : Option Nat :=
  (List.range n).foldl (fun acc v =>
    if colAt st.colour v ≠ -1 then acc
    else
      match acc with
      | none => some v
      | some b =>
        if maxSatBefore (st.sat.getD v 0, st.deg.getD v 0, v)
            (st.sat.getD b 0, st.deg.getD b 0, b) then some v else acc) none

/-- The neighbour bookkeeping after `u` received colour `c`: for every
still-uncoloured neighbour, record the colour, bump `sat` when new,
and decrement the remaining degree. -/
def dsaturUpdate (g : Graph) (u : Nat) (c : Int) (st : DsaturState) : DsaturState :=
  (adjAt g u).foldl (fun st' nb =>
    if colAt st'.colour nb = -1 then
      { st' with
        sat := if c ∈ st'.nbCols.getD nb [] then st'.sat
               else st'.sat.set nb (st'.sat.getD nb 0 + 1),
        nbCols := if c ∈ st'.nbCols.getD nb [] then st'.nbCols
                  else st'.nbCols.set nb (c :: st'.nbCols.getD nb []),
        deg := if st'.deg.getD nb 0 > 0 then st'.deg.set nb (st'.deg.getD nb 0 - 1)
               else st'.deg }
    else st') st

/-- One iteration of the DSATUR loop body. -/
def dsaturStep (g : Graph) (st : DsaturState) : DsaturState :=
  match dsaturSelect g.vertex_count st with
  | none => st
  | some u =>
    let c := smallestFree (neighbourCols g st.colour u)
    let st1 := { st with colour := setCol st.colour u c }
    dsaturUpdate g u c st1

def dsaturRun (g : Graph) : Nat → DsaturState → DsaturState
  | 0, st => st
  | fuel + 1, st => dsaturRun g fuel (dsaturStep g st)

/-- `colour_with_dsatur`. -/
def colour_with_dsatur (g : Graph) : List Int :=
  if g.vertex_count = 0 then []
  else
    (dsaturRun g g.vertex_count
      { colour := List.replicate g.vertex_count (-1)
        sat := List.replicate g.vertex_count 0
        deg := (List.range g.vertex_count).map (fun u => (adjAt g u).length)
        nbCols := List.replicate g.vertex_count [] }).colour

theorem dsaturSelect_some_spec (n : Nat) (st : DsaturState) :
    ∀ u, dsaturSelect n st = some u → u < n ∧ colAt st.colour u = -1 := by
  unfold dsaturSelect
  suffices h : ∀ (l : List Nat) (acc : Option Nat),
      (∀ x ∈ l, x < n) →
      (∀ u, acc = some u → u < n ∧ colAt st.colour u = -1) →
      ∀ u, (l.foldl (fun acc v =>
        if colAt st.colour v ≠ -1 then acc
        else
          match acc with
          | none => some v
          | some b =>
            if maxSatBefore (st.sat.getD v 0, st.deg.getD v 0, v)
                (st.sat.getD b 0, st.deg.getD b 0, b) then some v else acc) acc) = some u →
        u < n ∧ colAt st.colour u = -1 by
    exact h (List.range n) none (fun x hx => List.mem_range.mp hx) (by simp)
  intro l
  induction l with
  | nil => intro acc _ hacc u hu; exact hacc u hu
  | cons x t ih =>
    intro acc hl hacc u hu
    rw [List.foldl_cons] at hu
    refine ih _ (fun y hy => hl y (List.mem_cons_of_mem x hy)) ?_ u hu
    intro w hw
    by_cases hcol : colAt st.colour x ≠ -1
    · rw [if_pos hcol] at hw
      exact hacc w hw
    · rw [if_neg hcol] at hw
      rw [Decidable.not_not] at hcol
      match acc, hw with
      | none, hw =>
        simp at hw
        exact hw ▸ ⟨hl x (List.mem_cons_self x t), hcol⟩
      | some b, hw =>
        simp only at hw
        split at hw
        · cases hw
          exact ⟨hl x (List.mem_cons_self x t), hcol⟩
        · exact hacc w hw

theorem dsaturSelect_none_spec (n : Nat) (st : DsaturState) :
    dsaturSelect n st = none → ∀ v, v < n → colAt st.colour v ≠ -1 := by
  unfold dsaturSelect
  suffices h : ∀ (l : List Nat) (acc : Option Nat),
      (l.foldl (fun acc v =>
        if colAt st.colour v ≠ -1 then acc
        else
          match acc with
          | none => some v
          | some b =>
            if maxSatBefore (st.sat.getD v 0, st.deg.getD v 0, v)
                (st.sat.getD b 0, st.deg.getD b 0, b) then some v else acc) acc) = none →
      acc = none ∧ ∀ v ∈ l, colAt st.colour v ≠ -1 by
    intro hn v hv
    exact (h (List.range n) none hn).2 v (List.mem_range.mpr hv)
  intro l
  induction l with
  | nil => intro acc h; exact ⟨h, by simp⟩
  | cons x t ih =>
    intro acc h
    rw [List.foldl_cons] at h
    have hrec := ih _ h
    by_cases hcol : colAt st.colour x ≠ -1
    · rw [if_pos hcol] at hrec
      exact ⟨hrec.1, fun v hv => (List.mem_cons.mp hv).elim (fun he => he ▸ hcol) (hrec.2 v)⟩
    · rw [if_neg hcol] at hrec
      exfalso
      obtain ⟨h1, _⟩ := hrec
      cases acc with
      | none => simp at h1
      | some b =>
        split at h1 <;>
          first
          | exact Option.noConfusion h1
          | (split at h1 <;> exact Option.noConfusion h1)

theorem dsaturUpdate_colour (g : Graph) (u : Nat) (c : Int) (st : DsaturState) :
    (dsaturUpdate g u c st).colour = st.colour := by
  unfold dsaturUpdate
  suffices h : ∀ (l : List Nat) (st' : DsaturState),
      (l.foldl (fun st' nb =>
        if colAt st'.colour nb = -1 then
          { st' with
            sat := if c ∈ st'.nbCols.getD nb [] then st'.sat
                   else st'.sat.set nb (st'.sat.getD nb 0 + 1),
            nbCols := if c ∈ st'.nbCols.getD nb [] then st'.nbCols
                      else st'.nbCols.set nb (c :: st'.nbCols.getD nb []),
            deg := if st'.deg.getD nb 0 > 0 then st'.deg.set nb (st'.deg.getD nb 0 - 1)
                   else st'.deg }
        else st') st').colour = st'.colour by
    exact h (adjAt g u) st
  intro l
  induction l with
  | nil => intro st'; rfl
  | cons x t ih =>
    intro st'
    rw [List.foldl_cons]
    rw [ih]
    split <;> rfl

/-- Number of uncoloured vertices. -/
def uncolouredCount (n : Nat) (c : List Int) : Nat :=
  (List.range n).countP (fun v => decide (colAt c v = -1))

theorem uncolouredCount_setCol (n : Nat) (c : List Int) (u : Nat)
    (hun : u < n) (hlen : u < c.length) (hc : colAt c u = -1) (x : Int) (hx : 0 ≤ x) :
    uncolouredCount n (setCol c u x) + 1 = uncolouredCount n c := by
  have hupd := countP_update_point (List.nodup_range n) u
    (fun v => decide (colAt (setCol c u x) v = -1))
    (fun v => decide (colAt c v = -1))
    (fun v _ hvu => by
      show decide (colAt (setCol c u x) v = -1) = decide (colAt c v = -1)
      rw [colAt_setCol_ne c v u x hvu])
  have hq : ((fun v => decide (colAt c v = -1)) u) = true := by
    simpa using hc
  have hp : ((fun v => decide (colAt (setCol c u x) v = -1)) u) = false := by
    simp only [decide_eq_false_iff_not]
    rw [colAt_setCol_self c u x hlen]
    omega
  have hur : u ∈ List.range n := List.mem_range.mpr hun
  rw [hq, hp] at hupd
  simp [hur] at hupd
  unfold uncolouredCount
  omega

theorem uncolouredCount_zero_all (n : Nat) (c : List Int)
    (h : uncolouredCount n c = 0) : ∀ v, v < n → colAt c v ≠ -1 := by
  unfold uncolouredCount at h
  rw [List.countP_eq_zero] at h
  intro v hv heq
  have := h v (List.mem_range.mpr hv)
  simp [heq] at this

/-- Colour-level behaviour of one DSATUR step. -/
theorem dsaturStep_colour (g : Graph) (st : DsaturState) :
    (dsaturStep g st).colour = st.colour ∨
      ∃ u, u < g.vertex_count ∧ colAt st.colour u = -1 ∧
        (dsaturStep g st).colour
          = setCol st.colour u (smallestFree (neighbourCols g st.colour u)) := by
  unfold dsaturStep
  cases hsel : dsaturSelect g.vertex_count st with
  | none => left; rfl
  | some u =>
    right
    obtain ⟨hun, hunc⟩ := dsaturSelect_some_spec g.vertex_count st u hsel
    exact ⟨u, hun, hunc, by rw [dsaturUpdate_colour]⟩

/-- `neighbourCols` has at most `deg` entries and contains every
non-negative colour of a neighbour. -/
theorem neighbourCols_spec (g : Graph) (c : List Int) (u : Nat) :
    (neighbourCols g c u).length ≤ (adjAt g u).length ∧
    ∀ nb ∈ adjAt g u, 0 ≤ colAt c nb → colAt c nb ∈ neighbourCols g c u := by
  constructor
  · calc (neighbourCols g c u).length
        ≤ ((adjAt g u).map (fun nb => colAt c nb)).length := List.length_filter_le _ _
      _ = (adjAt g u).length := List.length_map _ _
  · intro nb hnb hpos
    unfold neighbourCols
    rw [List.mem_filter]
    exact ⟨List.mem_map.mpr ⟨nb, hnb, rfl⟩, by simpa using hpos⟩

/-- Invariant carried by the DSATUR iteration (about the colour list
only; the priority bookkeeping does not influence these facts). -/
def DsaturInv (g : Graph) (st : DsaturState) : Prop :=
  st.colour.length = g.vertex_count ∧
  ProperPartial g st.colour ∧
  (∀ v, v < g.vertex_count → -1 ≤ colAt st.colour v ∧
    (colAt st.colour v ≠ -1 → colAt st.colour v ≤ ((adjAt g v).length : Int)))

theorem dsaturStep_inv (g : Graph) (hwf : g.WF) (st : DsaturState)
    (hinv : DsaturInv g st) : DsaturInv g (dsaturStep g st) := by
  obtain ⟨hlen, hp, hrange⟩ := hinv
  rcases dsaturStep_colour g st with h | ⟨u, hun, hunc, h⟩
  · exact ⟨h ▸ hlen, h ▸ hp, by rw [h]; exact hrange⟩
  · set ncol := smallestFree (neighbourCols g st.colour u) with hncol
    have hpos : 0 ≤ ncol := smallestFree_nonneg _
    have hnotmem : ncol ∉ neighbourCols g st.colour u := smallestFree_not_mem _
    have hbound : ncol ≤ ((neighbourCols g st.colour u).length : Int) := smallestFree_le _
    have hfree : ∀ nb ∈ adjAt g u, colAt st.colour nb ≠ ncol := by
      intro nb hnb heq
      rcases Int.lt_or_le (colAt st.colour nb) 0 with hneg | hge
      · omega
      · exact hnotmem (heq ▸ (neighbourCols_spec g st.colour u).2 nb hnb hge)
    have hulen : u < st.colour.length := by omega
    refine ⟨?_, ?_, ?_⟩
    · rw [h, length_setCol]; exact hlen
    · rw [h]
      exact properPartial_setCol g hwf st.colour hlen hp u hun ncol hfree
    · intro v hv
      rw [h]
      by_cases hvu : v = u
      · subst hvu
        rw [colAt_setCol_self st.colour v ncol hulen]
        refine ⟨by omega, fun _ => ?_⟩
        calc ncol ≤ ((neighbourCols g st.colour v).length : Int) := hbound
          _ ≤ ((adjAt g v).length : Int) := by
              exact_mod_cast (neighbourCols_spec g st.colour v).1
      · rw [colAt_setCol_ne st.colour v u ncol hvu]
        exact hrange v hv

theorem dsaturRun_spec (g : Graph) (hwf : g.WF) :
    ∀ (fuel : Nat) (st : DsaturState), DsaturInv g st →
      uncolouredCount g.vertex_count st.colour ≤ fuel →
      DsaturInv g (dsaturRun g fuel st) ∧
      uncolouredCount g.vertex_count (dsaturRun g fuel st).colour = 0 := by
  intro fuel
  induction fuel with
  | zero =>
    intro st hinv hcount
    show DsaturInv g st ∧ uncolouredCount g.vertex_count st.colour = 0
    exact ⟨hinv, by omega⟩
  | succ fuel ih =>
    intro st hinv hcount
    show DsaturInv g (dsaturRun g fuel (dsaturStep g st)) ∧ _
    have hinv' := dsaturStep_inv g hwf st hinv
    rcases dsaturStep_colour g st with h | ⟨u, hun, hunc, h⟩
    · -- no vertex selected: everything is already coloured
      have hnone : dsaturSelect g.vertex_count st = none := by
        unfold dsaturStep at h
        cases hsel : dsaturSelect g.vertex_count st with
        | none => rfl
        | some u =>
          exfalso
          obtain ⟨hun, hunc⟩ := dsaturSelect_some_spec g.vertex_count st u hsel
          have hstep : (dsaturStep g st).colour
              = setCol st.colour u (smallestFree (neighbourCols g st.colour u)) := by
            unfold dsaturStep
            rw [hsel]
            exact dsaturUpdate_colour g u _ _
          have hcontr : setCol st.colour u (smallestFree (neighbourCols g st.colour u))
              = st.colour := hstep.symm.trans h
          have hulen : u < st.colour.length := by
            have := hinv.1; omega
          have hval := colAt_setCol_self st.colour u
            (smallestFree (neighbourCols g st.colour u)) hulen
          rw [hcontr] at hval
          have hpos := smallestFree_nonneg (neighbourCols g st.colour u)
          rw [hunc] at hval
          omega
      have hall := dsaturSelect_none_spec g.vertex_count st hnone
      have hzero : uncolouredCount g.vertex_count st.colour = 0 := by
        unfold uncolouredCount
        rw [List.countP_eq_zero]
        intro v hv
        simp only [decide_eq_true_eq]
        exact hall v (List.mem_range.mp hv)
      have := ih (dsaturStep g st) hinv' (by rw [h]; omega)
      exact this
    · have hulen : u < st.colour.length := by
        have := hinv.1; omega
      have hdecr := uncolouredCount_setCol g.vertex_count st.colour u hun hulen hunc
        (smallestFree (neighbourCols g st.colour u)) (smallestFree_nonneg _)
      have hposcount : 0 < uncolouredCount g.vertex_count st.colour := by omega
      exact ih (dsaturStep g st) hinv' (by rw [h]; omega)

/-- Full specification of the embedded DSATUR colourer. -/
theorem dsatur_spec (g : Graph) (hwf : g.WF) :
    (colour_with_dsatur g).length = g.vertex_count ∧
    ProperPartial g (colour_with_dsatur g) ∧
    (∀ u, u < g.vertex_count → 0 ≤ colAt (colour_with_dsatur g) u ∧
      colAt (colour_with_dsatur g) u ≤ ((adjAt g u).length : Int)) := by
  unfold colour_with_dsatur
  by_cases hn : g.vertex_count = 0
  · rw [if_pos hn]
    refine ⟨by simp [hn], ?_, ?_⟩
    · intro u hu
      rw [hn] at hu
      simp at hu
    · intro u hu
      rw [hn] at hu
      omega
  · rw [if_neg hn]
    have hinit : DsaturInv g
        { colour := List.replicate g.vertex_count (-1)
          sat := List.replicate g.vertex_count 0
          deg := (List.range g.vertex_count).map (fun u => (adjAt g u).length)
          nbCols := List.replicate g.vertex_count [] } := by
      refine ⟨by simp, ?_, ?_⟩
      · intro u _ v _ _
        exact colAt_replicate_neg _ u
      · intro v _
        rw [colAt_replicate_neg]
        exact ⟨le_refl _, fun h => absurd rfl h⟩
    have hcount : uncolouredCount g.vertex_count (List.replicate g.vertex_count (-1) : List Int)
        ≤ g.vertex_count := by
      unfold uncolouredCount
      calc (List.range g.vertex_count).countP _ ≤ (List.range g.vertex_count).length :=
            List.countP_le_length _
        _ = g.vertex_count := List.length_range _
    obtain ⟨⟨hlen, hp, hrange⟩, hzero⟩ := dsaturRun_spec g hwf g.vertex_count _ hinit hcount
    refine ⟨hlen, hp, ?_⟩
    intro u hu
    have hall := uncolouredCount_zero_all _ _ hzero u hu
    have := hrange u hu
    exact ⟨by omega, this.2 hall⟩

/-! ## Greedy repair under a bounded palette
(`greedy_repair_fixed_k`, identical in `genetic.cpp` and the SA unit up
to an index guard that the graph invariants make vacuous). -/

/-- `banned[c] = 1` iff some (already-coloured) neighbour carries `c`;
the source only ever queries colours in `[0, K)`, for which the bitmap
marking agrees with this membership test. -/
def bannedB (g : Graph) (colours : List Int) (v : Nat) (c : Int) : Bool :=
  (adjAt g v).any (fun nb => decide (colAt colours nb = c))

/-- The `while (c < palette_k && banned[c]) ++c` scan:
first free palette colour, if any. -/
def firstFree (g : Graph) (colours : List Int) (K : Nat) (v : Nat) : Option Nat :=
  (List.range K).find? (fun c => !bannedB g colours v (c : Int))

/-- The conflict-minimising fallback: scan `tryc = 0 .. K-1`, keep the
first strict improvement (`best_conf` starts above any realisable
count, so `tryc = 0` is taken first). -/
def minConflictColour (g : Graph) (colours : List Int) (K : Nat) (v : Nat) : Nat :=
  ((List.range K).foldl (fun (best : Nat × Nat) (tryc : Nat) =>
    let conf := (adjAt g v).countP (fun nb => decide (colAt colours nb = (tryc : Int)))
    if conf < best.2 then (tryc, conf) else best)
    (0, (adjAt g v).length + 1)).1

/-- The colour `greedy_repair_fixed_k` assigns to `v` given the partial
result so far. -/
def repairAssign (g : Graph) (seed : List Int) (K : Nat) (colours : List Int) (v : Nat) : Int :=
  let preferred := colAt seed v
  if 0 ≤ preferred ∧ preferred < (K : Int) ∧ ¬ bannedB g colours v preferred then
    preferred
  else
    match firstFree g colours K v with
    | some c => (c : Int)
    | none => (minConflictColour g colours K v : Int)

def repairGo (g : Graph) (seed : List Int) (K : Nat) : List Nat → List Int → List Int
  | [], colours => colours
  | v :: rest, colours =>
    repairGo g seed K rest (setCol colours v (repairAssign g seed K colours v))

/-- `greedy_repair_fixed_k`: vertices in descending-degree order, each
assigned per `repairAssign`, starting from all-uncoloured. -/
def greedy_repair_fixed_k (g : Graph) (seed : List Int) (K : Nat) : List Int :=
  repairGo g seed K (degreeOrder g) (List.replicate g.vertex_count (-1))

theorem minConflictColour_lt (g : Graph) (colours : List Int) (K : Nat) (hK : 1 ≤ K)
    (v : Nat) : minConflictColour g colours K v < K := by
  unfold minConflictColour
  suffices h : ∀ (l : List Nat) (best : Nat × Nat),
      (∀ x ∈ l, x < K) → best.1 < K →
      (l.foldl (fun (best : Nat × Nat) (tryc : Nat) =>
        let conf := (adjAt g v).countP (fun nb => decide (colAt colours nb = (tryc : Int)))
        if conf < best.2 then (tryc, conf) else best) best).1 < K by
    exact h (List.range K) (0, (adjAt g v).length + 1)
      (fun x hx => List.mem_range.mp hx) (by omega)
  intro l
  induction l with
  | nil => intro best _ hb; exact hb
  | cons x t ih =>
    intro best hl hb
    rw [List.foldl_cons]
    refine ih _ (fun y hy => hl y (List.mem_cons_of_mem x hy)) ?_
    simp only
    split
    · exact hl x (List.mem_cons_self x t)
    · exact hb

theorem repairAssign_range (g : Graph) (seed : List Int) (K : Nat) (hK : 1 ≤ K)
    (colours : List Int) (v : Nat) :
    0 ≤ repairAssign g seed K colours v ∧ repairAssign g seed K colours v < (K : Int) := by
  unfold repairAssign
  by_cases hpref : 0 ≤ colAt seed v ∧ colAt seed v < (K : Int) ∧
      ¬ bannedB g colours v (colAt seed v) = true
  · rw [if_pos hpref]
    exact ⟨hpref.1, hpref.2.1⟩
  · rw [if_neg hpref]
    cases hff : firstFree g colours K v with
    | some c =>
      have hc : c < K := List.mem_range.mp (List.mem_of_find?_eq_some hff)
      show (0 ≤ (c : Int)) ∧ ((c : Int) < (K : Int))
      exact ⟨by exact_mod_cast Nat.zero_le c, by exact_mod_cast hc⟩
    | none =>
      have hm := minConflictColour_lt g colours K hK v
      show (0 ≤ (minConflictColour g colours K v : Int)) ∧
        ((minConflictColour g colours K v : Int) < (K : Int))
      exact ⟨by exact_mod_cast Nat.zero_le _, by exact_mod_cast hm⟩

theorem repairGo_length (g : Graph) (seed : List Int) (K : Nat) (l : List Nat)
    (colours : List Int) :
    (repairGo g seed K l colours).length = colours.length := by
  induction l generalizing colours with
  | nil => rfl
  | cons v rest ih =>
    unfold repairGo
    rw [ih, length_setCol]

/-- Vertices not in the remaining traversal keep their colour. -/
theorem repairGo_keeps (g : Graph) (seed : List Int) (K : Nat) (l : List Nat)
    (colours : List Int) (u : Nat) (hu : u ∉ l) :
    colAt (repairGo g seed K l colours) u = colAt colours u := by
  induction l generalizing colours with
  | nil => rfl
  | cons v rest ih =>
    unfold repairGo
    have huv : u ≠ v := fun he => hu (he ▸ List.mem_cons_self v rest)
    rw [ih _ (fun hm => hu (List.mem_cons_of_mem v hm)),
      colAt_setCol_ne _ u v _ huv]

/-- After the traversal, every traversed vertex holds a palette colour. -/
theorem repairGo_range (g : Graph) (seed : List Int) (K : Nat) (hK : 1 ≤ K)
    (l : List Nat) (colours : List Int)
    (hl : ∀ x ∈ l, x < colours.length) (hnd : l.Nodup) :
    ∀ u ∈ l, 0 ≤ colAt (repairGo g seed K l colours) u ∧
      colAt (repairGo g seed K l colours) u < (K : Int) := by
  induction l generalizing colours with
  | nil => intro u hu; simp at hu
  | cons v rest ih =>
    intro u hu
    unfold repairGo
    rcases List.mem_cons.mp hu with huv | hur
    · subst huv
      have hnr : u ∉ rest := (List.nodup_cons.mp hnd).1
      rw [repairGo_keeps g seed K rest _ u hnr,
        colAt_setCol_self _ u _ (hl u (List.mem_cons_self u rest))]
      exact repairAssign_range g seed K hK colours u
    · exact ih _ (fun y hy => by rw [length_setCol]; exact hl y (List.mem_cons_of_mem v hy))
        (List.nodup_cons.mp hnd).2 u hur

/-- `greedy_repair_fixed_k` always returns a palette-respecting vector
of length `n` (for palette size at least 1). -/
theorem greedy_repair_ColOK (g : Graph) (seed : List Int) (K : Nat) (hK : 1 ≤ K) :
    ColOK g (K : Int) (greedy_repair_fixed_k g seed K) := by
  unfold greedy_repair_fixed_k
  constructor
  · rw [repairGo_length]
    simp
  · intro v hv
    exact repairGo_range g seed K hK (degreeOrder g) _
      (fun x hx => by
        rw [List.length_replicate]
        exact (mem_degreeOrder g x).mp hx)
      (degreeOrder_nodup g) v ((mem_degreeOrder g v).mpr (List.mem_range.mp hv))

/-- `find?` over `range'` returns the first satisfying value. -/
theorem find?_range'_some (p : Nat → Bool) :
    ∀ (n s c : Nat), (List.range' s n).find? p = some c →
      p c = true ∧ s ≤ c ∧ c < s + n ∧ ∀ j, s ≤ j → j < c → p j = false := by
  intro n
  induction n with
  | zero => intro s c h; simp at h
  | succ n ih =>
    intro s c h
    rw [List.range'_succ] at h
    by_cases hps : p s = true
    · rw [List.find?_cons_of_pos _ hps] at h
      cases h
      exact ⟨hps, le_refl s, by omega, fun j h1 h2 => by omega⟩
    · rw [List.find?_cons_of_neg _ hps] at h
      obtain ⟨h1, h2, h3, h4⟩ := ih (s + 1) c h
      refine ⟨h1, by omega, by omega, ?_⟩
      intro j hj1 hj2
      rcases Nat.eq_or_lt_of_le hj1 with he | hlt
      · subst he
        simpa using hps
      · exact h4 j (by omega) hj2

theorem find?_range_some (K : Nat) (p : Nat → Bool) (c : Nat)
    (h : (List.range K).find? p = some c) :
    p c = true ∧ c < K ∧ ∀ j, j < c → p j = false := by
  rw [List.range_eq_range'] at h
  obtain ⟨h1, _, h3, h4⟩ := find?_range'_some p K 0 c h
  exact ⟨h1, by omega, fun j hj => h4 j (by omega) hj⟩

/-- **Repair keeps a valid seed unchanged.**  Processing order does not
matter: every vertex keeps its seed colour. -/
theorem repairGo_valid_seed (g : Graph) (hwf : g.WF) (seed : List Int) (K : Nat)
    (hseed : ∀ u, u < g.vertex_count →
      0 ≤ colAt seed u ∧ colAt seed u < (K : Int))
    (hdist : ∀ u ∈ List.range g.vertex_count, ∀ nb ∈ adjAt g u,
      colAt seed u ≠ colAt seed nb) :
    ∀ (l : List Nat) (colours : List Int),
      l.Nodup → (∀ x ∈ l, x < g.vertex_count) →
      colours.length = g.vertex_count →
      (∀ u, u < g.vertex_count → u ∉ l → colAt colours u = colAt seed u) →
      (∀ u, u < g.vertex_count → u ∈ l → colAt colours u = -1) →
      ∀ u, u < g.vertex_count →
        colAt (repairGo g seed K l colours) u = colAt seed u := by
  intro l
  induction l with
  | nil =>
    intro colours _ _ _ hdone _ u hu
    exact hdone u hu (List.not_mem_nil u)
  | cons v rest ih =>
    intro colours hnd hl hlen hdone hunc u hu
    have hvn : v < g.vertex_count := hl v (List.mem_cons_self v rest)
    have hvlen : v < colours.length := by omega
    have hvr : v ∈ List.range g.vertex_count := List.mem_range.mpr hvn
    -- the assigned colour is the seed colour
    have hassign : repairAssign g seed K colours v = colAt seed v := by
      unfold repairAssign
      have hcond : 0 ≤ colAt seed v ∧ colAt seed v < (K : Int) ∧
          ¬ bannedB g colours v (colAt seed v) = true := by
        refine ⟨(hseed v hvn).1, (hseed v hvn).2, ?_⟩
        intro hb
        obtain ⟨nb, hnb, hnbv⟩ := List.any_eq_true.mp hb
        simp only [decide_eq_true_eq] at hnbv
        have hnbn : nb < g.vertex_count := hwf.2.1 v hvr nb hnb
        by_cases hnbl : nb ∈ v :: rest
        · have := hunc nb hnbn hnbl
          rw [this] at hnbv
          have := (hseed v hvn).1
          omega
        · have := hdone nb hnbn hnbl
          rw [this] at hnbv
          exact hdist v hvr nb hnb hnbv.symm
      rw [if_pos hcond]
    unfold repairGo
    rw [hassign]
    have hnr : v ∉ rest := (List.nodup_cons.mp hnd).1
    refine ih (setCol colours v (colAt seed v)) (List.nodup_cons.mp hnd).2
      (fun y hy => hl y (List.mem_cons_of_mem v hy))
      (by rw [length_setCol]; exact hlen) ?_ ?_ u hu
    · intro w hw hwl
      by_cases hwv : w = v
      · subst hwv
        exact colAt_setCol_self colours w (colAt seed w) hvlen
      · rw [colAt_setCol_ne colours w v _ hwv]
        exact hdone w hw (fun hm => (List.mem_cons.mp hm).elim (fun h => hwv h) hwl)
    · intro w hw hwl
      have hwv : w ≠ v := fun he => hnr (he ▸ hwl)
      rw [colAt_setCol_ne colours w v _ hwv]
      exact hunc w hw (List.mem_cons_of_mem v hwl)

/-- Top-level form: greedy repair is the identity on a valid palette
colouring. -/
theorem greedy_repair_valid_seed (g : Graph) (hwf : g.WF) (seed : List Int) (K : Nat)
    (hlen : seed.length = g.vertex_count)
    (hseed : ∀ u, u < g.vertex_count → 0 ≤ colAt seed u ∧ colAt seed u < (K : Int))
    (hconf : count_conflicts g seed = 0) :
    ∀ u, u < g.vertex_count →
      colAt (greedy_repair_fixed_k g seed K) u = colAt seed u := by
  have hdist : ∀ u ∈ List.range g.vertex_count, ∀ nb ∈ adjAt g u,
      colAt seed u ≠ colAt seed nb := by
    intro u hu nb hnb heq
    have hun : u < g.vertex_count := List.mem_range.mp hu
    have := (valid_iff_no_conflicts g hwf seed (fun v hv => (hseed v (List.mem_range.mp hv)).1)).mpr
      hconf u hu nb hnb heq
    have h0 := (hseed u hun).1
    omega
  exact repairGo_valid_seed g hwf seed K hseed hdist (degreeOrder g)
    (List.replicate g.vertex_count (-1)) (degreeOrder_nodup g)
    (fun x hx => (mem_degreeOrder g x).mp hx) (by simp)
    (fun u hu hnm => absurd ((mem_degreeOrder g u).mpr hu) hnm)
    (fun u _ _ => colAt_replicate_neg _ u)

/-! ## Specification-side greedy repair (for the refinement claim)

These definitions follow the wording of spec §4.B, to be compared with
the source-derived `greedy_repair_fixed_k`. -/

/-- Modelled from the spec: "the set B of colours already used by its
already-coloured neighbours". -/
def specUsedColours (g : Graph) (colours : List Int) (v : Nat) : Finset Int :=
  (((adjAt g v).map (fun nb => colAt colours nb)).filter (fun c => decide (0 ≤ c))).toFinset

/-- Modelled from the spec: the palette `[0, K)`. -/
def specPalette (K : Nat) : Finset Int :=
  (Finset.range K).image (fun c : Nat => (c : Int))

/-- Modelled from the spec: "the number of same-colour coloured
neighbours" of `v` for a candidate colour `c`. -/
def specSameCount (g : Graph) (colours : List Int) (v : Nat) (c : Int) : Nat :=
  ((adjAt g v).filter (fun nb => decide (colAt colours nb = c))).length

/-- Modelled from the spec (§4.B): keep `s[v]` when it is a legal
palette colour unused on the coloured neighbourhood; else the smallest
colour of `[0,K) ∖ B`; else the conflict-minimising palette colour with
ties to the smaller index (the smallest element of the set of
minimisers). -/
def specChoice (g : Graph) (s : List Int) (K : Nat) (colours : List Int) (v : Nat) : Int :=
  let B := specUsedColours g colours v
  let pal := specPalette K
  if colAt s v ∈ pal ∧ colAt s v ∉ B then colAt s v
  else if h : (pal \ B).Nonempty then (pal \ B).min' h
  else if h2 : (pal.filter (fun c => ∀ c' ∈ pal,
      specSameCount g colours v c ≤ specSameCount g colours v c')).Nonempty then
    (pal.filter (fun c => ∀ c' ∈ pal,
      specSameCount g colours v c ≤ specSameCount g colours v c')).min' h2
  else 0

def specRepairGo (g : Graph) (s : List Int) (K : Nat) : List Nat → List Int → List Int
  | [], colours => colours
  | v :: rest, colours =>
    specRepairGo g s K rest (setCol colours v (specChoice g s K colours v))

/-- Modelled from the spec: §4.B end to end (same traversal order). -/
def greedy_repair_spec (g : Graph) (s : List Int) (K : Nat) : List Int :=
  specRepairGo g s K (degreeOrder g) (List.replicate g.vertex_count (-1))

theorem mem_specPalette (K : Nat) (c : Int) :
    c ∈ specPalette K ↔ 0 ≤ c ∧ c < (K : Nat) := by
  unfold specPalette
  rw [Finset.mem_image]
  constructor
  · rintro ⟨j, hj, rfl⟩
    have := Finset.mem_range.mp hj
    constructor
    · positivity
    · exact_mod_cast this
  · rintro ⟨h0, hK⟩
    refine ⟨c.toNat, Finset.mem_range.mpr (by omega), by omega⟩

theorem mem_specUsedColours (g : Graph) (colours : List Int) (v : Nat) (c : Int) :
    c ∈ specUsedColours g colours v ↔
      (0 ≤ c ∧ ∃ nb ∈ adjAt g v, colAt colours nb = c) := by
  unfold specUsedColours
  rw [List.mem_toFinset, List.mem_filter]
  constructor
  · rintro ⟨hmem, hpos⟩
    obtain ⟨nb, hnb, rfl⟩ := List.mem_map.mp hmem
    exact ⟨by simpa using hpos, nb, hnb, rfl⟩
  · rintro ⟨hpos, nb, hnb, rfl⟩
    exact ⟨List.mem_map.mpr ⟨nb, hnb, rfl⟩, by simpa using hpos⟩

theorem bannedB_iff (g : Graph) (colours : List Int) (v : Nat) (c : Int) :
    bannedB g colours v c = true ↔ ∃ nb ∈ adjAt g v, colAt colours nb = c := by
  unfold bannedB
  rw [List.any_eq_true]
  constructor
  · rintro ⟨nb, hnb, hc⟩
    exact ⟨nb, hnb, by simpa using hc⟩
  · rintro ⟨nb, hnb, hc⟩
    exact ⟨nb, hnb, by simpa using hc⟩

theorem specSameCount_eq (g : Graph) (colours : List Int) (v : Nat) (c : Int) :
    specSameCount g colours v c
      = (adjAt g v).countP (fun nb => decide (colAt colours nb = c)) := by
  unfold specSameCount
  rw [List.countP_eq_length_filter]

/-- Invariant of the first-strict-improvement minimum scan. -/
theorem minConflict_fold_invariant (g : Graph) (colours : List Int) (v : Nat) :
    ∀ (n s : Nat) (best : Nat × Nat),
      best.2 = (adjAt g v).countP (fun nb => decide (colAt colours nb = (best.1 : Int))) →
      best.1 < s →
      (∀ j, j < s → best.2 ≤ (adjAt g v).countP (fun nb => decide (colAt colours nb = (j : Int)))) →
      (∀ j, j < best.1 → best.2 < (adjAt g v).countP (fun nb => decide (colAt colours nb = (j : Int)))) →
      let r := (List.range' s n).foldl (fun (best : Nat × Nat) (tryc : Nat) =>
        let conf := (adjAt g v).countP (fun nb => decide (colAt colours nb = (tryc : Int)))
        if conf < best.2 then (tryc, conf) else best) best
      r.2 = (adjAt g v).countP (fun nb => decide (colAt colours nb = (r.1 : Int))) ∧
      r.1 < s + n ∧
      (∀ j, j < s + n → r.2 ≤ (adjAt g v).countP (fun nb => decide (colAt colours nb = (j : Int)))) ∧
      (∀ j, j < r.1 → r.2 < (adjAt g v).countP (fun nb => decide (colAt colours nb = (j : Int)))) := by
  intro n
  induction n with
  | zero =>
    intro s best h1 h2 h3 h4
    exact ⟨h1, by show best.1 < s + 0; omega, fun j hj => h3 j (by omega), h4⟩
  | succ n ih =>
    intro s best h1 h2 h3 h4
    rw [List.range'_succ]
    rw [List.foldl_cons]
    simp only
    split
    · next hlt =>
      have := ih (s + 1)
        (s, (adjAt g v).countP (fun nb => decide (colAt colours nb = (s : Int))))
        rfl (by omega)
        (fun j hj => by
          rcases Nat.lt_or_ge j s with h | h
          · have := h3 j h
            simp only
            omega
          · have hjs : j = s := by omega
            subst hjs
            simp only
            omega)
        (fun j hj => by
          simp only at hj ⊢
          have := h3 j (by omega)
          omega)
      have hsum : s + 1 + n = s + (n + 1) := by omega
      rw [hsum] at this
      exact this
    · next hge =>
      have := ih (s + 1) best h1 (by omega)
        (fun j hj => by
          rcases Nat.lt_or_ge j s with h | h
          · exact h3 j h
          · have hjs : j = s := by omega
            subst hjs
            omega)
        h4
      have hsum : s + 1 + n = s + (n + 1) := by omega
      rw [hsum] at this
      exact this

/-- Full characterisation of the fallback colour: a minimiser of the
same-colour count, and the smallest index among the minimisers. -/
theorem minConflictColour_spec (g : Graph) (colours : List Int) (K : Nat) (hK : 1 ≤ K)
    (v : Nat) :
    minConflictColour g colours K v < K ∧
    (∀ j, j < K →
      (adjAt g v).countP (fun nb => decide (colAt colours nb = (minConflictColour g colours K v : Int)))
        ≤ (adjAt g v).countP (fun nb => decide (colAt colours nb = (j : Int)))) ∧
    (∀ j, j < minConflictColour g colours K v →
      (adjAt g v).countP (fun nb => decide (colAt colours nb = (minConflictColour g colours K v : Int)))
        < (adjAt g v).countP (fun nb => decide (colAt colours nb = (j : Int)))) := by
  unfold minConflictColour
  have hsplit : List.range K = 0 :: List.range' 1 (K - 1) := by
    rw [List.range_eq_range']
    have : K = (K - 1) + 1 := by omega
    rw [this, List.range'_succ]
    simp
  rw [hsplit, List.foldl_cons]
  have hcnt0 : (adjAt g v).countP (fun nb => decide (colAt colours nb = ((0 : Nat) : Int)))
      < (adjAt g v).length + 1 :=
    Nat.lt_succ_of_le (List.countP_le_length _)
  rw [if_pos (by simpa using hcnt0)]
  have := minConflict_fold_invariant g colours v (K - 1) 1
    (0, (adjAt g v).countP (fun nb => decide (colAt colours nb = ((0 : Nat) : Int))))
    rfl (by omega)
    (fun j hj => by
      have hj0 : j = 0 := by omega
      subst hj0
      simp only
      exact le_refl _)
    (fun j hj => by omega)
  obtain ⟨hr1, hr2, hr3, hr4⟩ := this
  have hK1 : 1 + (K - 1) = K := by omega
  rw [hK1] at hr2 hr3
  refine ⟨hr2, fun j hj => ?_, fun j hj => ?_⟩
  · rw [← hr1]
    exact hr3 j hj
  · rw [← hr1]
    exact hr4 j hj

/-- **Refinement, per vertex**: the source's assignment agrees with the
spec's contract. -/
theorem repairAssign_eq_specChoice (g : Graph) (s : List Int) (K : Nat) (hK : 1 ≤ K)
    (colours : List Int) (v : Nat) :
    repairAssign g s K colours v = specChoice g s K colours v := by
  unfold repairAssign specChoice
  have hcond : (0 ≤ colAt s v ∧ colAt s v < (K : Int) ∧
      ¬ bannedB g colours v (colAt s v) = true) ↔
      (colAt s v ∈ specPalette K ∧ colAt s v ∉ specUsedColours g colours v) := by
    constructor
    · rintro ⟨h1, h2, h3⟩
      refine ⟨(mem_specPalette K _).mpr ⟨h1, by exact_mod_cast h2⟩, fun hB => h3 ?_⟩
      obtain ⟨_, hex⟩ := (mem_specUsedColours g colours v _).mp hB
      exact (bannedB_iff g colours v _).mpr hex
    · rintro ⟨hpal, hB⟩
      obtain ⟨h1, h2⟩ := (mem_specPalette K _).mp hpal
      refine ⟨h1, by exact_mod_cast h2, fun hb => hB ?_⟩
      exact (mem_specUsedColours g colours v _).mpr ⟨h1, (bannedB_iff g colours v _).mp hb⟩
  rw [if_congr hcond rfl rfl]
  by_cases hfirst : colAt s v ∈ specPalette K ∧ colAt s v ∉ specUsedColours g colours v
  · rw [if_pos hfirst, if_pos hfirst]
  · rw [if_neg hfirst, if_neg hfirst]
    cases hff : firstFree g colours K v with
    | some c =>
      obtain ⟨hpc, hcK, hprev⟩ := find?_range_some K _ c hff
      have hfree : ¬ bannedB g colours v (c : Int) = true := by
        simpa using hpc
      have hmem : (c : Int) ∈ specPalette K \ specUsedColours g colours v := by
        rw [Finset.mem_sdiff]
        refine ⟨(mem_specPalette K _).mpr ⟨by positivity, by exact_mod_cast hcK⟩, ?_⟩
        intro hB
        obtain ⟨_, hex⟩ := (mem_specUsedColours g colours v _).mp hB
        exact hfree ((bannedB_iff g colours v _).mpr hex)
      have hne : (specPalette K \ specUsedColours g colours v).Nonempty := ⟨_, hmem⟩
      rw [dif_pos hne]
      show (c : Int) = _
      refine le_antisymm ?_ (Finset.min'_le _ _ hmem)
      refine Finset.le_min' _ hne _ ?_
      intro y hy
      rw [Finset.mem_sdiff] at hy
      obtain ⟨hypal, hyB⟩ := hy
      obtain ⟨hy0, hyK⟩ := (mem_specPalette K y).mp hypal
      by_contra hlt
      push_neg at hlt
      have hjc : y.toNat < c := by omega
      have hbanned := hprev y.toNat hjc
      simp only [Bool.not_eq_true'] at hbanned
      have : bannedB g colours v ((y.toNat : Nat) : Int) = true := by
        simpa using hbanned
      rw [show ((y.toNat : Nat) : Int) = y by omega] at this
      obtain ⟨nb, hnb, hnby⟩ := (bannedB_iff g colours v y).mp this
      exact hyB ((mem_specUsedColours g colours v y).mpr ⟨hy0, nb, hnb, hnby⟩)
    | none =>
      have hall : ∀ j, j < K → bannedB g colours v (j : Int) = true := by
        intro j hj
        have := List.find?_eq_none.mp hff j (List.mem_range.mpr hj)
        simpa using this
      have hempty : ¬ (specPalette K \ specUsedColours g colours v).Nonempty := by
        rintro ⟨y, hy⟩
        rw [Finset.mem_sdiff] at hy
        obtain ⟨hypal, hyB⟩ := hy
        obtain ⟨hy0, hyK⟩ := (mem_specPalette K y).mp hypal
        have hb := hall y.toNat (by omega)
        rw [show ((y.toNat : Nat) : Int) = y by omega] at hb
        obtain ⟨nb, hnb, hnby⟩ := (bannedB_iff g colours v y).mp hb
        exact hyB ((mem_specUsedColours g colours v y).mpr ⟨hy0, nb, hnb, hnby⟩)
      rw [dif_neg hempty]
      obtain ⟨hmcK, hmin, hstrict⟩ := minConflictColour_spec g colours K hK v
      set mc := minConflictColour g colours K v with hmc
      have hmem : (mc : Int) ∈ specPalette K := (mem_specPalette K _).mpr
        ⟨by positivity, by exact_mod_cast hmcK⟩
      have hminmem : (mc : Int) ∈ (specPalette K).filter (fun c => ∀ c' ∈ specPalette K,
          specSameCount g colours v c ≤ specSameCount g colours v c') := by
        rw [Finset.mem_filter]
        refine ⟨hmem, ?_⟩
        intro c' hc'
        obtain ⟨hc0, hcK'⟩ := (mem_specPalette K c').mp hc'
        rw [specSameCount_eq, specSameCount_eq]
        have := hmin c'.toNat (by omega)
        rw [show ((c'.toNat : Nat) : Int) = c' by omega] at this
        exact this
      have hne2 : ((specPalette K).filter (fun c => ∀ c' ∈ specPalette K,
          specSameCount g colours v c ≤ specSameCount g colours v c')).Nonempty :=
        ⟨_, hminmem⟩
      rw [dif_pos hne2]
      show (mc : Int) = _
      refine le_antisymm ?_ (Finset.min'_le _ _ hminmem)
      refine Finset.le_min' _ hne2 _ ?_
      intro y hy
      rw [Finset.mem_filter] at hy
      obtain ⟨hypal, hymin⟩ := hy
      obtain ⟨hy0, hyK⟩ := (mem_specPalette K y).mp hypal
      by_contra hlt
      push_neg at hlt
      have hjmc : y.toNat < mc := by omega
      have := hstrict y.toNat hjmc
      have hymin' := hymin (mc : Int) hmem
      rw [specSameCount_eq, specSameCount_eq] at hymin'
      rw [show ((y.toNat : Nat) : Int) = y by omega] at this
      omega

theorem repairGo_eq_spec (g : Graph) (s : List Int) (K : Nat) (hK : 1 ≤ K) :
    ∀ (l : List Nat) (colours : List Int),
      repairGo g s K l colours = specRepairGo g s K l colours := by
  intro l
  induction l with
  | nil => intro colours; rfl
  | cons v rest ih =>
    intro colours
    unfold repairGo specRepairGo
    rw [repairAssign_eq_specChoice g s K hK colours v, ih]

/-- **The refinement theorem**: the source's greedy repair equals the
spec's §4.B contract verbatim. -/
theorem greedy_repair_eq_spec (g : Graph) (s : List Int) (K : Nat) (hK : 1 ≤ K) :
    greedy_repair_fixed_k g s K = greedy_repair_spec g s K := by
  unfold greedy_repair_fixed_k greedy_repair_spec
  exact repairGo_eq_spec g s K hK (degreeOrder g) _

theorem ColOK_mono (g : Graph) {K K' : Int} (h : K ≤ K') {c : List Int}
    (hc : ColOK g K c) : ColOK g K' c :=
  ⟨hc.1, fun v hv => ⟨(hc.2 v hv).1, lt_of_lt_of_le (hc.2 v hv).2 h⟩⟩

/-! ## Genetic algorithm (`genetic.cpp`, `colour_with_genetic`)

RNG draws are consumed from an oracle pair: `r : Nat → Nat` for the
integer distributions (`r ctr % bound` standing for a uniform draw on
`[0, bound)`) and `b : Nat → Bool` for the outcome of the
`chance(rng) < mutation_rate` comparison; an explicit counter is
threaded through every consumer. -/

/-- The GA `Individual`: colouring plus cached statistics. -/
structure Individual where
  colours : List Int
  conflicts : Nat
  colour_usage : Int
  fitness : Int
  deriving Repr, DecidableEq

instance : Inhabited Individual := ⟨⟨[], 0, 0, 0⟩⟩

/-- Oracle pair standing for the `std::mt19937`. -/
structure GARng where
  r : Nat → Nat
  b : Nat → Bool

/-- `compute_fitness`: `conflicts * n + colour_usage` (the comment in
the source speaks of "multiply by n (or bigger)"; the code multiplies
by exactly `n`). -/
def compute_fitness (conflicts : Nat) (colour_usage : Int) (n : Nat) : Int :=
  (conflicts : Int) * (n : Int) + colour_usage

/-- `evaluate`: fill the cached statistics (`count_colour_usage` is the
same `max+1` computation as `count_colours`). -/
def evaluate (ind : Individual) (g : Graph) : Individual :=
  let conflicts := count_conflicts g ind.colours
  let usage := count_colours ind.colours
  { ind with
    conflicts := conflicts
    colour_usage := usage
    fitness := compute_fitness conflicts usage g.vertex_count }

/-- `tournament_select`: three uniform picks with replacement, keep the
first strict fitness improvement. -/
def tournament_select (pop : List Individual) (rng : GARng) (ctr : Nat) :
    Individual × Nat :=
  let d : Individual := ⟨[], 0, 0, 0⟩
  let c0 := pop.getD (rng.r ctr % pop.length) d
  let c1 := pop.getD (rng.r (ctr + 1) % pop.length) d
  let c2 := pop.getD (rng.r (ctr + 2) % pop.length) d
  let b1 := if c1.fitness < c0.fitness then c1 else c0
  let b2 := if c2.fitness < b1.fitness then c2 else b1
  (b2, ctr + 3)

/-- `crossover`: single cut point in `[1, max(1, n-1)]`, then clamp
every gene into `[0, palette)`. -/
def ga_crossover (a b : Individual) (rng : GARng) (ctr : Nat) (palette : Nat) :
    Individual × Nat :=
  let n := a.colours.length
  if n = 0 then (⟨[], 0, 0, 0⟩, ctr)
  else
    let cut := 1 + rng.r ctr % (max 1 (n - 1))
    let colours := (List.range n).map (fun i =>
      let raw := if i < cut then colAt a.colours i else colAt b.colours i
      if raw < 0 then 0
      else if (palette : Int) ≤ raw then (palette : Int) - 1
      else raw)
    (⟨colours, 0, 0, 0⟩, ctr + 1)

/-- `mutate`: with the oracle's blessing, re-colour one uniformly chosen
vertex with a uniform palette colour. -/
def ga_mutate (ind : Individual) (rng : GARng) (ctr : Nat) (palette : Nat) :
    Individual × Nat :=
  if ind.colours.length = 0 then (ind, ctr)
  else if rng.b ctr then
    let idx := rng.r (ctr + 1) % ind.colours.length
    let col := rng.r (ctr + 2) % palette
    ({ ind with colours := setCol ind.colours idx (col : Int) }, ctr + 3)
  else (ind, ctr + 1)

/-- Population initialisation for one palette stage: random genes, then
greedy repair, then evaluation. -/
def initPopulation (g : Graph) (rng : GARng) (K : Nat) (ps : Nat) (ctr : Nat) :
    List Individual × Nat :=
  (List.range ps).foldl (fun acc i =>
    let base := acc.2 + i * g.vertex_count
    let genes := (List.range g.vertex_count).map (fun v => ((rng.r (base + v) % K : Nat) : Int))
    let cols := greedy_repair_fixed_k g genes K
    (acc.1 ++ [evaluate ⟨cols, 0, 0, 0⟩ g], acc.2)) ([], ctr)
  |> fun acc => (acc.1, acc.2 + ps * g.vertex_count)

/-- The running-best scan (`if (ind.fitness < best.fitness) best = ind`). -/
def bestOf (pop : List Individual) (init : Individual) : Individual :=
  pop.foldl (fun best ind => if ind.fitness < best.fitness then ind else best) init

/-- One child: two tournament selections, crossover, mutation, greedy
repair, evaluation. -/
def gaMakeChild (g : Graph) (rng : GARng) (palette : Nat) (pop : List Individual)
    (ctr : Nat) : Individual × Nat :=
  let pa := tournament_select pop rng ctr
  let pb := tournament_select pop rng pa.2
  let child := ga_crossover pa.1 pb.1 rng pb.2 palette
  let child2 := ga_mutate child.1 rng child.2 palette
  let repaired : Individual :=
    { child2.1 with colours := greedy_repair_fixed_k g child2.1.colours palette }
  (evaluate repaired g, child2.2)

/-- The child-production loop (`while next_pop.size < population_size`). -/
def gaChildren (g : Graph) (rng : GARng) (palette ps : Nat) :
    Nat → List Individual → List Individual → Nat → List Individual × Nat
  | 0, _, acc, ctr => (acc, ctr)
  | fuel + 1, pop, acc, ctr =>
    if acc.length < ps then
      let c := gaMakeChild g rng palette pop ctr
      gaChildren g rng palette ps fuel pop (acc ++ [c.1]) c.2
    else (acc, ctr)

/-- The generational loop of a palette stage (sort, track best, break on
a conflict-free best, else elitism + children). -/
def gaGenerations (g : Graph) (rng : GARng) (palette ps : Nat) :
    Nat → List Individual → Individual → Nat →
      List Individual × Individual × Nat
  | 0, pop, best, ctr => (pop, best, ctr)
  | gens + 1, pop, best, ctr =>
    let sorted := pop.mergeSort (fun a b => decide (a.fitness ≤ b.fitness))
    let best1 :=
      match sorted with
      | [] => best
      | front :: _ => if front.fitness < best.fitness then front else best
    if best1.conflicts = 0 then (sorted, best1, ctr)
    else
      let elites := sorted.take (min 2 ps)
      let next := gaChildren g rng palette ps ps sorted elites ctr
      gaGenerations g rng palette ps gens next.1 best1 next.2

/-- The adaptive palette descent (`for palette_k = start_palette; ...`).
`best_k` mirrors the source's bookkeeping (it never reaches the
output). -/
def gaPalette (g : Graph) (rng : GARng) (ps maxgen : Nat) :
    Nat → List Int → Int → Nat → List Int
  | 0, best_solution, _, _ =>
    if best_solution ≠ [] then best_solution else List.replicate g.vertex_count 0
  | pk + 1, best_solution, best_k, ctr =>
    let K := pk + 1
    let ip := initPopulation g rng K ps ctr
    let best0 := bestOf ip.1 ip.1.headI
    let stage :=
      if best0.conflicts = 0 then (ip.1, best0, ip.2)
      else gaGenerations g rng K ps maxgen ip.1 best0 ip.2
    let best2 := bestOf stage.1 stage.2.1
    if best2.conflicts = 0 then
      gaPalette g rng ps maxgen pk best2.colours (min best_k best2.colour_usage) stage.2.2
    else
      if best_solution ≠ [] then best_solution
      else (bestOf stage.1 stage.1.headI).colours

/-- `colour_with_genetic` (population size sanitised to
`max(6, ps | 1)`; the `HARD_CAP` clamp never fires since
`HARD_CAP = max(200, start_palette) ≥ start_palette`). -/
def colour_with_genetic (g : Graph) (rng : GARng) (population_size max_generations : Nat) :
    List Int :=
  if g.vertex_count = 0 then []
  else
    let ps := max 6 (population_size ||| 1)
    let maxdeg := max_degree g
    let start_palette := min (maxdeg + 1) (max 50 (maxdeg + 1))
    gaPalette g rng ps max_generations start_palette [] 2147483647 0

/-- All individuals of a population respect the palette. -/
def PopOK (g : Graph) (K : Int) (pop : List Individual) : Prop :=
  ∀ ind ∈ pop, ColOK g K ind.colours

theorem getD_mem {α : Type} (l : List α) (i : Nat) (d : α) (h : i < l.length) :
    l.getD i d ∈ l := by
  rw [show l.getD i d = l.get ⟨i, h⟩ by
    simp [List.getD_eq_getElem?_getD, List.getElem?_eq_getElem h]]
  exact l.get_mem i h

theorem tournament_select_mem (pop : List Individual) (hne : pop ≠ [])
    (rng : GARng) (ctr : Nat) : (tournament_select pop rng ctr).1 ∈ pop := by
  unfold tournament_select
  have hlen : 0 < pop.length := List.length_pos.mpr hne
  have h0 := getD_mem pop (rng.r ctr % pop.length)
    (⟨[], 0, 0, 0⟩ : Individual) (Nat.mod_lt _ hlen)
  have h1 := getD_mem pop (rng.r (ctr + 1) % pop.length)
    (⟨[], 0, 0, 0⟩ : Individual) (Nat.mod_lt _ hlen)
  have h2 := getD_mem pop (rng.r (ctr + 2) % pop.length)
    (⟨[], 0, 0, 0⟩ : Individual) (Nat.mod_lt _ hlen)
  have hif : ∀ (x y : Individual), x ∈ pop → y ∈ pop → ∀ (c : Prop) (inst : Decidable c),
      (if c then x else y) ∈ pop := by
    intro x y hx hy c inst
    split
    · exact hx
    · exact hy
  exact hif _ _ h2 (hif _ _ h1 h0 _ _) _ _

theorem bestOf_mem_or (pop : List Individual) (init : Individual) :
    bestOf pop init ∈ pop ∨ bestOf pop init = init := by
  unfold bestOf
  induction pop generalizing init with
  | nil => right; rfl
  | cons x t ih =>
    rw [List.foldl_cons]
    rcases ih (if x.fitness < init.fitness then x else init) with h | h
    · left; exact List.mem_cons_of_mem x h
    · rw [h]
      split
    
      · left; exact List.mem_cons_self x t
      · right; rfl

theorem initPopulation_spec (g : Graph) (rng : GARng) (K : Nat) (hK : 1 ≤ K)
    (ps : Nat) (ctr : Nat) :
    PopOK g (K : Int) (initPopulation g rng K ps ctr).1 ∧
    (initPopulation g rng K ps ctr).1.length = ps := by
  unfold initPopulation
  simp only
  suffices h : ∀ (l : List Nat) (accl : List Individual) (accn : Nat),
      PopOK g (K : Int) accl →
      PopOK g (K : Int) (l.foldl (fun acc i =>
        let base := acc.2 + i * g.vertex_count
        let genes := (List.range g.vertex_count).map
          (fun v => ((rng.r (base + v) % K : Nat) : Int))
        let cols := greedy_repair_fixed_k g genes K
        (acc.1 ++ [evaluate ⟨cols, 0, 0, 0⟩ g], acc.2)) (accl, accn)).1 ∧
      (l.foldl (fun acc i =>
        let base := acc.2 + i * g.vertex_count
        let genes := (List.range g.vertex_count).map
          (fun v => ((rng.r (base + v) % K : Nat) : Int))
        let cols := greedy_repair_fixed_k g genes K
        (acc.1 ++ [evaluate ⟨cols, 0, 0, 0⟩ g], acc.2)) (accl, accn)).1.length
        = accl.length + l.length by
    have := h (List.range ps) [] ctr (by intro ind hind; simp at hind)
    refine ⟨this.1, ?_⟩
    rw [this.2]
    simp
  intro l
  induction l with
  | nil => intro accl accn hacc; exact ⟨hacc, by simp⟩
  | cons x t ih =>
    intro accl accn hacc
    rw [List.foldl_cons]
    have hstep : PopOK g (K : Int)
        (accl ++ [evaluate ⟨greedy_repair_fixed_k g
          ((List.range g.vertex_count).map
            (fun v => ((rng.r (accn + x * g.vertex_count + v) % K : Nat) : Int))) K,
          0, 0, 0⟩ g]) := by
      intro ind hind
      rcases List.mem_append.mp hind with h | h
      · exact hacc ind h
      · rw [List.mem_singleton] at h
        subst h
        exact greedy_repair_ColOK g _ K hK
    have := ih _ accn hstep
    refine ⟨this.1, ?_⟩
    rw [this.2]
    simp
    omega

theorem gaMakeChild_ColOK (g : Graph) (rng : GARng) (palette : Nat) (hK : 1 ≤ palette)
    (pop : List Individual) (ctr : Nat) :
    ColOK g (palette : Int) (gaMakeChild g rng palette pop ctr).1.colours :=
  greedy_repair_ColOK g _ palette hK

theorem gaChildren_spec (g : Graph) (rng : GARng) (palette ps : Nat) (hK : 1 ≤ palette) :
    ∀ (fuel : Nat) (pop acc : List Individual) (ctr : Nat),
      PopOK g (palette : Int) acc →
      PopOK g (palette : Int) (gaChildren g rng palette ps fuel pop acc ctr).1 ∧
      acc.length ≤ (gaChildren g rng palette ps fuel pop acc ctr).1.length := by
  intro fuel
  induction fuel with
  | zero => intro pop acc ctr hacc; exact ⟨hacc, le_refl _⟩
  | succ fuel ih =>
    intro pop acc ctr hacc
    unfold gaChildren
    split
    · have hacc' : PopOK g (palette : Int)
          (acc ++ [(gaMakeChild g rng palette pop ctr).1]) := by
        intro ind hind
        rcases List.mem_append.mp hind with h | h
        · exact hacc ind h
        · rw [List.mem_singleton] at h
          subst h
          exact gaMakeChild_ColOK g rng palette hK pop ctr
      have := ih pop (acc ++ [(gaMakeChild g rng palette pop ctr).1])
        (gaMakeChild g rng palette pop ctr).2 hacc'
      refine ⟨this.1, le_trans ?_ this.2⟩
      simp
    · exact ⟨hacc, le_refl _⟩

theorem gaGenerations_spec (g : Graph) (rng : GARng) (palette ps : Nat)
    (hK : 1 ≤ palette) (hps : 1 ≤ ps) :
    ∀ (gens : Nat) (pop : List Individual) (best : Individual) (ctr : Nat),
      PopOK g (palette : Int) pop → pop ≠ [] →
      ColOK g (palette : Int) best.colours →
      PopOK g (palette : Int) (gaGenerations g rng palette ps gens pop best ctr).1 ∧
      (gaGenerations g rng palette ps gens pop best ctr).1 ≠ [] ∧
      ColOK g (palette : Int) (gaGenerations g rng palette ps gens pop best ctr).2.1.colours := by
  intro gens
  induction gens with
  | zero => intro pop best ctr hpop hne hbest; exact ⟨hpop, hne, hbest⟩
  | succ gens ih =>
    intro pop best ctr hpop hne hbest
    unfold gaGenerations
    have hperm : (pop.mergeSort (fun a b => decide (a.fitness ≤ b.fitness))).Perm pop :=
      List.mergeSort_perm pop _
    have hsortedOK : PopOK g (palette : Int)
        (pop.mergeSort (fun a b => decide (a.fitness ≤ b.fitness))) :=
      fun ind hind => hpop ind (hperm.mem_iff.mp hind)
    have hsortedne : pop.mergeSort (fun a b => decide (a.fitness ≤ b.fitness)) ≠ [] := by
      intro h
      exact hne (List.eq_nil_of_length_eq_zero (by rw [← hperm.length_eq, h]; rfl))
    have hbest1 : ∀ b1, (match pop.mergeSort (fun a b => decide (a.fitness ≤ b.fitness)) with
        | [] => best
        | front :: _ => if front.fitness < best.fitness then front else best) = b1 →
        ColOK g (palette : Int) b1.colours := by
      intro b1 hb1
      cases hm : pop.mergeSort (fun a b => decide (a.fitness ≤ b.fitness)) with
      | nil => rw [hm] at hb1; exact hb1 ▸ hbest
      | cons front rest =>
        rw [hm] at hb1
        simp only at hb1
        by_cases hf : front.fitness < best.fitness
        · rw [if_pos hf] at hb1
          exact hb1 ▸ hsortedOK front (hm ▸ List.mem_cons_self front rest)
        · rw [if_neg hf] at hb1
          exact hb1 ▸ hbest
    simp only
    split
    · exact ⟨hsortedOK, hsortedne, hbest1 _ rfl⟩
    · have helitesOK : PopOK g (palette : Int)
          ((pop.mergeSort (fun a b => decide (a.fitness ≤ b.fitness))).take (min 2 ps)) :=
        fun ind hind => hsortedOK ind (List.mem_of_mem_take hind)
      have helitesne : (pop.mergeSort (fun a b => decide (a.fitness ≤ b.fitness))).take
          (min 2 ps) ≠ [] := by
        intro h
        have h2 : 0 < (pop.mergeSort (fun a b => decide (a.fitness ≤ b.fitness))).length :=
          List.length_pos.mpr hsortedne
        have h3 := congrArg List.length h
        rw [List.length_take, List.length_nil] at h3
        omega
      obtain ⟨hnextOK, hnextlen⟩ := gaChildren_spec g rng palette ps hK ps
        (pop.mergeSort (fun a b => decide (a.fitness ≤ b.fitness)))
        ((pop.mergeSort (fun a b => decide (a.fitness ≤ b.fitness))).take (min 2 ps))
        ctr helitesOK
      have hnextne : (gaChildren g rng palette ps ps
          (pop.mergeSort (fun a b => decide (a.fitness ≤ b.fitness)))
          ((pop.mergeSort (fun a b => decide (a.fitness ≤ b.fitness))).take (min 2 ps))
          ctr).1 ≠ [] := by
        intro h
        have h4 := congrArg List.length h
        rw [List.length_nil] at h4
        have h5 : 0 < ((pop.mergeSort (fun a b => decide (a.fitness ≤ b.fitness))).take
            (min 2 ps)).length := List.length_pos.mpr helitesne
        omega
      exact ih _ _ _ hnextOK hnextne (hbest1 _ rfl)

theorem headI_mem {α : Type} [Inhabited α] (l : List α) (h : l ≠ []) : l.headI ∈ l := by
  cases l with
  | nil => exact absurd rfl h
  | cons x t => exact List.mem_cons_self x t

theorem colAt_replicate_lt (n v : Nat) (x : Int) (h : v < n) :
    colAt (List.replicate n x) v = x := by
  unfold colAt
  simp [List.getD, List.getElem?_replicate, h]

/-- Palette-descent invariant: every output of the GA palette loop
respects the bound `B` once every stage palette does. -/
theorem gaPalette_ColOK (g : Graph) (rng : GARng) (ps maxgen : Nat) (hps : 6 ≤ ps)
    (B : Int) (hB : 1 ≤ B) :
    ∀ (pk : Nat) (best_solution : List Int) (best_k : Int) (ctr : Nat),
      (pk : Int) ≤ B →
      (best_solution = [] ∨ ColOK g B best_solution) →
      ColOK g B (gaPalette g rng ps maxgen pk best_solution best_k ctr) := by
  intro pk
  induction pk with
  | zero =>
    intro best_solution best_k ctr _ hbs
    unfold gaPalette
    split
    · next hne =>
      rcases hbs with h | h
      · exact absurd h hne
      · exact h
    · refine ⟨by simp, ?_⟩
      intro v hv
      rw [colAt_replicate_lt _ _ _ (List.mem_range.mp hv)]
      omega
  | succ pk ih =>
    intro best_solution best_k ctr hpk hbs
    unfold gaPalette
    simp only
    have hK1 : 1 ≤ pk + 1 := by omega
    have hKB : ((pk + 1 : Nat) : Int) ≤ B := by exact_mod_cast hpk
    obtain ⟨hipOK, hiplen⟩ := initPopulation_spec g rng (pk + 1) hK1 ps ctr
    have hipne : (initPopulation g rng (pk + 1) ps ctr).1 ≠ [] := by
      intro h
      have := congrArg List.length h
      rw [hiplen, List.length_nil] at this
      omega
    have hbest0 : ColOK g ((pk + 1 : Nat) : Int)
        (bestOf (initPopulation g rng (pk + 1) ps ctr).1
          (initPopulation g rng (pk + 1) ps ctr).1.headI).colours := by
      rcases bestOf_mem_or (initPopulation g rng (pk + 1) ps ctr).1
          (initPopulation g rng (pk + 1) ps ctr).1.headI with h | h
      · exact hipOK _ h
      · rw [h]
        exact hipOK _ (headI_mem _ hipne)
    set stage := if (bestOf (initPopulation g rng (pk + 1) ps ctr).1
        (initPopulation g rng (pk + 1) ps ctr).1.headI).conflicts = 0 then
        ((initPopulation g rng (pk + 1) ps ctr).1,
          bestOf (initPopulation g rng (pk + 1) ps ctr).1
            (initPopulation g rng (pk + 1) ps ctr).1.headI,
          (initPopulation g rng (pk + 1) ps ctr).2)
      else gaGenerations g rng (pk + 1) ps maxgen (initPopulation g rng (pk + 1) ps ctr).1
        (bestOf (initPopulation g rng (pk + 1) ps ctr).1
          (initPopulation g rng (pk + 1) ps ctr).1.headI)
        (initPopulation g rng (pk + 1) ps ctr).2 with hstage
    have hstageOK : PopOK g ((pk + 1 : Nat) : Int) stage.1 ∧ stage.1 ≠ [] ∧
        ColOK g ((pk + 1 : Nat) : Int) stage.2.1.colours := by
      rw [hstage]
      split
      · exact ⟨hipOK, hipne, hbest0⟩
      · exact gaGenerations_spec g rng (pk + 1) ps hK1 (by omega) maxgen _ _ _
          hipOK hipne hbest0
    have hbest2 : ColOK g ((pk + 1 : Nat) : Int)
        (bestOf stage.1 stage.2.1).colours := by
      rcases bestOf_mem_or stage.1 stage.2.1 with h | h
      · exact hstageOK.1 _ h
      · rw [h]
        exact hstageOK.2.2
    split
    · exact ih _ _ _ (by omega)
        (Or.inr (ColOK_mono g hKB hbest2))
    · split
      · next hne =>
        rcases hbs with h | h
        · exact absurd h hne
        · exact h
      · refine ColOK_mono g hKB ?_
        rcases bestOf_mem_or stage.1 stage.1.headI with h | h
        · exact hstageOK.1 _ h
        · rw [h]
          exact hstageOK.1 _ (headI_mem _ hstageOK.2.1)

/-- The GA output always fits in the `Δ + 1` palette. -/
theorem colour_with_genetic_ColOK (g : Graph) (rng : GARng)
    (population_size max_generations : Nat) :
    ColOK g ((max_degree g : Int) + 1)
      (colour_with_genetic g rng population_size max_generations) := by
  unfold colour_with_genetic
  by_cases hn : g.vertex_count = 0
  · rw [if_pos hn]
    refine ⟨by simp [hn], ?_⟩
    intro v hv
    rw [hn] at hv
    simp at hv
  · rw [if_neg hn]
    simp only
    have hstart : min (max_degree g + 1) (max 50 (max_degree g + 1)) = max_degree g + 1 :=
      min_eq_left (le_max_right _ _)
    rw [hstart]
    have := gaPalette_ColOK g rng (max 6 (population_size ||| 1)) max_generations
      (by omega) ((max_degree g : Int) + 1) (by omega)
      (max_degree g + 1) [] 2147483647 0 (by push_cast; omega) (Or.inl rfl)
    exact this

/-! ## Tabu Search (`tabu.cpp`, `colour_with_tabu`)

Integer RNG draws are again an oracle `r : Nat → Nat` with a threaded
counter. -/

/-- `get_conflicting_vertices`. -/
def get_conflicting_vertices (g : Graph) (colours : List Int) : List Nat :=
  (List.range g.vertex_count).filter
    (fun u => decide (0 < count_conflicts_for_vertex g colours u))

/-- `initialize_colouring`: descending-degree order; pick uniformly
among non-conflicting colours, else the first conflict-minimising one
(the same first-strict-improvement scan as `minConflictColour`). -/
def tabuInitGo (g : Graph) (k : Nat) (r : Nat → Nat) :
    List Nat → List Int → Nat → List Int × Nat
  | [], colours, ctr => (colours, ctr)
  | v :: rest, colours, ctr =>
    let available : List Nat :=
      (List.range k).filter (fun (c : Nat) => !bannedB g colours v (c : Int))
    if available ≠ [] then
      let pick : Nat := available.getD (r ctr % available.length) 0
      tabuInitGo g k r rest (setCol colours v (pick : Int)) (ctr + 1)
    else
      tabuInitGo g k r rest
        (setCol colours v ((minConflictColour g colours k v : Int))) ctr

def initialize_colouring (g : Graph) (k : Nat) (r : Nat → Nat) (ctr : Nat) :
    List Int × Nat :=
  tabuInitGo g k r (degreeOrder g) (List.replicate g.vertex_count (-1)) ctr

/-- `tabu[v][c]` (expiry iteration). -/
def tabuAt (tabu : List (List Nat)) (v c : Nat) : Nat :=
  (tabu.getD v []).getD c 0

def setTabu (tabu : List (List Nat)) (v c val : Nat) : List (List Nat) :=
  tabu.set v ((tabu.getD v []).set c val)

/-- The move scan of one tabu iteration: all conflicting vertices (in
ascending id order, as built), all other colours, keeping the best
per the source's `select` logic.  The tuple is
`(best_v, best_new_c, best_delta, best_is_tabu)`, with `best_v = -1`,
`best_delta = INT_MAX` initially. -/
def tabuSelectMove (g : Graph) (colours : List Int) (k : Nat)
    (tabu : List (List Nat)) (iter : Nat) (conflicts : Int)
    (best_conflicts_this_k : Int) : Int × Int × Int × Bool :=
  (get_conflicting_vertices g colours).foldl (fun best v =>
    let old_c := colAt colours v
    let old_conf := count_conflicts_for_vertex g colours v
    (List.range k).foldl (fun (best : Int × Int × Int × Bool) (new_c : Nat) =>
      if (new_c : Int) = old_c then best
      else
        let new_conf := count_conflicts_if_colour g colours v (new_c : Int)
        let delta : Int := (new_conf : Int) - (old_conf : Int)
        let is_tabu := decide (iter < tabuAt tabu v new_c)
        let new_total := conflicts + delta
        let aspiration := decide (new_total < best_conflicts_this_k)
        let select :=
          if delta < best.2.2.1 then (!is_tabu || aspiration)
          else if delta = best.2.2.1 then (best.2.2.2 && !is_tabu)
          else false
        if select then ((v : Int), (new_c : Int), delta, is_tabu && !aspiration)
        else best) best)
    (-1, -1, 2147483647, true)

/-- One execution of the bounded inner TabuCol loop, returning the
current colouring, the running conflict counter, and the (possibly
updated) `best_solution`. -/
def tabuInner (g : Graph) (k tenure : Nat) :
    Nat → Nat → List Int → Int → List (List Nat) → Int → List Int → List Int →
      List Int × Int × List Int
  | 0, _, colours, conflicts, _, _, _, bestsol => (colours, conflicts, bestsol)
  | fuel + 1, iter, colours, conflicts, tabu, bestc, bestcols, bestsol =>
    if get_conflicting_vertices g colours = [] then (colours, conflicts, colours)
    else
      let mv := tabuSelectMove g colours k tabu iter conflicts bestc
      if mv.1 < 0 then (colours, conflicts, bestsol)
      else
        let v := mv.1.toNat
        let old_c := colAt colours v
        let colours1 := setCol colours v mv.2.1
        let conflicts1 := conflicts + mv.2.2.1
        let tabu1 := setTabu tabu v old_c.toNat (iter + tenure)
        let bestPair :=
          if conflicts1 < bestc then (conflicts1, colours1) else (bestc, bestcols)
        if conflicts1 = 0 then (colours1, conflicts1, colours1)
        else tabuInner g k tenure fuel (iter + 1) colours1 conflicts1 tabu1
          bestPair.1 bestPair.2 bestsol

/-- The fallback greedy of the tabu solver (all vertices start at 0,
then each takes the smallest colour not present on its
neighbourhood). -/
def tabuFallbackGo (g : Graph) : List Nat → List Int → List Int
  | [], colours => colours
  | v :: rest, colours =>
    tabuFallbackGo g rest
      (setCol colours v (smallestFree ((adjAt g v).map (fun nb => colAt colours nb))))

def tabuFallback (g : Graph) : List Int :=
  tabuFallbackGo g (List.range g.vertex_count) (List.replicate g.vertex_count 0)

/-- The `for (k = start_k; k >= 1; --k)` descent. -/
def tabuDescend (g : Graph) (r : Nat → Nat) (max_iterations tabu_tenure : Nat) :
    Nat → List Int → Nat → List Int
  | 0, best_solution, _ =>
    if best_solution ≠ [] then best_solution else tabuFallback g
  | k + 1, best_solution, ctr =>
    let init := initialize_colouring g (k + 1) r ctr
    let conflicts : Int := (count_conflicts g init.1 : Int)
    if conflicts = 0 then
      tabuDescend g r max_iterations tabu_tenure k init.1 init.2
    else
      let tabu0 : List (List Nat) :=
        List.replicate g.vertex_count (List.replicate (k + 1) 0)
      let res := tabuInner g (k + 1) tabu_tenure max_iterations 1 init.1 conflicts
        tabu0 conflicts init.1 best_solution
      if 0 < res.2.1 then
        if res.2.2 ≠ [] then res.2.2 else tabuFallback g
      else
        tabuDescend g r max_iterations tabu_tenure k res.2.2 init.2

/-- `colour_with_tabu` (explicit-parameter overload). -/
def colour_with_tabu (g : Graph) (r : Nat → Nat)
    (max_iterations tabu_tenure : Nat) : List Int :=
  if g.vertex_count = 0 then []
  else tabuDescend g r max_iterations tabu_tenure
    (min g.vertex_count (max_degree g + 1)) [] 0

/-- `colour_with_tabu` default-parameter overload
(`max(10000, 100 n)`, `max(7, n / 10)`). -/
def colour_with_tabu_default (g : Graph) (r : Nat → Nat) : List Int :=
  colour_with_tabu g r (max 10000 (g.vertex_count * 100))
    (max 7 (g.vertex_count / 10))

/-- What the move scan can return: the initial sentinel, or a move
`(v, new_c)` on a conflicting vertex whose recorded delta is the local
conflict difference. -/
def MoveSpec (g : Graph) (colours : List Int) (k : Nat)
    (best : Int × Int × Int × Bool) : Prop :=
  best.1 = -1 ∨
    ∃ v ∈ get_conflicting_vertices g colours, ∃ c : Nat, c < k ∧
      best.1 = (v : Int) ∧ best.2.1 = (c : Int) ∧
      best.2.2.1 = (count_conflicts_if_colour g colours v (c : Int) : Int)
        - (count_conflicts_for_vertex g colours v : Int)

theorem tabuSelectMove_spec (g : Graph) (colours : List Int) (k : Nat)
    (tabu : List (List Nat)) (iter : Nat) (conflicts best_conflicts_this_k : Int) :
    MoveSpec g colours k
      (tabuSelectMove g colours k tabu iter conflicts best_conflicts_this_k) := by
  unfold tabuSelectMove
  have hinner : ∀ (v : Nat), v ∈ get_conflicting_vertices g colours →
      ∀ (l : List Nat), (∀ c ∈ l, c < k) →
      ∀ best, MoveSpec g colours k best →
      MoveSpec g colours k
        (l.foldl (fun (best : Int × Int × Int × Bool) (new_c : Nat) =>
          if (new_c : Int) = colAt colours v then best
          else
            let new_conf := count_conflicts_if_colour g colours v (new_c : Int)
            let delta : Int := (new_conf : Int) - (count_conflicts_for_vertex g colours v : Int)
            let is_tabu := decide (iter < tabuAt tabu v new_c)
            let new_total := conflicts + delta
            let aspiration := decide (new_total < best_conflicts_this_k)
            let select :=
              if delta < best.2.2.1 then (!is_tabu || aspiration)
              else if delta = best.2.2.1 then (best.2.2.2 && !is_tabu)
              else false
            if select then ((v : Int), (new_c : Int), delta, is_tabu && !aspiration)
            else best) best) := by
    intro v hv l
    induction l with
    | nil => intro _ best hbest; exact hbest
    | cons c t ih =>
      intro hl best hbest
      rw [List.foldl_cons]
      refine ih (fun y hy => hl y (List.mem_cons_of_mem c hy)) _ ?_
      by_cases hc : (c : Int) = colAt colours v
      · rw [if_pos hc]; exact hbest
      · rw [if_neg hc]
        simp only
        have hgen : ∀ (b d : Bool),
            MoveSpec g colours k
              (if b = true then ((v : Int), (c : Int),
                (count_conflicts_if_colour g colours v (c : Int) : Int)
                  - (count_conflicts_for_vertex g colours v : Int), d)
              else best) := by
          intro b d
          split
          · right
            exact ⟨v, hv, c, hl c (List.mem_cons_self c t), rfl, rfl, rfl⟩
          · exact hbest
        exact hgen _ _
  have houter : ∀ (l : List Nat), (∀ v ∈ l, v ∈ get_conflicting_vertices g colours) →
      ∀ best, MoveSpec g colours k best →
      MoveSpec g colours k
        (l.foldl (fun best v =>
          let old_c := colAt colours v
          let old_conf := count_conflicts_for_vertex g colours v
          (List.range k).foldl (fun (best : Int × Int × Int × Bool) (new_c : Nat) =>
            if (new_c : Int) = old_c then best
            else
              let new_conf := count_conflicts_if_colour g colours v (new_c : Int)
              let delta : Int := (new_conf : Int) - (old_conf : Int)
              let is_tabu := decide (iter < tabuAt tabu v new_c)
              let new_total := conflicts + delta
              let aspiration := decide (new_total < best_conflicts_this_k)
              let select :=
                if delta < best.2.2.1 then (!is_tabu || aspiration)
                else if delta = best.2.2.1 then (best.2.2.2 && !is_tabu)
                else false
              if select then ((v : Int), (new_c : Int), delta, is_tabu && !aspiration)
              else best) best) best) := by
    intro l
    induction l with
    | nil => intro _ best hbest; exact hbest
    | cons v t ih =>
      intro hl best hbest
      rw [List.foldl_cons]
      refine ih (fun y hy => hl y (List.mem_cons_of_mem v hy)) _ ?_
      exact hinner v (hl v (List.mem_cons_self v t)) (List.range k)
        (fun c hc => List.mem_range.mp hc) best hbest
  exact houter (get_conflicting_vertices g colours) (fun v hv => hv) _ (Or.inl rfl)

/-- Members of the conflicting list are in-range vertices. -/
theorem mem_conflicting_lt (g : Graph) (colours : List Int) (v : Nat)
    (h : v ∈ get_conflicting_vertices g colours) : v < g.vertex_count := by
  unfold get_conflicting_vertices at h
  exact List.mem_range.mp (List.mem_filter.mp h).1

/-- **The running conflict counter is exact.**  If the inner TabuCol
loop starts with `conflicts = count_conflicts(colours)`, then whatever
colouring it returns comes with exactly its true conflict count. -/
theorem tabuInner_counter (g : Graph) (hwf : g.WF) (k tenure : Nat) :
    ∀ (fuel iter : Nat) (colours : List Int) (conflicts : Int)
      (tabu : List (List Nat)) (bestc : Int) (bestcols bestsol : List Int),
      colours.length = g.vertex_count →
      conflicts = (count_conflicts g colours : Int) →
      (tabuInner g k tenure fuel iter colours conflicts tabu bestc bestcols bestsol).2.1
        = (count_conflicts g
            (tabuInner g k tenure fuel iter colours conflicts tabu bestc bestcols bestsol).1
          : Int) ∧
      (tabuInner g k tenure fuel iter colours conflicts tabu bestc bestcols bestsol).1.length
        = g.vertex_count := by
  intro fuel
  induction fuel with
  | zero => intro iter colours conflicts _ _ _ _ hlen hc; exact ⟨hc, hlen⟩
  | succ fuel ih =>
    intro iter colours conflicts tabu bestc bestcols bestsol hlen hc
    unfold tabuInner
    split
    · exact ⟨hc, hlen⟩
    · simp only
      rcases tabuSelectMove_spec g colours k tabu iter conflicts bestc with hmv | hmv
      · rw [hmv]
        rw [if_pos (by norm_num)]
        exact ⟨hc, hlen⟩
      · obtain ⟨v, hv, c, hck, h1, h2, h3⟩ := hmv
        have hvn : v < g.vertex_count := mem_conflicting_lt g colours v hv
        rw [h1]
        rw [if_neg (by omega)]
        have htn : ((v : Int)).toNat = v := by omega
        rw [htn, h2, h3]
        have hdelta := conflict_delta_sub g hwf colours hlen v hvn (c : Int)
        have hlen1 : (setCol colours v (c : Int)).length = g.vertex_count := by
          rw [length_setCol]; exact hlen
        have hnewcount : conflicts +
            ((count_conflicts_if_colour g colours v (c : Int) : Int)
              - (count_conflicts_for_vertex g colours v : Int))
            = (count_conflicts g (setCol colours v (c : Int)) : Int) := by
          rw [hc]
          omega
        split
        · exact ⟨by rw [hnewcount], hlen1⟩
        · exact ih (iter + 1) _ _ _ _ _ _ hlen1 hnewcount

/-- Setting an in-range vertex to an in-range colour keeps `ColOK`. -/
theorem ColOK_setCol (g : Graph) (K : Int) (c : List Int) (v : Nat) (x : Int)
    (h : ColOK g K c) (hv : v < g.vertex_count) (hx0 : 0 ≤ x) (hxK : x < K) :
    ColOK g K (setCol c v x) := by
  refine ⟨by rw [length_setCol]; exact h.1, ?_⟩
  intro u hu
  by_cases huv : u = v
  · subst huv
    rw [colAt_setCol_self c u x (by rw [h.1]; exact hv)]
    exact ⟨hx0, hxK⟩
  · rw [colAt_setCol_ne c u v x huv]
    exact h.2 u hu

/-- `initialize_colouring`'s sweep assigns every listed vertex a colour
in `[0, k)` and keeps already-good entries good. -/
theorem tabuInitGo_ColOK (g : Graph) (k : Nat) (hk : 1 ≤ k) (r : Nat → Nat) :
    ∀ (l : List Nat) (colours : List Int) (ctr : Nat),
      colours.length = g.vertex_count →
      (∀ v ∈ l, v < g.vertex_count) →
      (∀ v ∈ List.range g.vertex_count, v ∉ l →
        0 ≤ colAt colours v ∧ colAt colours v < (k : Int)) →
      ColOK g (k : Int) (tabuInitGo g k r l colours ctr).1 := by
  intro l
  induction l with
  | nil =>
    intro colours ctr hlen _ hdone
    exact ⟨hlen, fun v hv => hdone v hv (List.not_mem_nil v)⟩
  | cons v rest ih =>
    intro colours ctr hlen hmem hdone
    have hv : v < g.vertex_count := hmem v (List.mem_cons_self v rest)
    have hkey : ∀ (x : Int) (ctr' : Nat), 0 ≤ x → x < (k : Int) →
        ColOK g (k : Int) (tabuInitGo g k r rest (setCol colours v x) ctr').1 := by
      intro x ctr' hx0 hxk
      refine ih (setCol colours v x) ctr' (by rw [length_setCol]; exact hlen)
        (fun u hu => hmem u (List.mem_cons_of_mem v hu)) ?_
      intro u hu hnot
      by_cases huv : u = v
      · subst huv
        rw [colAt_setCol_self colours u x (by rw [hlen]; exact hv)]
        exact ⟨hx0, hxk⟩
      · rw [colAt_setCol_ne colours u v x huv]
        refine hdone u hu ?_
        intro hc
        rcases List.mem_cons.mp hc with h | h
        · exact huv h
        · exact hnot h
    simp only [tabuInitGo]
    split
    · next h =>
      have hpos : 0 <
          ((List.range k).filter (fun (c : Nat) => !bannedB g colours v (c : Int))).length :=
        List.length_pos.mpr h
      have hmempick := getD_mem
        ((List.range k).filter (fun (c : Nat) => !bannedB g colours v (c : Int)))
        (r ctr %
          ((List.range k).filter (fun (c : Nat) => !bannedB g colours v (c : Int))).length)
        0 (Nat.mod_lt _ hpos)
      have hpk : ((List.range k).filter (fun (c : Nat) => !bannedB g colours v (c : Int))).getD
          (r ctr %
            ((List.range k).filter (fun (c : Nat) => !bannedB g colours v (c : Int))).length)
          0 < k :=
        List.mem_range.mp (List.mem_filter.mp hmempick).1
      exact hkey _ _ (Int.natCast_nonneg _) (by exact_mod_cast hpk)
    · exact hkey _ _ (Int.natCast_nonneg _)
        (by exact_mod_cast minConflictColour_lt g colours k hk v)

/-- `initialize_colouring` returns a length-`n` colouring with all
entries in `[0, k)`. -/
theorem initialize_colouring_ColOK (g : Graph) (k : Nat) (hk : 1 ≤ k) (r : Nat → Nat)
    (ctr : Nat) : ColOK g (k : Int) (initialize_colouring g k r ctr).1 := by
  unfold initialize_colouring
  refine tabuInitGo_ColOK g k hk r (degreeOrder g) _ ctr (by simp) ?_ ?_
  · intro v hv; exact (mem_degreeOrder g v).mp hv
  · intro v hv hnot
    exact absurd ((mem_degreeOrder g v).mpr (List.mem_range.mp hv)) hnot

/-- The inner TabuCol loop keeps every colouring it manipulates inside
the palette `[0, k) ⊆ [0, K)`. -/
theorem tabuInner_ColOK (g : Graph) (k tenure : Nat) (K : Int) (hkK : (k : Int) ≤ K) :
    ∀ (fuel iter : Nat) (colours : List Int) (conflicts : Int)
      (tabu : List (List Nat)) (bestc : Int) (bestcols bestsol : List Int),
      ColOK g K colours →
      ColOK g K bestcols →
      (bestsol = [] ∨ ColOK g K bestsol) →
      ColOK g K (tabuInner g k tenure fuel iter colours conflicts tabu bestc bestcols bestsol).1 ∧
      ((tabuInner g k tenure fuel iter colours conflicts tabu bestc bestcols bestsol).2.2 = [] ∨
        ColOK g K (tabuInner g k tenure fuel iter colours conflicts tabu bestc bestcols bestsol).2.2) := by
  intro fuel
  induction fuel with
  | zero =>
    intro iter colours conflicts tabu bestc bestcols bestsol hcol _ hsol
    exact ⟨hcol, hsol⟩
  | succ fuel ih =>
    intro iter colours conflicts tabu bestc bestcols bestsol hcol hbcols hsol
    unfold tabuInner
    split
    · exact ⟨hcol, Or.inr hcol⟩
    · simp only
      rcases tabuSelectMove_spec g colours k tabu iter conflicts bestc with hmv | hmv
      · rw [hmv, if_pos (by norm_num)]
        exact ⟨hcol, hsol⟩
      · obtain ⟨v, hv, c, hck, h1, h2, h3⟩ := hmv
        have hvn : v < g.vertex_count := mem_conflicting_lt g colours v hv
        rw [h1, if_neg (by omega)]
        have htn : ((v : Int)).toNat = v := by omega
        rw [htn, h2]
        have hcol1 : ColOK g K (setCol colours v ((c : Nat) : Int)) :=
          ColOK_setCol g K colours v _ hcol hvn (Int.natCast_nonneg c)
            (lt_of_lt_of_le (by exact_mod_cast hck) hkK)
        have hbp : ∀ (cond : Prop) (inst : Decidable cond) (x y : Int × List Int),
            ColOK g K x.2 → ColOK g K y.2 → ColOK g K ((@ite _ cond inst x y)).2 := by
          intro cond inst x y hx hy
          split
          · exact hx
          · exact hy
        split
        · exact ⟨hcol1, Or.inr hcol1⟩
        · exact ih (iter + 1) _ _ _ _ _ _ hcol1 (hbp _ _ _ _ hcol1 hbcols) hsol

/-- The fallback greedy keeps entries in `[0, Δ + 1)`. -/
theorem tabuFallbackGo_ColOK (g : Graph)
    (hlen : g.adjacency_list.length = g.vertex_count) :
    ∀ (l : List Nat) (colours : List Int),
      (∀ v ∈ l, v < g.vertex_count) →
      ColOK g ((max_degree g : Int) + 1) colours →
      ColOK g ((max_degree g : Int) + 1) (tabuFallbackGo g l colours) := by
  intro l
  induction l with
  | nil => intro colours _ h; exact h
  | cons v rest ih =>
    intro colours hmem hcol
    have hv : v < g.vertex_count := hmem v (List.mem_cons_self v rest)
    unfold tabuFallbackGo
    refine ih _ (fun u hu => hmem u (List.mem_cons_of_mem v hu)) ?_
    refine ColOK_setCol g _ colours v _ hcol hv (smallestFree_nonneg _) ?_
    have hle := smallestFree_le ((adjAt g v).map (fun nb => colAt colours nb))
    have hdeg := degree_le_max_degree g v hv hlen
    rw [List.length_map] at hle
    omega

/-- The tabu fallback greedy is a `[0, Δ + 1)`-colouring of length `n`. -/
theorem tabuFallback_ColOK (g : Graph)
    (hlen : g.adjacency_list.length = g.vertex_count) :
    ColOK g ((max_degree g : Int) + 1) (tabuFallback g) := by
  unfold tabuFallback
  refine tabuFallbackGo_ColOK g hlen _ _ (fun v hv => List.mem_range.mp hv) ?_
  refine ⟨by simp, ?_⟩
  intro v hv
  rw [colAt_replicate_lt _ _ _ (List.mem_range.mp hv)]
  refine ⟨le_refl 0, by positivity⟩

/-- The `k`-descent of the tabu solver only ever returns length-`n`
colourings with entries in `[0, Δ + 1)`. -/
theorem tabuDescend_ColOK (g : Graph)
    (hlen : g.adjacency_list.length = g.vertex_count)
    (r : Nat → Nat) (maxit tenure : Nat) :
    ∀ (k : Nat) (best : List Int) (ctr : Nat),
      k ≤ max_degree g + 1 →
      (best = [] ∨ ColOK g ((max_degree g : Int) + 1) best) →
      ColOK g ((max_degree g : Int) + 1) (tabuDescend g r maxit tenure k best ctr) := by
  intro k
  induction k with
  | zero =>
    intro best ctr _ hbest
    unfold tabuDescend
    split
    · next hne =>
      rcases hbest with h | h
      · exact absurd h hne
      · exact h
    · exact tabuFallback_ColOK g hlen
  | succ k ih =>
    intro best ctr hk hbest
    have hinit : ColOK g ((max_degree g : Int) + 1)
        (initialize_colouring g (k + 1) r ctr).1 :=
      ColOK_mono g (by push_cast; omega)
        (initialize_colouring_ColOK g (k + 1) (by omega) r ctr)
    have hinner := tabuInner_ColOK g (k + 1) tenure ((max_degree g : Int) + 1)
      (by push_cast; omega) maxit 1 (initialize_colouring g (k + 1) r ctr).1
      ((count_conflicts g (initialize_colouring g (k + 1) r ctr).1 : Int))
      (List.replicate g.vertex_count (List.replicate (k + 1) 0))
      ((count_conflicts g (initialize_colouring g (k + 1) r ctr).1 : Int))
      (initialize_colouring g (k + 1) r ctr).1 best hinit hinit hbest
    simp only [tabuDescend]
    split
    · exact ih _ _ (by omega) (Or.inr (ColOK_mono g (le_refl _) hinit))
    · split
      · split
        · next hne =>
          rcases hinner.2 with h0 | hok
          · exact absurd h0 hne
          · exact hok
        · exact tabuFallback_ColOK g hlen
      · exact ih _ _ (by omega) hinner.2

/-- `colour_with_tabu` returns a length-`n` colouring with entries in
`[0, Δ + 1)`. -/
theorem colour_with_tabu_ColOK (g : Graph)
    (hlen : g.adjacency_list.length = g.vertex_count)
    (r : Nat → Nat) (maxit tenure : Nat) :
    ColOK g ((max_degree g : Int) + 1) (colour_with_tabu g r maxit tenure) := by
  unfold colour_with_tabu
  split
  · next h =>
    refine ⟨by simp [h], ?_⟩
    rw [h]
    intro v hv
    simp at hv
  · exact tabuDescend_ColOK g hlen r maxit tenure _ [] 0 (by omega) (Or.inl rfl)

/-! ## Simulated annealing (`welsh_powell.cpp` unit,
`colour_with_simulated_annealing`)

Random draws are consumed from an oracle pair: `r : Nat → Nat` for the
integer distributions (`colour_dist`, `vertex_dist`, each draw taken
modulo its bound at a fresh stream position) and `accept : Nat → Bool`
for the Metropolis test `real01(rng) < exp(-delta / T)` (the
temperature schedule only feeds this comparison, so the Boolean oracle
abstracts it exactly).  Every theorem below quantifies over both
oracles, so it holds for every execution of the source. -/

structure SARng where
  r : Nat → Nat
  accept : Nat → Bool

/-- The `while (newc == oldc && ++tries < 10)` redraw loop (at most 9
draws). -/
def saPickGo (k : Nat) (r : Nat → Nat) (oldc : Int) : Nat → Int → Nat → Int × Nat
  | 0, newc, ctr => (newc, ctr)
  | t + 1, newc, ctr =>
    if newc = oldc then saPickGo k r oldc t ((r ctr % k : Nat) : Int) (ctr + 1)
    else (newc, ctr)

/-- Choice of the proposed colour `newc`: redraw up to 9 times, then
fall back to the first colour different from `oldc`; a single colour
palette always proposes 0. -/
def saPick (k : Nat) (r : Nat → Nat) (oldc : Int) (ctr : Nat) : Int × Nat :=
  if 1 < k then
    let p := saPickGo k r oldc 9 oldc ctr
    if p.1 = oldc then
      (match (List.range k).find? (fun (c : Nat) => decide (((c : Nat) : Int) ≠ oldc)) with
        | some c => ((c : Int), p.2)
        | none => (oldc, p.2))
    else p
  else (0, ctr)

/-- One execution of the bounded SA loop at palette `k`: state is the
current colouring, the running conflict counter, the
`(best_overall, best_overall_conflicts, best_overall_k)` triple and
the oracle counter. -/
def saInner (g : Graph) (k : Nat) (rng : SARng) :
    Nat → List Int → Int → List Int × Int × Int → Nat →
      List Int × Int × (List Int × Int × Int) × Nat
  | 0, colours, conflicts, bestOv, ctr => (colours, conflicts, bestOv, ctr)
  | fuel + 1, colours, conflicts, bestOv, ctr =>
    let v := rng.r ctr % g.vertex_count
    let oldc := colAt colours v
    let pick := saPick k rng.r oldc (ctr + 1)
    let newc := pick.1
    let old_local := count_conflicts_for_vertex g colours v
    let colours1 := setCol colours v newc
    let new_local := count_conflicts_for_vertex g colours1 v
    let delta : Int := (new_local : Int) - (old_local : Int)
    let acc := if delta ≤ 0 then true else rng.accept pick.2
    if acc then
      let conflicts1 := conflicts + delta
      let bestOv1 :=
        if conflicts1 < bestOv.2.1 ∨
            (conflicts1 = bestOv.2.1 ∧ count_colours colours1 < bestOv.2.2) then
          (colours1, conflicts1, count_colours colours1)
        else bestOv
      if conflicts1 = 0 then (colours1, conflicts1, bestOv1, pick.2 + 1)
      else saInner g k rng fuel colours1 conflicts1 bestOv1 (pick.2 + 1)
    else saInner g k rng fuel colours conflicts bestOv (pick.2 + 1)

/-- The random seed for palette `k`: `n` fresh colour draws. -/
def saSeed (n k : Nat) (r : Nat → Nat) (ctr : Nat) : List Int :=
  (List.range n).map (fun i => ((r (ctr + i) % k : Nat) : Int))

/-- The `for (palette_k = start_palette; palette_k >= 1; --palette_k)`
descent with the `best_valid` / `best_overall` bookkeeping and the
early `return` when a palette fails without improving. -/
def saOuter (g : Graph) (rng : SARng) :
    Nat → List Int → Int → List Int × Int × Int → Nat → List Int
  | 0, bestValid, _, bestOv, _ =>
    if bestValid ≠ [] then bestValid
    else if bestOv.1 ≠ [] then bestOv.1
    else List.replicate g.vertex_count 0
  | k + 1, bestValid, bvk, bestOv, ctr =>
    let n := g.vertex_count
    let seed := saSeed n (k + 1) rng.r ctr
    let colours := greedy_repair_fixed_k g seed (k + 1)
    let conflicts : Int := (count_conflicts g colours : Int)
    if conflicts = 0 then
      saOuter g rng k colours (min bvk (count_colours colours)) bestOv (ctr + n)
    else
      let iters := max 1000 (n * 50)
      let res := saInner g (k + 1) rng iters colours conflicts bestOv (ctr + n)
      if res.2.1 = 0 then
        saOuter g rng k res.1 (min bvk (count_colours res.1)) res.2.2.1 res.2.2.2
      else
        if bestValid ≠ [] then bestValid
        else if (res.2.2.1).1 ≠ [] then (res.2.2.1).1
        else res.1

/-- `colour_with_simulated_annealing`: `start_palette = min(n, Δ+1)`,
`best_valid_k` and the overall bests start at `INT_MAX`. -/
def colour_with_simulated_annealing (g : Graph) (rng : SARng) : List Int :=
  if g.vertex_count = 0 then []
  else saOuter g rng (min g.vertex_count (max_degree g + 1)) [] 2147483647
    ([], 2147483647, 2147483647) 0

/-- The redraw loop keeps the proposed colour inside `[0, k)`. -/
theorem saPickGo_range (k : Nat) (hk : 1 ≤ k) (r : Nat → Nat) (oldc : Int) :
    ∀ (t : Nat) (newc : Int) (ctr : Nat), 0 ≤ newc → newc < (k : Int) →
      0 ≤ (saPickGo k r oldc t newc ctr).1 ∧ (saPickGo k r oldc t newc ctr).1 < (k : Int) := by
  intro t
  induction t with
  | zero => intro newc ctr h0 h1; exact ⟨h0, h1⟩
  | succ t ih =>
    intro newc ctr h0 h1
    unfold saPickGo
    split
    · exact ih _ _ (Int.natCast_nonneg _)
        (by exact_mod_cast Nat.mod_lt _ (by omega : 0 < k))
    · exact ⟨h0, h1⟩

/-- The proposed colour of an SA move lies in `[0, k)`. -/
theorem saPick_range (k : Nat) (hk : 1 ≤ k) (r : Nat → Nat) (oldc : Int) (ctr : Nat)
    (h0 : 0 ≤ oldc) (h1 : oldc < (k : Int)) :
    0 ≤ (saPick k r oldc ctr).1 ∧ (saPick k r oldc ctr).1 < (k : Int) := by
  simp only [saPick]
  split
  · split
    · split
      · next c hc =>
        have hck := List.mem_range.mp (List.mem_of_find?_eq_some hc)
        refine ⟨Int.natCast_nonneg _, ?_⟩
        show ((c : Nat) : Int) < (k : Int)
        exact_mod_cast hck
      · exact ⟨h0, h1⟩
    · exact saPickGo_range k hk r oldc 9 oldc ctr h0 h1
  · refine ⟨le_refl 0, ?_⟩
    show (0 : Int) < (k : Int)
    exact_mod_cast hk

/-- The SA inner loop keeps the working colouring inside the palette
`[0, k)` and the recorded overall best inside `[0, K)` (for `k ≤ K`). -/
theorem saInner_ColOK (g : Graph) (k : Nat) (hk : 1 ≤ k) (rng : SARng) (K : Int)
    (hkK : (k : Int) ≤ K) (hn : 0 < g.vertex_count) :
    ∀ (fuel : Nat) (colours : List Int) (conflicts : Int)
      (bestOv : List Int × Int × Int) (ctr : Nat),
      ColOK g (k : Int) colours →
      (bestOv.1 = [] ∨ ColOK g K bestOv.1) →
      ColOK g (k : Int) (saInner g k rng fuel colours conflicts bestOv ctr).1 ∧
      ((saInner g k rng fuel colours conflicts bestOv ctr).2.2.1.1 = [] ∨
        ColOK g K (saInner g k rng fuel colours conflicts bestOv ctr).2.2.1.1) := by
  intro fuel
  induction fuel with
  | zero => intro colours conflicts bestOv ctr hcol hov; exact ⟨hcol, hov⟩
  | succ fuel ih =>
    intro colours conflicts bestOv ctr hcol hov
    simp only [saInner]
    have hv : rng.r ctr % g.vertex_count < g.vertex_count := Nat.mod_lt _ hn
    have hold := hcol.2 (rng.r ctr % g.vertex_count) (List.mem_range.mpr hv)
    have hpick := saPick_range k hk rng.r (colAt colours (rng.r ctr % g.vertex_count))
      (ctr + 1) hold.1 hold.2
    have hcol1 : ColOK g (k : Int)
        (setCol colours (rng.r ctr % g.vertex_count)
          (saPick k rng.r (colAt colours (rng.r ctr % g.vertex_count)) (ctr + 1)).1) :=
      ColOK_setCol g _ colours _ _ hcol hv hpick.1 hpick.2
    have hbest : ∀ (cond : Prop) (inst : Decidable cond) (x y : List Int × Int × Int),
        (x.1 = [] ∨ ColOK g K x.1) → (y.1 = [] ∨ ColOK g K y.1) →
        ((@ite _ cond inst x y).1 = [] ∨ ColOK g K (@ite _ cond inst x y).1) := by
      intro cond inst x y hx hy
      split
      · exact hx
      · exact hy
    have htail : ∀ (cols1 : List Int), ColOK g (k : Int) cols1 →
        ∀ (b1 : List Int × Int × Int) (c1 : Int) (ctr1 : Nat),
        (b1.1 = [] ∨ ColOK g K b1.1) →
        ColOK g (k : Int) (if c1 = 0 then (cols1, c1, b1, ctr1)
            else saInner g k rng fuel cols1 c1 b1 ctr1).1 ∧
        ((if c1 = 0 then (cols1, c1, b1, ctr1)
            else saInner g k rng fuel cols1 c1 b1 ctr1).2.2.1.1 = [] ∨
          ColOK g K (if c1 = 0 then (cols1, c1, b1, ctr1)
            else saInner g k rng fuel cols1 c1 b1 ctr1).2.2.1.1) := by
      intro cols1 hc1 b1 c1 ctr1 hb1
      split
      · exact ⟨hc1, hb1⟩
      · exact ih _ _ _ _ hc1 hb1
    split
    · exact htail _ hcol1 _ _ _ (hbest _ _ _ _ (Or.inr (ColOK_mono g hkK hcol1)) hov)
    · cases hacc : rng.accept
        ((saPick k rng.r (colAt colours (rng.r ctr % g.vertex_count)) (ctr + 1)).2) with
      | false =>
        rw [if_neg (by simp)]
        exact ih _ _ _ _ hcol hov
      | true =>
        rw [if_pos rfl]
        exact htail _ hcol1 _ _ _ (hbest _ _ _ _ (Or.inr (ColOK_mono g hkK hcol1)) hov)

/-- The SA palette descent only ever returns length-`n` colourings with
entries in `[0, Δ + 1)`. -/
theorem saOuter_ColOK (g : Graph) (rng : SARng) (hn : 0 < g.vertex_count) :
    ∀ (k : Nat) (bestValid : List Int) (bvk : Int)
      (bestOv : List Int × Int × Int) (ctr : Nat),
      k ≤ max_degree g + 1 →
      (bestValid = [] ∨ ColOK g ((max_degree g : Int) + 1) bestValid) →
      (bestOv.1 = [] ∨ ColOK g ((max_degree g : Int) + 1) bestOv.1) →
      ColOK g ((max_degree g : Int) + 1) (saOuter g rng k bestValid bvk bestOv ctr) := by
  intro k
  induction k with
  | zero =>
    intro bestValid bvk bestOv ctr _ hbv hov
    simp only [saOuter]
    split
    · next hne =>
      rcases hbv with h | h
      · exact absurd h hne
      · exact h
    · split
      · next hne =>
        rcases hov with h | h
        · exact absurd h hne
        · exact h
      · refine ⟨by simp, ?_⟩
        intro v hv
        rw [colAt_replicate_lt _ _ _ (List.mem_range.mp hv)]
        exact ⟨le_refl 0, by positivity⟩
  | succ k ih =>
    intro bestValid bvk bestOv ctr hk hbv hov
    have hcols : ColOK g (((k + 1 : Nat)) : Int)
        (greedy_repair_fixed_k g (saSeed g.vertex_count (k + 1) rng.r ctr) (k + 1)) :=
      greedy_repair_ColOK g _ (k + 1) (by omega)
    have hcolsM : ColOK g ((max_degree g : Int) + 1)
        (greedy_repair_fixed_k g (saSeed g.vertex_count (k + 1) rng.r ctr) (k + 1)) :=
      ColOK_mono g (by push_cast; omega) hcols
    have hinner := saInner_ColOK g (k + 1) (by omega) rng ((max_degree g : Int) + 1)
      (by push_cast; omega) hn (max 1000 (g.vertex_count * 50))
      (greedy_repair_fixed_k g (saSeed g.vertex_count (k + 1) rng.r ctr) (k + 1))
      ((count_conflicts g
        (greedy_repair_fixed_k g (saSeed g.vertex_count (k + 1) rng.r ctr) (k + 1)) : Int))
      bestOv (ctr + g.vertex_count) hcols hov
    simp only [saOuter]
    split
    · exact ih _ _ _ _ (by omega) (Or.inr hcolsM) hov
    · split
      · exact ih _ _ _ _ (by omega)
          (Or.inr (ColOK_mono g (by push_cast; omega) hinner.1)) hinner.2
      · split
        · next hne =>
          rcases hbv with h | h
          · exact absurd h hne
          · exact h
        · split
          · next hne =>
            rcases hinner.2 with h | h
            · exact absurd h hne
            · exact h
          · exact ColOK_mono g (by push_cast; omega) hinner.1

/-- `colour_with_simulated_annealing` returns a length-`n` colouring
with entries in `[0, Δ + 1)`. -/
theorem colour_with_simulated_annealing_ColOK (g : Graph) (rng : SARng) :
    ColOK g ((max_degree g : Int) + 1) (colour_with_simulated_annealing g rng) := by
  unfold colour_with_simulated_annealing
  split
  · next h =>
    refine ⟨by simp [h], ?_⟩
    rw [h]
    intro v hv
    simp at hv
  · next h =>
    exact saOuter_ColOK g rng (by omega) _ [] 2147483647 ([], 2147483647, 2147483647) 0
      (by omega) (Or.inl rfl) (Or.inl rfl)

/-! ## Exact solver (`exact_solver.cpp`, `colour_with_exact`)

The search is bounded by a fuel argument; the top-level call passes
`n`, and every recursive call colours one more vertex, so the branch
`fuel = 0 ∧ coloured_count ≠ n` is never taken from the top level. -/

/-- Saturation as `select_vertex` measures it: the number of distinct
neighbour colours in `[0, current_max]`. -/
def selectSat (g : Graph) (colours : List Int) (current_max : Int) (v : Nat) : Nat :=
  (((adjAt g v).map (fun nb => colAt colours nb)).filter
    (fun c => decide (0 ≤ c ∧ c ≤ current_max))).dedup.length

/-- `select_vertex`: the uncoloured vertex with maximum saturation,
ties broken by larger degree, then by smaller id (first hit wins);
`-1` when every vertex is coloured. -/
def select_vertex (g : Graph) (colours : List Int) (current_max : Int) : Int :=
  ((List.range g.vertex_count).foldl
    (fun (best : Int × Int × Int) (v : Nat) =>
      if colAt colours v ≠ -1 then best
      else
        let sat : Int := (selectSat g colours current_max v : Int)
        let deg : Int := ((adjAt g v).length : Int)
        if best.2.1 < sat ∨ (sat = best.2.1 ∧ best.2.2 < deg) then ((v : Int), sat, deg)
        else best)
    (-1, -1, -1)).1

/-- `backtrack_exact`: the branch-and-bound search, with the
`(best_k, best_solution)` reference pair threaded through. -/
def backtrack_exact (g : Graph) :
    Nat → List Int → Nat → Int → Int × List Int → Int × List Int
  | 0, colours, coloured_count, current_max, best =>
    if coloured_count = g.vertex_count then
      if current_max + 1 < best.1 then (current_max + 1, colours) else best
    else best
  | fuel + 1, colours, coloured_count, current_max, best =>
    if coloured_count = g.vertex_count then
      if current_max + 1 < best.1 then (current_max + 1, colours) else best
    else if best.1 ≤ current_max + 1 then best
    else
      let u := select_vertex g colours current_max
      if u < 0 then best
      else
        let un := u.toNat
        let bestAfter := (List.range (current_max + 1).toNat).foldl
          (fun (b : Int × List Int) (c : Nat) =>
            if (adjAt g un).any (fun nb => decide (colAt colours nb = (c : Int))) then b
            else backtrack_exact g fuel (setCol colours un (c : Int))
              (coloured_count + 1) current_max b)
          best
        if current_max + 2 < bestAfter.1 then
          backtrack_exact g fuel (setCol colours un (current_max + 1))
            (coloured_count + 1) (current_max + 1) bestAfter
        else bestAfter

/-- `colour_with_exact`: DSATUR upper bound, early exit when it uses at
most one colour, otherwise the full search from the empty partial
colouring. -/
def colour_with_exact (g : Graph) : List Int :=
  if g.vertex_count = 0 then []
  else
    let ub := colour_with_dsatur g
    let best_k := count_colours ub
    if best_k ≤ 1 then List.replicate g.vertex_count 0
    else (backtrack_exact g g.vertex_count (List.replicate g.vertex_count (-1)) 0 (-1)
      (best_k, ub)).2

/-- The state invariant of the search: a proper partial colouring of
the right length, an exact coloured-vertex counter, all colours drawn
from `[0, current_max]`, and every colour of `[0, current_max]` in use
(the canonical-labelling discipline of the new-colour branch). -/
def ExactInv (g : Graph) (colours : List Int) (coloured_count : Nat)
    (current_max : Int) : Prop :=
  colours.length = g.vertex_count ∧
  ProperPartial g colours ∧
  ((List.range g.vertex_count).countP (fun v => decide (colAt colours v ≠ -1)))
    = coloured_count ∧
  (∀ v ∈ List.range g.vertex_count, colAt colours v = -1 ∨
    (0 ≤ colAt colours v ∧ colAt colours v ≤ current_max)) ∧
  (∀ c : Int, 0 ≤ c → c ≤ current_max →
    ∃ v ∈ List.range g.vertex_count, colAt colours v = c) ∧
  -1 ≤ current_max

/-- The invariant of the `(best_k, best_solution)` pair: the stored
solution is valid and `best_k` is exactly its colour count. -/
def BestInv (g : Graph) (best : Int × List Int) : Prop :=
  ValidColouring g best.2 ∧ count_colours best.2 = best.1

/-- A generic fold-invariant principle. -/
theorem foldl_invariant {α β : Type} (P : β → Prop) (step : β → α → β)
    (l : List α) (b : β) (hb : P b)
    (hstep : ∀ b a, a ∈ l → P b → P (step b a)) : P (l.foldl step b) := by
  induction l generalizing b with
  | nil => exact hb
  | cons x t ih =>
    rw [List.foldl_cons]
    exact ih (step b x) (hstep b x (List.mem_cons_self x t) hb)
      (fun b' a ha hb' => hstep b' a (List.mem_cons_of_mem x ha) hb')

/-- A state that has coloured every vertex is a valid colouring using
exactly `current_max + 1` colours. -/
theorem exact_complete_valid (g : Graph) (colours : List Int) (current_max : Int)
    (hinv : ExactInv g colours g.vertex_count current_max) :
    ValidColouring g colours ∧ count_colours colours = current_max + 1 := by
  obtain ⟨hlen, hprop, hcount, hvals, hused, hcm⟩ := hinv
  have hall : ∀ v ∈ List.range g.vertex_count, colAt colours v ≠ -1 := by
    have := List.countP_eq_length.mp (by rw [hcount]; simp)
    intro v hv
    simpa using this v hv
  have hpos : ∀ v ∈ List.range g.vertex_count, 0 ≤ colAt colours v := by
    intro v hv
    rcases hvals v hv with h | h
    · exact absurd h (hall v hv)
    · exact h.1
  rcases lt_or_le current_max 0 with hneg | hnn
  · -- `current_max = -1`: no vertex can be coloured, so the graph is empty
    have hn0 : g.vertex_count = 0 := by
      by_contra hn
      have h0 : (0 : Nat) ∈ List.range g.vertex_count :=
        List.mem_range.mpr (Nat.pos_of_ne_zero hn)
      rcases hvals 0 h0 with h | h
      · exact hall 0 h0 h
      · omega
    have hnil : colours = [] := List.length_eq_zero.mp (by omega)
    subst hnil
    constructor
    · exact ⟨⟨by omega, hpos⟩, hprop⟩
    · have : maxColour ([] : List Int) = -1 := rfl
      rw [count_colours_eq, this]
      have : current_max = -1 := by omega
      omega
  · -- `current_max ≥ 0`: the maximum is attained
    have hle : maxColour colours ≤ current_max := by
      have hlt := (maxColour_lt_iff colours (current_max + 1) (by omega)).mpr ?_
      · omega
      · intro x hx
        obtain ⟨⟨i, hi⟩, rfl⟩ := List.mem_iff_get.mp hx
        have hci : colAt colours i = colours.get ⟨i, hi⟩ := by
          simp [colAt, List.getD_eq_getElem?_getD, List.getElem?_eq_getElem hi]
        rw [← hci]
        have hir : i ∈ List.range g.vertex_count := List.mem_range.mpr (by omega)
        rcases hvals i hir with h | h
        · exact absurd h (hall i hir)
        · omega
    have hge : current_max ≤ maxColour colours := by
      obtain ⟨v, hv, hveq⟩ := hused current_max (by omega) (le_refl _)
      have hvm : colAt colours v ∈ colours :=
        colAt_mem colours v (by rw [hlen]; exact List.mem_range.mp hv)
      have := maxColour_mem_le colours _ hvm
      omega
    constructor
    · exact ⟨⟨hlen, hpos⟩, hprop⟩
    · rw [count_colours_eq, if_pos (by omega)]
      omega

/-- The loop body of `select_vertex`, named for the proofs below. -/
def selStep (g : Graph) (colours : List Int) (cm : Int)
    (best : Int × Int × Int) (v : Nat) : Int × Int × Int :=
  if colAt colours v ≠ -1 then best
  else
    if best.2.1 < ((selectSat g colours cm v : Nat) : Int) ∨
        (((selectSat g colours cm v : Nat) : Int) = best.2.1 ∧
          best.2.2 < ((adjAt g v).length : Int)) then
      ((v : Int), ((selectSat g colours cm v : Nat) : Int), ((adjAt g v).length : Int))
    else best

theorem select_vertex_eq_fold (g : Graph) (colours : List Int) (cm : Int) :
    select_vertex g colours cm
      = ((List.range g.vertex_count).foldl (selStep g colours cm) (-1, -1, -1)).1 := rfl

/-- What `select_vertex` can return: `-1`, or an in-range uncoloured
vertex. -/
theorem select_vertex_spec (g : Graph) (colours : List Int) (cm : Int) :
    select_vertex g colours cm = -1 ∨
      (0 ≤ select_vertex g colours cm ∧
        (select_vertex g colours cm).toNat < g.vertex_count ∧
        colAt colours (select_vertex g colours cm).toNat = -1) := by
  rw [select_vertex_eq_fold]
  have h := foldl_invariant (fun (best : Int × Int × Int) =>
      best.1 = -1 ∨ (0 ≤ best.1 ∧ best.1.toNat < g.vertex_count ∧
        colAt colours best.1.toNat = -1))
    (selStep g colours cm)
    (List.range g.vertex_count) (-1, -1, -1) (Or.inl rfl) ?_
  · exact h
  · intro b v hv hb
    unfold selStep
    by_cases hcol : colAt colours v ≠ -1
    · rw [if_pos hcol]; exact hb
    · rw [if_neg hcol]
      split
      · right
        refine ⟨Int.natCast_nonneg v, ?_, ?_⟩
        · rw [Int.toNat_natCast]; exact List.mem_range.mp hv
        · rw [Int.toNat_natCast]
          push_neg at hcol
          exact hcol
      · exact hb

/-- When an uncoloured vertex exists, `select_vertex` finds one. -/
theorem select_vertex_finds (g : Graph) (colours : List Int) (cm : Int)
    (v : Nat) (hv : v < g.vertex_count) (hunc : colAt colours v = -1) :
    0 ≤ select_vertex g colours cm := by
  rw [select_vertex_eq_fold]
  obtain ⟨s, t, hst⟩ := List.append_of_mem (List.mem_range.mpr hv)
  rw [hst, List.foldl_append, List.foldl_cons]
  have hkeep : ∀ (l : List Nat) (b : Int × Int × Int), (0 ≤ b.2.1 ∧ 0 ≤ b.1) →
      0 ≤ (l.foldl (selStep g colours cm) b).2.1 ∧
      0 ≤ (l.foldl (selStep g colours cm) b).1 := by
    intro l
    induction l with
    | nil => intro b hb; exact hb
    | cons x xs ih =>
      intro b hb
      rw [List.foldl_cons]
      refine ih _ ?_
      unfold selStep
      by_cases hcol : colAt colours x ≠ -1
      · rw [if_pos hcol]; exact hb
      · rw [if_neg hcol]
        split
        · exact ⟨Int.natCast_nonneg _, Int.natCast_nonneg _⟩
        · exact hb
  have himp : 0 ≤ (s.foldl (selStep g colours cm) (-1, -1, -1)).2.1 →
      0 ≤ (s.foldl (selStep g colours cm) (-1, -1, -1)).1 := by
    refine foldl_invariant (fun (best : Int × Int × Int) =>
        0 ≤ best.2.1 → 0 ≤ best.1)
      (selStep g colours cm) s (-1, -1, -1) (by intro h; simp at h) ?_
    intro b x hx hb
    unfold selStep
    by_cases hcol : colAt colours x ≠ -1
    · rw [if_pos hcol]; exact hb
    · rw [if_neg hcol]
      split
      · intro _; exact Int.natCast_nonneg _
      · exact hb
  refine (hkeep t _ ?_).2
  unfold selStep at himp ⊢
  rw [if_neg (by simp [hunc])]
  split
  · exact ⟨Int.natCast_nonneg _, Int.natCast_nonneg _⟩
  · next hsel =>
    push_neg at hsel
    have h1 := hsel.1
    have hs0 : (0 : Int) ≤ (selectSat g colours cm v : Int) := Int.natCast_nonneg _
    exact ⟨by omega, himp (by omega)⟩

/-- Colouring an uncoloured vertex bumps the coloured counter by one. -/
theorem coloured_count_setCol (g : Graph) (colours : List Int) (un : Nat)
    (hun : un < g.vertex_count) (hunc : colAt colours un = -1)
    (c : Int) (hc0 : 0 ≤ c) (hlen : colours.length = g.vertex_count) :
    ((List.range g.vertex_count).countP
      (fun v => decide (colAt (setCol colours un c) v ≠ -1)))
      = ((List.range g.vertex_count).countP
          (fun v => decide (colAt colours v ≠ -1))) + 1 := by
  have h := countP_update_point (List.nodup_range g.vertex_count) un
    (fun v => decide (colAt colours v ≠ -1))
    (fun v => decide (colAt (setCol colours un c) v ≠ -1))
    (by
      intro x hx hxun
      simp [colAt_setCol_ne colours x un c hxun])
  rw [if_pos ⟨List.mem_range.mpr hun, by
      simp [colAt_setCol_self colours un c (show un < colours.length by omega)]
      omega⟩] at h
  rw [if_neg (by
      intro hcon
      have := hcon.2
      simp [hunc] at this)] at h
  omega

/-- Branching on an allowed old colour preserves the search invariant. -/
theorem exactInv_setCol (g : Graph) (hwf : g.WF) (colours : List Int)
    (cc : Nat) (cm : Int) (hinv : ExactInv g colours cc cm)
    (un : Nat) (hun : un < g.vertex_count) (hunc : colAt colours un = -1)
    (c : Int) (hc0 : 0 ≤ c) (hccm : c ≤ cm)
    (hfree : ∀ nb ∈ adjAt g un, colAt colours nb ≠ c) :
    ExactInv g (setCol colours un c) (cc + 1) cm := by
  obtain ⟨hlen, hprop, hcount, hvals, hused, hcm⟩ := hinv
  refine ⟨by rw [length_setCol]; exact hlen,
    properPartial_setCol g hwf colours hlen hprop un hun c hfree, ?_, ?_, ?_, hcm⟩
  · rw [coloured_count_setCol g colours un hun hunc c hc0 hlen, hcount]
  · intro v hv
    by_cases hveq : v = un
    · subst hveq
      rw [colAt_setCol_self colours v c (by omega)]
      exact Or.inr ⟨hc0, hccm⟩
    · rw [colAt_setCol_ne colours v un c hveq]
      exact hvals v hv
  · intro c' hc'0 hc'cm
    obtain ⟨v, hv, hveq⟩ := hused c' hc'0 hc'cm
    have hvun : v ≠ un := by
      intro he
      rw [he, hunc] at hveq
      omega
    exact ⟨v, hv, by rw [colAt_setCol_ne colours v un c hvun]; exact hveq⟩

/-- Opening the fresh colour `current_max + 1` preserves the search
invariant at the incremented palette ceiling. -/
theorem exactInv_setCol_new (g : Graph) (hwf : g.WF) (colours : List Int)
    (cc : Nat) (cm : Int) (hinv : ExactInv g colours cc cm)
    (un : Nat) (hun : un < g.vertex_count) (hunc : colAt colours un = -1) :
    ExactInv g (setCol colours un (cm + 1)) (cc + 1) (cm + 1) := by
  obtain ⟨hlen, hprop, hcount, hvals, hused, hcm⟩ := hinv
  have hfree : ∀ nb ∈ adjAt g un, colAt colours nb ≠ cm + 1 := by
    intro nb hnb
    have hnbn : nb ∈ List.range g.vertex_count :=
      List.mem_range.mpr (hwf.2.1 un (List.mem_range.mpr hun) nb hnb)
    rcases hvals nb hnbn with h | h
    · omega
    · omega
  refine ⟨by rw [length_setCol]; exact hlen,
    properPartial_setCol g hwf colours hlen hprop un hun (cm + 1) hfree, ?_, ?_, ?_,
    by omega⟩
  · rw [coloured_count_setCol g colours un hun hunc (cm + 1) (by omega) hlen, hcount]
  · intro v hv
    by_cases hveq : v = un
    · subst hveq
      rw [colAt_setCol_self colours v (cm + 1) (by omega)]
      exact Or.inr ⟨by omega, le_refl _⟩
    · rw [colAt_setCol_ne colours v un (cm + 1) hveq]
      rcases hvals v hv with h | h
      · exact Or.inl h
      · exact Or.inr ⟨h.1, by omega⟩
  · intro c' hc'0 hc'cm
    rcases lt_or_le c' (cm + 1) with hlt | hge
    · obtain ⟨v, hv, hveq⟩ := hused c' hc'0 (by omega)
      have hvun : v ≠ un := by
        intro he
        rw [he, hunc] at hveq
        omega
      exact ⟨v, hv, by
        rw [colAt_setCol_ne colours v un (cm + 1) hvun]; exact hveq⟩
    · have hc'eq : c' = cm + 1 := by omega
      exact ⟨un, List.mem_range.mpr hun, by
        rw [colAt_setCol_self colours un (cm + 1) (by omega), hc'eq]⟩

/-- **Soundness of the search.**  From any invariant-respecting state,
`backtrack_exact` returns a pair whose solution is a valid colouring
counted exactly by its first component, and the bound never increases. -/
theorem backtrack_sound (g : Graph) (hwf : g.WF) :
    ∀ (fuel : Nat) (colours : List Int) (cc : Nat) (cm : Int) (best : Int × List Int),
      ExactInv g colours cc cm → BestInv g best →
      BestInv g (backtrack_exact g fuel colours cc cm best) ∧
      (backtrack_exact g fuel colours cc cm best).1 ≤ best.1 := by
  intro fuel
  induction fuel with
  | zero =>
    intro colours cc cm best hinv hbest
    simp only [backtrack_exact]
    split
    · next hcc =>
      split
      · next himp =>
        have hv := exact_complete_valid g colours cm (hcc ▸ hinv)
        exact ⟨⟨hv.1, hv.2⟩, by omega⟩
      · exact ⟨hbest, le_refl _⟩
    · exact ⟨hbest, le_refl _⟩
  | succ fuel ih =>
    intro colours cc cm best hinv hbest
    simp only [backtrack_exact]
    split
    · next hcc =>
      split
      · next himp =>
        have hv := exact_complete_valid g colours cm (hcc ▸ hinv)
        exact ⟨⟨hv.1, hv.2⟩, by omega⟩
      · exact ⟨hbest, le_refl _⟩
    · split
      · exact ⟨hbest, le_refl _⟩
      · split
        · exact ⟨hbest, le_refl _⟩
        · next hneg =>
          rcases select_vertex_spec g colours cm with hm1 | hspec
          · exact absurd (by omega : select_vertex g colours cm < 0) hneg
          obtain ⟨hge, hlt, hunc⟩ := hspec
          have hfold := foldl_invariant
            (fun (b : Int × List Int) => BestInv g b ∧ b.1 ≤ best.1)
            (fun (b : Int × List Int) (c : Nat) =>
              if (adjAt g (select_vertex g colours cm).toNat).any
                  (fun nb => decide (colAt colours nb = (c : Int))) then b
              else backtrack_exact g fuel
                (setCol colours (select_vertex g colours cm).toNat (c : Int))
                (cc + 1) cm b)
            (List.range (cm + 1).toNat) best ⟨hbest, le_refl _⟩ ?_
          · split
            · have h := ih (setCol colours (select_vertex g colours cm).toNat (cm + 1))
                (cc + 1) (cm + 1) _
                (exactInv_setCol_new g hwf colours cc cm hinv _ hlt hunc) hfold.1
              exact ⟨h.1, le_trans h.2 hfold.2⟩
            · exact hfold
          · intro b c hcmem hPb
            dsimp only
            split
            · exact hPb
            · next hnb =>
              have hfree : ∀ nb ∈ adjAt g (select_vertex g colours cm).toNat,
                  colAt colours nb ≠ (c : Int) := by
                simpa using hnb
              have hcmem' := List.mem_range.mp hcmem
              have hccm : (c : Int) ≤ cm := by omega
              have h := ih (setCol colours (select_vertex g colours cm).toNat (c : Int))
                (cc + 1) cm b
                (exactInv_setCol g hwf colours cc cm hinv _ hlt hunc _
                  (Int.natCast_nonneg c) hccm hfree) hPb.1
              exact ⟨h.1, le_trans h.2 hPb.2⟩

/-- Transposition of two colours (the canonical-relabelling step of
the completeness argument). -/
def swapCols (a b x : Int) : Int := if x = a then b else if x = b then a else x

theorem swapCols_right (a b : Int) : swapCols a b b = a := by
  unfold swapCols
  by_cases h : b = a
  · rw [if_pos h, h]
  · rw [if_neg h, if_pos rfl]

theorem swapCols_eq_self (a b x : Int) (ha : x ≠ a) (hb : x ≠ b) :
    swapCols a b x = x := by
  unfold swapCols
  rw [if_neg ha, if_neg hb]

theorem swapCols_inj (a b x y : Int) (h : swapCols a b x = swapCols a b y) :
    x = y := by
  unfold swapCols at h
  split_ifs at h <;> omega

theorem swapCols_nonneg (a b x : Int) (ha : 0 ≤ a) (hb : 0 ≤ b) (hx : 0 ≤ x) :
    0 ≤ swapCols a b x := by
  unfold swapCols
  split_ifs <;> omega

theorem colAt_map (h : Int → Int) (f : List Int) (v : Nat) (hv : v < f.length) :
    colAt (f.map h) v = h (colAt f v) := by
  simp [colAt, List.getD_eq_getElem?_getD, List.getElem?_map, List.getElem?_eq_getElem hv]

/-- The old-colour loop of `backtrack_exact` preserves the best-pair
invariant and never increases the bound. -/
theorem backtrack_fold_sound (g : Graph) (hwf : g.WF) (fuel : Nat)
    (colours : List Int) (cc : Nat) (cm : Int) (un : Nat)
    (hinv : ExactInv g colours cc cm)
    (hun : un < g.vertex_count) (hunc : colAt colours un = -1) :
    ∀ (l : List Nat), (∀ c ∈ l, (c : Int) ≤ cm) →
    ∀ (best : Int × List Int), BestInv g best →
      BestInv g (l.foldl (fun (b : Int × List Int) (c : Nat) =>
        if (adjAt g un).any (fun nb => decide (colAt colours nb = (c : Int))) then b
        else backtrack_exact g fuel (setCol colours un (c : Int)) (cc + 1) cm b) best) ∧
      (l.foldl (fun (b : Int × List Int) (c : Nat) =>
        if (adjAt g un).any (fun nb => decide (colAt colours nb = (c : Int))) then b
        else backtrack_exact g fuel (setCol colours un (c : Int)) (cc + 1) cm b) best).1
        ≤ best.1 := by
  intro l hl best hbest
  refine foldl_invariant (fun (b : Int × List Int) => BestInv g b ∧ b.1 ≤ best.1)
    _ l best ⟨hbest, le_refl _⟩ ?_
  intro b c hcmem hPb
  dsimp only
  split
  · exact hPb
  · next hnb =>
    have hfree : ∀ nb ∈ adjAt g un, colAt colours nb ≠ (c : Int) := by
      simpa using hnb
    have h := backtrack_sound g hwf fuel (setCol colours un (c : Int)) (cc + 1) cm b
      (exactInv_setCol g hwf colours cc cm hinv un hun hunc _
        (Int.natCast_nonneg c) (hl c hcmem) hfree) hPb.1
    exact ⟨h.1, le_trans h.2 hPb.2⟩

/-- The palette ceiling is matched by any valid completion of the
current partial colouring. -/
theorem cm_le_maxColour (g : Graph) (colours : List Int) (cc : Nat) (cm : Int)
    (hinv : ExactInv g colours cc cm) (f : List Int) (hf : ValidColouring g f)
    (hagree : ∀ v, v < g.vertex_count → colAt colours v ≠ -1 →
      colAt f v = colAt colours v) :
    cm ≤ maxColour f := by
  rcases lt_or_le cm 0 with h | h
  · have h1 := neg_one_le_maxColour f
    have h2 := hinv.2.2.2.2.2
    omega
  · obtain ⟨v, hv, hveq⟩ := hinv.2.2.2.2.1 cm h (le_refl _)
    have hvn := List.mem_range.mp hv
    have hag := hagree v hvn (by rw [hveq]; omega)
    have hmem : colAt f v ∈ f := colAt_mem f v (by rw [hf.1.1]; exact hvn)
    have hle := maxColour_mem_le f _ hmem
    rw [hag, hveq] at hle
    exact hle

/-- If the colour that some valid completion `f` gives the selected
vertex occurs in the old-colour loop's list, the loop's outcome is
bounded by `f`'s colour count. -/
theorem backtrack_fold_complete (g : Graph) (hwf : g.WF) (fuel : Nat)
    (colours : List Int) (cc : Nat) (cm : Int) (un : Nat)
    (hinv : ExactInv g colours cc cm) (hun : un < g.vertex_count)
    (hunc : colAt colours un = -1)
    (f : List Int) (hf : ValidColouring g f)
    (hagree : ∀ v, v < g.vertex_count → colAt colours v ≠ -1 →
      colAt f v = colAt colours v)
    (hfun0 : 0 ≤ colAt f un) (hfA : colAt f un ≤ cm)
    (IH : ∀ (colours' : List Int) (cc' : Nat) (cm' : Int) (best' : Int × List Int),
      g.vertex_count ≤ cc' + fuel →
      ExactInv g colours' cc' cm' → BestInv g best' →
      ∀ (f' : List Int), ValidColouring g f' →
        (∀ v, v < g.vertex_count → colAt colours' v ≠ -1 →
          colAt f' v = colAt colours' v) →
        (backtrack_exact g fuel colours' cc' cm' best').1 ≤ maxColour f' + 1)
    (hfuel : g.vertex_count ≤ cc + 1 + fuel) :
    ∀ (l : List Nat), (∀ c ∈ l, (c : Int) ≤ cm) → (colAt f un).toNat ∈ l →
    ∀ (best : Int × List Int), BestInv g best →
      (l.foldl (fun (b : Int × List Int) (c : Nat) =>
        if (adjAt g un).any (fun nb => decide (colAt colours nb = (c : Int))) then b
        else backtrack_exact g fuel (setCol colours un (c : Int)) (cc + 1) cm b) best).1
        ≤ maxColour f + 1 ∧
      BestInv g (l.foldl (fun (b : Int × List Int) (c : Nat) =>
        if (adjAt g un).any (fun nb => decide (colAt colours nb = (c : Int))) then b
        else backtrack_exact g fuel (setCol colours un (c : Int)) (cc + 1) cm b) best) := by
  have hfreeF : ∀ nb ∈ adjAt g un,
      colAt colours nb ≠ (((colAt f un).toNat : Nat) : Int) := by
    intro nb hnb hcon
    have hnbn : nb < g.vertex_count := hwf.2.1 un (List.mem_range.mpr hun) nb hnb
    have hcast : (((colAt f un).toNat : Nat) : Int) = colAt f un :=
      Int.toNat_of_nonneg hfun0
    have hnbc : colAt colours nb ≠ -1 := by rw [hcon, hcast]; omega
    have hagnb := hagree nb hnbn hnbc
    have heq : colAt f un = colAt f nb := by rw [hagnb, hcon, hcast]
    have := hf.2 un (List.mem_range.mpr hun) nb hnb heq
    omega
  intro l
  induction l with
  | nil => intro _ hmem; exact absurd hmem (List.not_mem_nil _)
  | cons x xs ihl =>
    intro hl hmem best hbest
    rw [List.foldl_cons]
    by_cases hx : (colAt f un).toNat = x
    · subst hx
      rw [if_neg (by
        simp only [List.any_eq_true, decide_eq_true_eq]
        push_neg
        exact hfreeF)]
      have hinv' := exactInv_setCol g hwf colours cc cm hinv un hun hunc _
        (Int.natCast_nonneg _) (by omega) hfreeF
      have hagree' : ∀ v, v < g.vertex_count →
          colAt (setCol colours un (((colAt f un).toNat : Nat) : Int)) v ≠ -1 →
          colAt f v = colAt (setCol colours un (((colAt f un).toNat : Nat) : Int)) v := by
        intro v hv hvc
        by_cases hvu : v = un
        · subst hvu
          rw [colAt_setCol_self colours v _ (by rw [hinv.1]; exact hun)]
          omega
        · rw [colAt_setCol_ne colours v un _ hvu] at hvc ⊢
          exact hagree v hv hvc
      have hb1C := IH _ (cc + 1) cm best (by omega) hinv' hbest f hf hagree'
      have hb1S := backtrack_sound g hwf fuel _ (cc + 1) cm best hinv' hbest
      have hrest := backtrack_fold_sound g hwf fuel colours cc cm un hinv hun hunc xs
        (fun c hc => hl c (List.mem_cons_of_mem _ hc)) _ hb1S.1
      exact ⟨le_trans hrest.2 hb1C, hrest.1⟩
    · have hx' : (colAt f un).toNat ∈ xs := by
        rcases List.mem_cons.mp hmem with h | h
        · exact absurd h hx
        · exact h
      split
      · exact ihl (fun c hc => hl c (List.mem_cons_of_mem _ hc)) hx' best hbest
      · next hnb =>
        have hfree : ∀ nb ∈ adjAt g un, colAt colours nb ≠ ((x : Nat) : Int) := by
          simpa using hnb
        have hstep := backtrack_sound g hwf fuel _ (cc + 1) cm best
          (exactInv_setCol g hwf colours cc cm hinv un hun hunc _
            (Int.natCast_nonneg x) (hl x (List.mem_cons_self x xs)) hfree) hbest
        exact ihl (fun c hc => hl c (List.mem_cons_of_mem _ hc)) hx' _ hstep.1

theorem maxColour_map_swap_le (f : List Int) (a b : Int) (hab : a ≤ b) (hb : b ∈ f) :
    maxColour (f.map (swapCols a b)) ≤ maxColour f := by
  have hK : -1 < maxColour f + 1 := by have := neg_one_le_maxColour f; omega
  have h := (maxColour_lt_iff (f.map (swapCols a b)) (maxColour f + 1) hK).mpr ?_
  · omega
  · intro x hx
    obtain ⟨y, hy, rfl⟩ := List.mem_map.mp hx
    have hyle := maxColour_mem_le f y hy
    have hble := maxColour_mem_le f b hb
    unfold swapCols
    split_ifs <;> omega

/-- **Completeness of the search.**  From any invariant-respecting
state with enough fuel, the bound returned by `backtrack_exact` is at
most the colour count of any valid colouring that agrees with the
current partial one. -/
theorem backtrack_complete (g : Graph) (hwf : g.WF) :
    ∀ (fuel : Nat) (colours : List Int) (cc : Nat) (cm : Int) (best : Int × List Int),
      g.vertex_count ≤ cc + fuel →
      ExactInv g colours cc cm → BestInv g best →
      ∀ (f : List Int), ValidColouring g f →
        (∀ v, v < g.vertex_count → colAt colours v ≠ -1 →
          colAt f v = colAt colours v) →
        (backtrack_exact g fuel colours cc cm best).1 ≤ maxColour f + 1 := by
  intro fuel
  induction fuel with
  | zero =>
    intro colours cc cm best hfuel hinv hbest f hf hagree
    have hccn : cc = g.vertex_count := by
      have h1 := hinv.2.2.1
      have h2 : (List.range g.vertex_count).countP
          (fun v => decide (colAt colours v ≠ -1))
          ≤ (List.range g.vertex_count).length := List.countP_le_length _
      rw [List.length_range] at h2
      omega
    have hcmF := cm_le_maxColour g colours cc cm hinv f hf hagree
    simp only [backtrack_exact]
    rw [if_pos hccn]
    split
    · show cm + 1 ≤ maxColour f + 1
      omega
    · next hni =>
      push_neg at hni
      omega
  | succ fuel ih =>
    intro colours cc cm best hfuel hinv hbest f hf hagree
    have hcmF := cm_le_maxColour g colours cc cm hinv f hf hagree
    simp only [backtrack_exact]
    split
    · split
      · show cm + 1 ≤ maxColour f + 1
        omega
      · next hni =>
        push_neg at hni
        omega
    · next hccn =>
      split
      · next hprune =>
        omega
      · next hprune =>
        split
        · next hneg =>
          exfalso
          obtain ⟨v, hv, hvunc⟩ : ∃ v ∈ List.range g.vertex_count,
              colAt colours v = -1 := by
            by_contra hall
            push_neg at hall
            have hfull : (List.range g.vertex_count).countP
                (fun v => decide (colAt colours v ≠ -1))
                = (List.range g.vertex_count).length := by
              apply List.countP_eq_length.mpr
              intro a ha
              simpa using hall a ha
            rw [List.length_range] at hfull
            have h1 := hinv.2.2.1
            exact hccn (by omega)
          have := select_vertex_finds g colours cm v (List.mem_range.mp hv) hvunc
          omega
        · next hneg =>
          rcases select_vertex_spec g colours cm with hm1 | hspec
          · exact absurd (by omega : select_vertex g colours cm < 0) hneg
          obtain ⟨hge, hlt, hunc⟩ := hspec
          have hfun0 : 0 ≤ colAt f (select_vertex g colours cm).toNat :=
            hf.1.2 _ (List.mem_range.mpr hlt)
          have hcmneg := hinv.2.2.2.2.2
          rcases le_or_lt (colAt f (select_vertex g colours cm).toNat) cm with hA | hB
          · -- the completion's colour for `u` is an old colour
            have hfoldC := backtrack_fold_complete g hwf fuel colours cc cm
              (select_vertex g colours cm).toNat hinv hlt hunc f hf hagree hfun0 hA
              ih (by omega) (List.range (cm + 1).toNat)
              (fun c hc => by have := List.mem_range.mp hc; omega)
              (by rw [List.mem_range]; omega) best hbest
            split
            · have hstep := backtrack_sound g hwf fuel _ (cc + 1) (cm + 1) _
                (exactInv_setCol_new g hwf colours cc cm hinv _ hlt hunc) hfoldC.2
              exact le_trans hstep.2 hfoldC.1
            · exact hfoldC.1
          · -- the completion needs a fresh colour: relabel it to `cm + 1`
            have hfold := backtrack_fold_sound g hwf fuel colours cc cm
              (select_vertex g colours cm).toNat hinv hlt hunc
              (List.range (cm + 1).toNat)
              (fun c hc => by have := List.mem_range.mp hc; omega) best hbest
            have hbmem : colAt f (select_vertex g colours cm).toNat ∈ f :=
              colAt_mem f _ (by rw [hf.1.1]; exact hlt)
            have hbmax := maxColour_mem_le f _ hbmem
            split
            · next hbr =>
              -- recurse on the relabelled completion
              have hlenf : f.length = g.vertex_count := hf.1.1
              have hcolmap : ∀ v, v < g.vertex_count →
                  colAt (f.map (swapCols (cm + 1)
                    (colAt f (select_vertex g colours cm).toNat))) v
                  = swapCols (cm + 1) (colAt f (select_vertex g colours cm).toNat)
                      (colAt f v) := by
                intro v hv
                exact colAt_map _ f v (by omega)
              have hf' : ValidColouring g (f.map (swapCols (cm + 1)
                  (colAt f (select_vertex g colours cm).toNat))) := by
                refine ⟨⟨by rw [List.length_map]; exact hlenf, ?_⟩, ?_⟩
                · intro v hv
                  rw [hcolmap v (List.mem_range.mp hv)]
                  exact swapCols_nonneg _ _ _ (by omega) (by omega)
                    (hf.1.2 v hv)
                · intro u hu v hv heq
                  have hun' := List.mem_range.mp hu
                  have hvn' := hwf.2.1 u hu v hv
                  rw [hcolmap u hun', hcolmap v hvn'] at heq
                  have heq' := swapCols_inj _ _ _ _ heq
                  exfalso
                  have h1 := hf.2 u hu v hv heq'
                  have h2 := hf.1.2 u hu
                  omega
              have hagree' : ∀ v, v < g.vertex_count →
                  colAt (setCol colours (select_vertex g colours cm).toNat (cm + 1)) v ≠ -1 →
                  colAt (f.map (swapCols (cm + 1)
                    (colAt f (select_vertex g colours cm).toNat))) v
                  = colAt (setCol colours (select_vertex g colours cm).toNat (cm + 1)) v := by
                intro v hv hvc
                by_cases hvu : v = (select_vertex g colours cm).toNat
                · rw [hvu]
                  rw [colAt_setCol_self colours _ (cm + 1) (by rw [hinv.1]; exact hlt)]
                  rw [hcolmap _ hlt]
                  exact swapCols_right _ _
                · rw [colAt_setCol_ne colours v _ (cm + 1) hvu] at hvc ⊢
                  rw [hcolmap v hv, hagree v hv hvc]
                  refine swapCols_eq_self _ _ _ ?_ ?_
                  · have := hinv.2.2.2.1 v (List.mem_range.mpr hv)
                    rcases this with h | h
                    · exact absurd h hvc
                    · omega
                  · have := hinv.2.2.2.1 v (List.mem_range.mpr hv)
                    rcases this with h | h
                    · exact absurd h hvc
                    · omega
              have hrec := ih (setCol colours (select_vertex g colours cm).toNat (cm + 1))
                (cc + 1) (cm + 1) _
                (by omega)
                (exactInv_setCol_new g hwf colours cc cm hinv _ hlt hunc) hfold.1
                _ hf' hagree'
              refine le_trans hrec ?_
              have := maxColour_map_swap_le f (cm + 1)
                (colAt f (select_vertex g colours cm).toNat) (by omega) hbmem
              omega
            · next hbr =>
              push_neg at hbr
              omega

theorem dsatur_valid (g : Graph) (hwf : g.WF) :
    ValidColouring g (colour_with_dsatur g) := by
  obtain ⟨hlen, hprop, hvals⟩ := dsatur_spec g hwf
  exact ⟨⟨hlen, fun v hv => (hvals v (List.mem_range.mp hv)).1⟩, hprop⟩

theorem count_pos_of_valid (g : Graph) (hn : 0 < g.vertex_count) (c : List Int)
    (hv : ValidColouring g c) : 1 ≤ count_colours c := by
  have h0 : colAt c 0 ∈ c := colAt_mem c 0 (by rw [hv.1.1]; omega)
  have hge := maxColour_mem_le c _ h0
  have hpos := hv.1.2 0 (List.mem_range.mpr hn)
  rw [count_colours_eq, if_pos (by omega)]
  omega

theorem chromaticNumber_zero (g : Graph) (hwf : g.WF) (hn : g.vertex_count = 0) :
    chromaticNumber g = 0 := by
  have h0 : Colourable g 0 := by
    refine ⟨fun v => absurd v.2 (by omega), ?_⟩
    intro u hu
    rw [hn] at hu
    simp at hu
  have := chromaticNumber_le g hwf h0
  omega

theorem chromaticNumber_pos (g : Graph) (hwf : g.WF) (hn : 0 < g.vertex_count) :
    1 ≤ chromaticNumber g := by
  by_contra h
  push_neg at h
  have h0 : chromaticNumber g = 0 := by omega
  have hc := colourable_chromaticNumber g hwf
  rw [h0] at hc
  obtain ⟨f, -⟩ := hc
  exact (f ⟨0, hn⟩).elim0

/-- **Full specification of `colour_with_exact`**: the result is a
valid colouring, it never uses more colours than DSATUR's, and it uses
exactly `χ(G)` colours. -/
theorem colour_with_exact_spec (g : Graph) (hwf : g.WF) :
    ValidColouring g (colour_with_exact g) ∧
    count_colours (colour_with_exact g) ≤ count_colours (colour_with_dsatur g) ∧
    count_colours (colour_with_exact g) = (chromaticNumber g : Int) := by
  have hdv : ValidColouring g (colour_with_dsatur g) := dsatur_valid g hwf
  simp only [colour_with_exact]
  split
  · next hn =>
    have hcnil : count_colours ([] : List Int) = 0 := rfl
    refine ⟨⟨⟨by simp [hn], ?_⟩, ?_⟩, ?_, ?_⟩
    · rw [hn]; intro v hv; simp at hv
    · intro u hu; rw [hn] at hu; simp at hu
    · rw [hcnil]; exact count_colours_nonneg _
    · rw [hcnil, chromaticNumber_zero g hwf hn]; simp
  · next hn =>
    have hn1 : 0 < g.vertex_count := Nat.pos_of_ne_zero hn
    split
    · next hle =>
      -- DSATUR already used a single colour: the graph has no edges
      have hone : count_colours (colour_with_dsatur g) = 1 := by
        have := count_pos_of_valid g hn1 _ hdv
        omega
      have hmax0 : maxColour (colour_with_dsatur g) = 0 := by
        rw [count_colours_eq] at hone
        by_cases hmx : maxColour (colour_with_dsatur g) ≥ 0
        · rw [if_pos hmx] at hone; omega
        · rw [if_neg hmx] at hone; omega
      have hall0 : ∀ v ∈ List.range g.vertex_count,
          colAt (colour_with_dsatur g) v = 0 := by
        intro v hv
        have h1 := hdv.1.2 v hv
        have h2 : colAt (colour_with_dsatur g) v ∈ colour_with_dsatur g :=
          colAt_mem _ v (by rw [hdv.1.1]; exact List.mem_range.mp hv)
        have h3 := maxColour_mem_le _ _ h2
        omega
      have hnoedge : ∀ u ∈ List.range g.vertex_count, ∀ v ∈ adjAt g u, False := by
        intro u hu v hv
        have hvn : v < g.vertex_count := hwf.2.1 u hu v hv
        have heq : colAt (colour_with_dsatur g) u = colAt (colour_with_dsatur g) v := by
          rw [hall0 u hu, hall0 v (List.mem_range.mpr hvn)]
        have := hdv.2 u hu v hv heq
        rw [hall0 u hu] at this
        omega
      have hrep : ValidColouring g (List.replicate g.vertex_count 0) := by
        refine ⟨⟨by simp, ?_⟩, ?_⟩
        · intro v hv
          rw [colAt_replicate_lt _ _ _ (List.mem_range.mp hv)]
        · intro u hu v hv _
          exact absurd (hnoedge u hu v hv) not_false
      have hcrep : count_colours (List.replicate g.vertex_count 0) = 1 := by
        have hmem : (0 : Int) ∈ List.replicate g.vertex_count 0 :=
          List.mem_replicate.mpr ⟨by omega, rfl⟩
        have hge := maxColour_mem_le _ _ hmem
        have hlt := (maxColour_lt_iff (List.replicate g.vertex_count 0) 1
          (by omega)).mpr (by
            intro x hx
            rw [List.eq_of_mem_replicate hx]
            omega)
        rw [count_colours_eq, if_pos (by omega)]
        omega
      refine ⟨hrep, by omega, ?_⟩
      have hup : (chromaticNumber g : Int) ≤ 1 := by
        have := chromaticNumber_le_count g hwf _ hrep
        omega
      have hlo := chromaticNumber_pos g hwf hn1
      rw [hcrep]
      omega
    · next hgt =>
      push_neg at hgt
      have hinv0 : ExactInv g (List.replicate g.vertex_count (-1)) 0 (-1) := by
        refine ⟨by simp, ?_, ?_, ?_, ?_, le_refl _⟩
        · intro u hu v hv _
          rw [colAt_replicate_lt _ _ _ (List.mem_range.mp hu)]
        · apply List.countP_eq_zero.mpr
          intro v hv
          simp [colAt_replicate_lt _ _ _ (List.mem_range.mp hv)]
        · intro v hv
          exact Or.inl (colAt_replicate_lt _ _ _ (List.mem_range.mp hv))
        · intro c hc0 hc1
          omega
      have hbest0 : BestInv g (count_colours (colour_with_dsatur g),
          colour_with_dsatur g) := ⟨hdv, rfl⟩
      have hsound := backtrack_sound g hwf g.vertex_count
        (List.replicate g.vertex_count (-1)) 0 (-1)
        (count_colours (colour_with_dsatur g), colour_with_dsatur g) hinv0 hbest0
      obtain ⟨cstar, hcv, hccount⟩ :=
        exists_valid_of_colourable g hwf (colourable_chromaticNumber g hwf)
      have hcomp := backtrack_complete g hwf g.vertex_count
        (List.replicate g.vertex_count (-1)) 0 (-1)
        (count_colours (colour_with_dsatur g), colour_with_dsatur g)
        (by omega) hinv0 hbest0 cstar hcv
        (by
          intro v hv hne
          exact absurd (colAt_replicate_lt _ _ _ hv) hne)
      have hstar : maxColour cstar + 1 = count_colours cstar := by
        have h0 : colAt cstar 0 ∈ cstar := colAt_mem cstar 0 (by rw [hcv.1.1]; omega)
        have hge := maxColour_mem_le cstar _ h0
        have hpos := hcv.1.2 0 (List.mem_range.mpr hn1)
        rw [count_colours_eq, if_pos (by omega)]
      have hchi := chromaticNumber_le_count g hwf _ hsound.1.1
      refine ⟨hsound.1.1, ?_, ?_⟩
      · rw [hsound.1.2]
        exact hsound.2
      · rw [hsound.1.2]
        have hup : (backtrack_exact g g.vertex_count
            (List.replicate g.vertex_count (-1)) 0 (-1)
            (count_colours (colour_with_dsatur g), colour_with_dsatur g)).1
            ≤ (chromaticNumber g : Int) := by omega
        rw [hsound.1.2] at hchi
        omega

/-! ## Strategy dispatcher (`benchmark_runner.cpp`) -/

/-- The strategy entry points reachable from `main`. -/
inductive AlgorithmId where
  | welsh_powell
  | dsatur
  | simulated_annealing
  | genetic
  | exact_solver
  deriving Repr, DecidableEq

/-- `build_algorithm_table`: the name → entry-point table, with exactly
the five entries the source constructs. -/
def build_algorithm_table : List (String × AlgorithmId) :=
  [("welsh_powell", AlgorithmId.welsh_powell),
   ("dsatur", AlgorithmId.dsatur),
   ("simulated_annealing", AlgorithmId.simulated_annealing),
   ("genetic", AlgorithmId.genetic),
   ("exact_solver", AlgorithmId.exact_solver)]

/-- The `strategies.find(options.algorithm)` lookup of `main`. -/
def findAlgorithm (name : String) : Option AlgorithmId :=
  (build_algorithm_table.find? (fun e => e.1 == name)).map Prod.snd

/-- `main`'s dispatch: unknown names raise the `Unknown algorithm`
error. -/
def dispatch (name : String) : Except String AlgorithmId :=
  match findAlgorithm name with
  | some a => Except.ok a
  | none => Except.error ("Unknown algorithm: " ++ name)

/-- The accepted-name set of the dispatcher is exactly the five table
keys. -/
theorem findAlgorithm_isSome_iff (name : String) :
    (findAlgorithm name).isSome = true ↔
      (name = "welsh_powell" ∨ name = "dsatur" ∨ name = "simulated_annealing" ∨
        name = "genetic" ∨ name = "exact_solver") := by
  constructor
  · intro h
    unfold findAlgorithm at h
    rw [Option.isSome_map'] at h
    obtain ⟨x, hx, hpx⟩ := List.find?_isSome.mp h
    have hname : x.1 = name := by simpa using hpx
    simp only [build_algorithm_table, List.mem_cons, List.not_mem_nil, or_false] at hx
    rcases hx with rfl | rfl | rfl | rfl | rfl
    · exact Or.inl hname.symm
    · exact Or.inr (Or.inl hname.symm)
    · exact Or.inr (Or.inr (Or.inl hname.symm))
    · exact Or.inr (Or.inr (Or.inr (Or.inl hname.symm)))
    · exact Or.inr (Or.inr (Or.inr (Or.inr hname.symm)))
  · intro h
    rcases h with rfl | rfl | rfl | rfl | rfl <;> decide

/-! ## DIMACS loader (`graph_loader.cpp`, `load_graph`)

The file is modelled as its list of lines.  `istringstream`
whitespace-splitting becomes `String.splitOn " "` with empty tokens
dropped, and a failed `operator>>` into an `int` leaves the
value-initialised `0` behind, which `String.toInt?.getD 0` reproduces.
Errors carry the throw-site's message (without the path suffix). -/

/-- The whitespace tokens of a line. -/
def lineTokens (line : String) : List String :=
  (line.splitOn " ").filter (fun t => t ≠ "")

/-- Integer read with the stream semantics: failure yields `0`. -/
def readInt (tok : String) : Int :=
  tok.toInt?.getD 0

/-- The mutable parse state of `load_graph`. -/
structure LoaderSt where
  vertex_count : Int
  edge_count : Int
  adjacency_list : List (List Nat)
  edges_added : Int
  deriving Repr, DecidableEq

/-- Insert the undirected edge `u0 – v0` (both endpoints' lists). -/
def addEdge (adj : List (List Nat)) (u0 v0 : Nat) : List (List Nat) :=
  let adj1 := adj.set u0 ((adj.getD u0 []) ++ [v0])
  adj1.set v0 ((adj1.getD v0 []) ++ [u0])

/-- One pass of the `while (std::getline(...))` loop. -/
def loadGo : List String → LoaderSt → Except String LoaderSt
  | [], st => Except.ok st
  | line :: rest, st =>
    match line.toList with
    | [] => loadGo rest st
    | lead :: _ =>
      if lead = 'c' ∨ lead = '%' ∨ lead = '#' then loadGo rest st
      else if lead = 'p' then
        let toks := lineTokens line
        let vc := readInt (toks.getD 2 "")
        let ec := readInt (toks.getD 3 "")
        if vc ≤ 0 then Except.error "Invalid vertex count"
        else loadGo rest
          { st with
            vertex_count := vc
            edge_count := ec
            adjacency_list := List.replicate vc.toNat ([] : List Nat) }
      else if lead = 'e' then
        if st.adjacency_list = [] then
          Except.error "Encountered edge before problem line"
        else
          let toks := lineTokens line
          let u := readInt (toks.getD 1 "")
          let v := readInt (toks.getD 2 "")
          if u ≤ 0 ∨ v ≤ 0 ∨ st.vertex_count < u ∨ st.vertex_count < v then
            Except.error "Edge references out-of-range vertex"
          else if u = v then loadGo rest st
          else
            let u0 := (u - 1).toNat
            let v0 := (v - 1).toNat
            if v0 ∈ st.adjacency_list.getD u0 [] then loadGo rest st
            else loadGo rest
              { st with
                adjacency_list := addEdge st.adjacency_list u0 v0
                edges_added := st.edges_added + 1 }
      else loadGo rest st

/-- `load_graph`: run the loop from the value-initialised `Graph`,
then reject inputs whose problem line never appeared. -/
def load_graph (lines : List String) : Except String Graph :=
  match loadGo lines ⟨0, 0, [], 0⟩ with
  | Except.error e => Except.error e
  | Except.ok st =>
    if st.vertex_count = 0 then Except.error "Graph file missing problem line"
    else Except.ok ⟨st.vertex_count.toNat, st.adjacency_list⟩

/-- A line that the loader treats as a problem line. -/
def isPLine (line : String) : Prop :=
  line.toList.head?.getD ' ' = 'p'

instance (line : String) : Decidable (isPLine line) := by
  unfold isPLine; infer_instance

/-- The vertex count a problem line declares. -/
def pDeclared (line : String) : Int :=
  readInt ((lineTokens line).getD 2 "")

/-- The loop never drives the running vertex count negative. -/
theorem loadGo_vc_nonneg :
    ∀ (lines : List String) (st : LoaderSt), 0 ≤ st.vertex_count →
      ∀ st', loadGo lines st = Except.ok st' → 0 ≤ st'.vertex_count := by
  intro lines
  induction lines with
  | nil =>
    intro st hst st' h
    simp only [loadGo] at h
    cases h
    exact hst
  | cons line rest ih =>
    intro st hst st' h
    simp only [loadGo] at h
    split at h
    · exact ih st hst st' h
    · split at h
      · exact ih st hst st' h
      · split at h
        · split at h
          · exact Except.noConfusion h
          · exact ih _ (by simp only; omega) st' h
        · split at h
          · split at h
            · exact Except.noConfusion h
            · split at h
              · exact Except.noConfusion h
              · split at h
                · exact ih st hst st' h
                · split at h
                  · exact ih st hst st' h
                  · exact ih _ (by simp only; exact hst) st' h
          · exact ih st hst st' h

/-- A problem line declaring a non-positive vertex count makes the
loader throw at once. -/
theorem loadGo_bad_pline (line : String) (rest : List String) (st : LoaderSt)
    (hp : isPLine line) (hbad : pDeclared line ≤ 0) :
    loadGo (line :: rest) st = Except.error "Invalid vertex count" := by
  have hne : line.toList ≠ [] := by
    intro h
    unfold isPLine at hp
    rw [h] at hp
    simp at hp
  obtain ⟨lead, tl, hlt⟩ := List.exists_cons_of_ne_nil hne
  have hlead : lead = 'p' := by
    unfold isPLine at hp
    rw [hlt] at hp
    simpa using hp
  simp only [loadGo]
  split
  · next heq =>
    rw [hlt] at heq
    exact List.noConfusion heq
  · next lead' tl' heq =>
    rw [hlt] at heq
    injection heq with h1 h2
    subst h1
    subst hlead
    rw [if_neg (by decide), if_pos rfl]
    split
    · rfl
    · next hgood =>
      unfold pDeclared at hbad
      exact absurd hbad hgood

/-- Without a problem line the loader never returns a graph. -/
theorem load_graph_no_pline (lines : List String)
    (hnp : ∀ l ∈ lines, ¬ isPLine l) :
    ∃ e, load_graph lines = Except.error e := by
  have hinv : ∀ (ls : List String), (∀ l ∈ ls, ¬ isPLine l) →
      ∀ (st : LoaderSt), st.vertex_count = 0 → st.adjacency_list = [] →
      (∃ e, loadGo ls st = Except.error e) ∨
      (∃ st', loadGo ls st = Except.ok st' ∧ st'.vertex_count = 0) := by
    intro ls
    induction ls with
    | nil =>
      intro _ st h0 hadj
      exact Or.inr ⟨st, rfl, h0⟩
    | cons line rest ih =>
      intro hnp' st h0 hadj
      have hrest := fun l hl => hnp' l (List.mem_cons_of_mem _ hl)
      simp only [loadGo]
      split
      · exact ih hrest st h0 hadj
      · next lead tl heq =>
        split
        · exact ih hrest st h0 hadj
        · split
          · next hpl =>
            exfalso
            apply hnp' line (List.mem_cons_self _ _)
            unfold isPLine
            rw [heq]
            simpa using hpl
          · split
            · exact Or.inl ⟨_, rfl⟩
            · exact ih hrest st h0 hadj
  rcases hinv lines hnp ⟨0, 0, [], 0⟩ rfl rfl with ⟨e, he⟩ | ⟨st', hok, h0'⟩
  · refine ⟨e, ?_⟩
    unfold load_graph
    rw [he]
  · refine ⟨"Graph file missing problem line", ?_⟩
    unfold load_graph
    rw [hok]
    show (if st'.vertex_count = 0 then
        (Except.error "Graph file missing problem line" : Except String Graph)
      else Except.ok ⟨st'.vertex_count.toNat, st'.adjacency_list⟩)
      = Except.error "Graph file missing problem line"
    rw [if_pos h0']

/-- Any graph the loader returns has at least one vertex. -/
theorem load_graph_pos (lines : List String) (g : Graph)
    (h : load_graph lines = Except.ok g) : 1 ≤ g.vertex_count := by
  unfold load_graph at h
  split at h
  · exact Except.noConfusion h
  · next st heq =>
    split at h
    · exact Except.noConfusion h
    · next hvc =>
      cases h
      have hnn := loadGo_vc_nonneg lines ⟨0, 0, [], 0⟩ (le_refl 0) st heq
      show 1 ≤ st.vertex_count.toNat
      omega

/-! ## Assembled facts for the specification's testable properties -/

/-- Entrywise palette bounds cap `count_colours`. -/
theorem count_colours_le_of_ColOK (g : Graph) (K : Int) (hK : 0 ≤ K)
    (c : List Int) (h : ColOK g K c) : count_colours c ≤ K := by
  apply count_colours_le_of_lt c K hK
  intro x hx
  obtain ⟨⟨i, hi⟩, rfl⟩ := List.mem_iff_get.mp hx
  have hci : colAt c i = c.get ⟨i, hi⟩ := by
    simp [colAt, List.getD_eq_getElem?_getD, List.getElem?_eq_getElem hi]
  rw [← hci]
  exact (h.2 i (List.mem_range.mpr (by rw [← h.1]; exact hi))).2

/-- Welsh–Powell stays inside the `Δ + 1` palette. -/
theorem welsh_powell_ColOK (g : Graph) (hwf : g.WF) :
    ColOK g ((max_degree g : Int) + 1) (colour_with_welsh_powell g) := by
  obtain ⟨hlen, _, hvals⟩ := welsh_powell_spec g hwf
  refine ⟨hlen, ?_⟩
  intro v hv
  have hvn := List.mem_range.mp hv
  have h := hvals v hvn
  have hdeg := degree_le_max_degree g v hvn hwf.1
  exact ⟨h.1, by omega⟩

/-- DSATUR stays inside the `Δ + 1` palette. -/
theorem dsatur_ColOK (g : Graph) (hwf : g.WF) :
    ColOK g ((max_degree g : Int) + 1) (colour_with_dsatur g) := by
  obtain ⟨hlen, _, hvals⟩ := dsatur_spec g hwf
  refine ⟨hlen, ?_⟩
  intro v hv
  have hvn := List.mem_range.mp hv
  have h := hvals v hvn
  have hdeg := degree_le_max_degree g v hvn hwf.1
  exact ⟨h.1, by omega⟩

/-- A valid colouring has no counted conflicts. -/
theorem valid_conflicts_zero (g : Graph) (hwf : g.WF) (c : List Int)
    (hv : ValidColouring g c) : count_conflicts g c = 0 :=
  (valid_iff_no_conflicts g hwf c hv.1.2).mp hv.2

/-- A concrete well-formed instance: the triangle `K₃`. -/
def triangleGraph : Graph := ⟨3, [[1, 2], [0, 2], [0, 1]]⟩

/-- A concrete oracle stream for the randomised strategies. -/
def zeroOracle : Nat → Nat := fun _ => 0

def saOracle : SARng := ⟨fun _ => 0, fun _ => false⟩

def gaOracle : GARng := ⟨fun _ => 0, fun _ => false⟩

/-! ## The claims -/

/-- **C1.**  For every well-formed graph, the Exact solver returns a
valid colouring, it uses no more colours than DSATUR's colouring of the
same graph, and — the search always running to completion in the
embedding — it uses exactly `χ(G)` colours. -/
theorem claim_C1 (g : Graph) (hwf : g.WF) :
    ValidColouring g (colour_with_exact g) ∧
    count_colours (colour_with_exact g) ≤ count_colours (colour_with_dsatur g) ∧
    count_colours (colour_with_exact g) = (chromaticNumber g : Int) :=
  colour_with_exact_spec g hwf

theorem claim_C1_witness :
    triangleGraph.WF ∧
    (ValidColouring triangleGraph (colour_with_exact triangleGraph) ∧
      count_colours (colour_with_exact triangleGraph)
        ≤ count_colours (colour_with_dsatur triangleGraph) ∧
      count_colours (colour_with_exact triangleGraph)
        = (chromaticNumber triangleGraph : Int)) :=
  ⟨by decide, claim_C1 triangleGraph (by decide)⟩

/-- **C2.**  On every well-formed graph, Welsh–Powell, DSATUR and the
Exact solver return colourings with zero conflicts. -/
theorem claim_C2 (g : Graph) (hwf : g.WF) :
    count_conflicts g (colour_with_welsh_powell g) = 0 ∧
    count_conflicts g (colour_with_dsatur g) = 0 ∧
    count_conflicts g (colour_with_exact g) = 0 := by
  refine ⟨?_, ?_, ?_⟩
  · obtain ⟨hlen, hprop, hvals⟩ := welsh_powell_spec g hwf
    exact (valid_iff_no_conflicts g hwf _
      (fun v hv => (hvals v (List.mem_range.mp hv)).1)).mp hprop
  · obtain ⟨hlen, hprop, hvals⟩ := dsatur_spec g hwf
    exact (valid_iff_no_conflicts g hwf _
      (fun v hv => (hvals v (List.mem_range.mp hv)).1)).mp hprop
  · exact valid_conflicts_zero g hwf _ (colour_with_exact_spec g hwf).1

theorem claim_C2_witness :
    triangleGraph.WF ∧
    (count_conflicts triangleGraph (colour_with_welsh_powell triangleGraph) = 0 ∧
      count_conflicts triangleGraph (colour_with_dsatur triangleGraph) = 0 ∧
      count_conflicts triangleGraph (colour_with_exact triangleGraph) = 0) :=
  ⟨by decide, claim_C2 triangleGraph (by decide)⟩

/-- **C3 (amended).**  The cached fitness is
`conflicts * n + colour_usage` — the code multiplies by `n`, not `n²` —
and with the colour usage of a nonempty colouring lying in `[1, n]`
this ordering is still strictly lexicographic: fewer conflicts always
rank strictly better, and among equal-conflict individuals fewer
colours rank strictly better. -/
theorem claim_C3 (n c1 c2 : Nat) (u1 u2 : Int)
    (hu1l : 1 ≤ u1) (hu1r : u1 ≤ (n : Int)) (hu2l : 1 ≤ u2) (hu2r : u2 ≤ (n : Int)) :
    compute_fitness c1 u1 n = (c1 : Int) * (n : Int) + u1 ∧
    (c1 < c2 → compute_fitness c1 u1 n < compute_fitness c2 u2 n) ∧
    (c1 = c2 → u1 < u2 → compute_fitness c1 u1 n < compute_fitness c2 u2 n) := by
  refine ⟨rfl, ?_, ?_⟩
  · intro hc
    unfold compute_fitness
    have hstep : ((c1 : Int) + 1) * (n : Int) ≤ (c2 : Int) * (n : Int) := by
      have h1 : (c1 : Int) + 1 ≤ (c2 : Int) := by exact_mod_cast hc
      exact mul_le_mul_of_nonneg_right h1 (Int.natCast_nonneg n)
    calc (c1 : Int) * (n : Int) + u1
        ≤ (c1 : Int) * (n : Int) + (n : Int) := by omega
      _ = ((c1 : Int) + 1) * (n : Int) := by ring
      _ ≤ (c2 : Int) * (n : Int) := hstep
      _ < (c2 : Int) * (n : Int) + u2 := by omega
  · intro hc hu
    subst hc
    unfold compute_fitness
    exact add_lt_add_left hu _

theorem claim_C3_witness :
    (1 : Int) ≤ 3 ∧
    (compute_fitness 0 3 3 = ((0 : Nat) : Int) * ((3 : Nat) : Int) + 3 ∧
      (0 < 1 → compute_fitness 0 3 3 < compute_fitness 1 1 3) ∧
      (0 = 1 → (3 : Int) < 1 → compute_fitness 0 3 3 < compute_fitness 1 1 3)) :=
  ⟨by decide, claim_C3 3 0 1 3 1 (by decide) (by decide) (by decide) (by decide)⟩

/-- **C3, the spec's version refuted**: for `n = 3`, one conflict and
three colours used, the code's fitness is `1·3 + 3 = 6`, not the
`1·3² + 3 = 12` of the spec's formula. -/
theorem claim_C3_counterexample :
    compute_fitness 1 3 3 = 6 ∧ (1 : Int) * 3 ^ 2 + 3 ≠ 6 := by decide

/-- **C4.**  The dispatcher accepts exactly the five table keys —
`tabu_search`, although documented, is missing from
`build_algorithm_table` and is rejected with the `Unknown algorithm`
error. -/
theorem claim_C4 :
    (∀ name : String, (findAlgorithm name).isSome = true ↔
      (name = "welsh_powell" ∨ name = "dsatur" ∨ name = "simulated_annealing" ∨
        name = "genetic" ∨ name = "exact_solver")) ∧
    findAlgorithm "tabu_search" = none ∧
    dispatch "tabu_search" = Except.error "Unknown algorithm: tabu_search" ∧
    findAlgorithm "welsh_powell" = some AlgorithmId.welsh_powell ∧
    findAlgorithm "dsatur" = some AlgorithmId.dsatur ∧
    findAlgorithm "simulated_annealing" = some AlgorithmId.simulated_annealing ∧
    findAlgorithm "genetic" = some AlgorithmId.genetic ∧
    findAlgorithm "exact_solver" = some AlgorithmId.exact_solver :=
  ⟨findAlgorithm_isSome_iff, by decide, rfl, by decide, by decide,
    by decide, by decide, by decide⟩

/-- **C5.**  Greedy repair returns a length-`n` colouring inside
`[0, K)` and coincides verbatim with the spec's §4.B contract
(descending-degree traversal, keep the seed colour when unbanned, else
smallest free colour, else the conflict-minimising colour with ties to
the smaller index). -/
theorem claim_C5 (g : Graph) (s : List Int) (K : Nat) (hK : 1 ≤ K) :
    ColOK g (K : Int) (greedy_repair_fixed_k g s K) ∧
    greedy_repair_fixed_k g s K = greedy_repair_spec g s K :=
  ⟨greedy_repair_ColOK g s K hK, greedy_repair_eq_spec g s K hK⟩

theorem claim_C5_witness :
    1 ≤ 3 ∧
    (ColOK triangleGraph ((3 : Nat) : Int)
        (greedy_repair_fixed_k triangleGraph [2, 2, 0] 3) ∧
      greedy_repair_fixed_k triangleGraph [2, 2, 0] 3
        = greedy_repair_spec triangleGraph [2, 2, 0] 3) :=
  ⟨by decide, claim_C5 triangleGraph [2, 2, 0] 3 (by decide)⟩

/-- **C6.**  Re-colouring one vertex changes the global conflict count
by exactly the local delta (`new_conf − old_conf` at the vertex), and
consequently the running conflict counter of the TabuCol inner loop
always equals the true conflict count of the colouring it returns. -/
theorem claim_C6 (g : Graph) (hwf : g.WF) (c : List Int)
    (hlen : c.length = g.vertex_count) (v : Nat) (hv : v < g.vertex_count)
    (newc : Int) :
    ((count_conflicts g (setCol c v newc) : Int)
      = (count_conflicts g c : Int)
        + ((count_conflicts_if_colour g c v newc : Int)
            - (count_conflicts_for_vertex g c v : Int))) ∧
    (∀ (k tenure fuel iter : Nat) (colours : List Int) (conflicts : Int)
      (tabu : List (List Nat)) (bestc : Int) (bestcols bestsol : List Int),
      colours.length = g.vertex_count →
      conflicts = (count_conflicts g colours : Int) →
      (tabuInner g k tenure fuel iter colours conflicts tabu bestc bestcols bestsol).2.1
        = (count_conflicts g
            (tabuInner g k tenure fuel iter colours conflicts tabu bestc bestcols
              bestsol).1 : Int)) :=
  ⟨conflict_delta_sub g hwf c hlen v hv newc,
    fun k tenure fuel iter colours conflicts tabu bestc bestcols bestsol h1 h2 =>
      (tabuInner_counter g hwf k tenure fuel iter colours conflicts tabu bestc
        bestcols bestsol h1 h2).1⟩

theorem claim_C6_witness :
    triangleGraph.WF ∧ ([0, 1, 1] : List Int).length = triangleGraph.vertex_count ∧
    2 < triangleGraph.vertex_count ∧
    (((count_conflicts triangleGraph (setCol [0, 1, 1] 2 2) : Int)
      = (count_conflicts triangleGraph [0, 1, 1] : Int)
        + ((count_conflicts_if_colour triangleGraph [0, 1, 1] 2 2 : Int)
            - (count_conflicts_for_vertex triangleGraph [0, 1, 1] 2 : Int))) ∧
    (∀ (k tenure fuel iter : Nat) (colours : List Int) (conflicts : Int)
      (tabu : List (List Nat)) (bestc : Int) (bestcols bestsol : List Int),
      colours.length = triangleGraph.vertex_count →
      conflicts = (count_conflicts triangleGraph colours : Int) →
      (tabuInner triangleGraph k tenure fuel iter colours conflicts tabu bestc
        bestcols bestsol).2.1
        = (count_conflicts triangleGraph
            (tabuInner triangleGraph k tenure fuel iter colours conflicts tabu bestc
              bestcols bestsol).1 : Int))) :=
  ⟨by decide, by decide, by decide,
    claim_C6 triangleGraph (by decide) [0, 1, 1] (by decide) 2 (by decide) 2⟩

/-- **C7.**  Every strategy returns a colouring of length exactly `n`
with all entries non-negative, for every well-formed input graph and
every random oracle. -/
theorem claim_C7 (g : Graph) (hwf : g.WF) (rsa : SARng) (rga : GARng)
    (r : Nat → Nat) (maxit tenure ps mg : Nat) :
    ((colour_with_welsh_powell g).length = g.vertex_count ∧
      ∀ v, v < g.vertex_count → 0 ≤ colAt (colour_with_welsh_powell g) v) ∧
    ((colour_with_dsatur g).length = g.vertex_count ∧
      ∀ v, v < g.vertex_count → 0 ≤ colAt (colour_with_dsatur g) v) ∧
    ((colour_with_tabu g r maxit tenure).length = g.vertex_count ∧
      ∀ v, v < g.vertex_count → 0 ≤ colAt (colour_with_tabu g r maxit tenure) v) ∧
    ((colour_with_simulated_annealing g rsa).length = g.vertex_count ∧
      ∀ v, v < g.vertex_count → 0 ≤ colAt (colour_with_simulated_annealing g rsa) v) ∧
    ((colour_with_genetic g rga ps mg).length = g.vertex_count ∧
      ∀ v, v < g.vertex_count → 0 ≤ colAt (colour_with_genetic g rga ps mg) v) ∧
    ((colour_with_exact g).length = g.vertex_count ∧
      ∀ v, v < g.vertex_count → 0 ≤ colAt (colour_with_exact g) v) := by
  have hwp := welsh_powell_ColOK g hwf
  have hds := dsatur_ColOK g hwf
  have htb := colour_with_tabu_ColOK g hwf.1 r maxit tenure
  have hsa := colour_with_simulated_annealing_ColOK g rsa
  have hga := colour_with_genetic_ColOK g rga ps mg
  have hex := (colour_with_exact_spec g hwf).1
  exact ⟨⟨hwp.1, fun v hv => (hwp.2 v (List.mem_range.mpr hv)).1⟩,
    ⟨hds.1, fun v hv => (hds.2 v (List.mem_range.mpr hv)).1⟩,
    ⟨htb.1, fun v hv => (htb.2 v (List.mem_range.mpr hv)).1⟩,
    ⟨hsa.1, fun v hv => (hsa.2 v (List.mem_range.mpr hv)).1⟩,
    ⟨hga.1, fun v hv => (hga.2 v (List.mem_range.mpr hv)).1⟩,
    ⟨hex.1.1, fun v hv => hex.1.2 v (List.mem_range.mpr hv)⟩⟩

theorem claim_C7_witness :
    triangleGraph.WF ∧
    (((colour_with_welsh_powell triangleGraph).length = triangleGraph.vertex_count ∧
      ∀ v, v < triangleGraph.vertex_count →
        0 ≤ colAt (colour_with_welsh_powell triangleGraph) v) ∧
    ((colour_with_dsatur triangleGraph).length = triangleGraph.vertex_count ∧
      ∀ v, v < triangleGraph.vertex_count →
        0 ≤ colAt (colour_with_dsatur triangleGraph) v) ∧
    ((colour_with_tabu triangleGraph zeroOracle 5 2).length = triangleGraph.vertex_count ∧
      ∀ v, v < triangleGraph.vertex_count →
        0 ≤ colAt (colour_with_tabu triangleGraph zeroOracle 5 2) v) ∧
    ((colour_with_simulated_annealing triangleGraph saOracle).length
        = triangleGraph.vertex_count ∧
      ∀ v, v < triangleGraph.vertex_count →
        0 ≤ colAt (colour_with_simulated_annealing triangleGraph saOracle) v) ∧
    ((colour_with_genetic triangleGraph gaOracle 6 1).length = triangleGraph.vertex_count ∧
      ∀ v, v < triangleGraph.vertex_count →
        0 ≤ colAt (colour_with_genetic triangleGraph gaOracle 6 1) v) ∧
    ((colour_with_exact triangleGraph).length = triangleGraph.vertex_count ∧
      ∀ v, v < triangleGraph.vertex_count →
        0 ≤ colAt (colour_with_exact triangleGraph) v)) :=
  ⟨by decide, claim_C7 triangleGraph (by decide) saOracle gaOracle zeroOracle 5 2 6 1⟩

/-- **C8.**  Every strategy's colouring uses at most `Δ + 1` colours
(`count_colours` being the maximum entry plus one), for every
well-formed input graph and every random oracle. -/
theorem claim_C8 (g : Graph) (hwf : g.WF) (rsa : SARng) (rga : GARng)
    (r : Nat → Nat) (maxit tenure ps mg : Nat) :
    count_colours (colour_with_welsh_powell g) ≤ (max_degree g : Int) + 1 ∧
    count_colours (colour_with_dsatur g) ≤ (max_degree g : Int) + 1 ∧
    count_colours (colour_with_tabu g r maxit tenure) ≤ (max_degree g : Int) + 1 ∧
    count_colours (colour_with_simulated_annealing g rsa) ≤ (max_degree g : Int) + 1 ∧
    count_colours (colour_with_genetic g rga ps mg) ≤ (max_degree g : Int) + 1 ∧
    count_colours (colour_with_exact g) ≤ (max_degree g : Int) + 1 := by
  have hK : (0 : Int) ≤ (max_degree g : Int) + 1 := by positivity
  have hds := count_colours_le_of_ColOK g _ hK _ (dsatur_ColOK g hwf)
  refine ⟨count_colours_le_of_ColOK g _ hK _ (welsh_powell_ColOK g hwf), hds,
    count_colours_le_of_ColOK g _ hK _ (colour_with_tabu_ColOK g hwf.1 r maxit tenure),
    count_colours_le_of_ColOK g _ hK _ (colour_with_simulated_annealing_ColOK g rsa),
    count_colours_le_of_ColOK g _ hK _ (colour_with_genetic_ColOK g rga ps mg), ?_⟩
  have hex := (colour_with_exact_spec g hwf).2.1
  omega

theorem claim_C8_witness :
    triangleGraph.WF ∧
    (count_colours (colour_with_welsh_powell triangleGraph)
        ≤ (max_degree triangleGraph : Int) + 1 ∧
      count_colours (colour_with_dsatur triangleGraph)
        ≤ (max_degree triangleGraph : Int) + 1 ∧
      count_colours (colour_with_tabu triangleGraph zeroOracle 5 2)
        ≤ (max_degree triangleGraph : Int) + 1 ∧
      count_colours (colour_with_simulated_annealing triangleGraph saOracle)
        ≤ (max_degree triangleGraph : Int) + 1 ∧
      count_colours (colour_with_genetic triangleGraph gaOracle 6 1)
        ≤ (max_degree triangleGraph : Int) + 1 ∧
      count_colours (colour_with_exact triangleGraph)
        ≤ (max_degree triangleGraph : Int) + 1) :=
  ⟨by decide, claim_C8 triangleGraph (by decide) saOracle gaOracle zeroOracle 5 2 6 1⟩

/-- **C9.**  On a seed that is already a valid `K`-colouring, greedy
repair returns the seed itself entry for entry — in particular the same
partition into colour classes. -/
theorem claim_C9 (g : Graph) (hwf : g.WF) (seed : List Int) (K : Nat)
    (hlen : seed.length = g.vertex_count)
    (hseed : ∀ u, u < g.vertex_count →
      0 ≤ colAt seed u ∧ colAt seed u < (K : Int))
    (hconf : count_conflicts g seed = 0) :
    (∀ u, u < g.vertex_count →
      colAt (greedy_repair_fixed_k g seed K) u = colAt seed u) ∧
    (∀ u v, u < g.vertex_count → v < g.vertex_count →
      (colAt (greedy_repair_fixed_k g seed K) u
          = colAt (greedy_repair_fixed_k g seed K) v
        ↔ colAt seed u = colAt seed v)) := by
  have h := greedy_repair_valid_seed g hwf seed K hlen hseed hconf
  exact ⟨h, fun u v hu hv => by rw [h u hu, h v hv]⟩

theorem claim_C9_witness :
    triangleGraph.WF ∧ ([0, 1, 2] : List Int).length = triangleGraph.vertex_count ∧
    count_conflicts triangleGraph [0, 1, 2] = 0 ∧
    ((∀ u, u < triangleGraph.vertex_count →
      colAt (greedy_repair_fixed_k triangleGraph [0, 1, 2] 3) u
        = colAt ([0, 1, 2] : List Int) u) ∧
    (∀ u v, u < triangleGraph.vertex_count → v < triangleGraph.vertex_count →
      (colAt (greedy_repair_fixed_k triangleGraph [0, 1, 2] 3) u
          = colAt (greedy_repair_fixed_k triangleGraph [0, 1, 2] 3) v
        ↔ colAt ([0, 1, 2] : List Int) u = colAt ([0, 1, 2] : List Int) v))) :=
  ⟨by decide, by decide, by decide,
    claim_C9 triangleGraph (by decide) [0, 1, 2] 3 (by decide) (by decide) (by decide)⟩

/-- **C10.**  The loader never returns a graph with zero vertices: a
problem line declaring a non-positive vertex count throws, an input
with no problem line at all throws, and every successfully returned
graph has `vertex_count ≥ 1`. -/
theorem claim_C10 :
    (∀ (line : String) (rest : List String) (st : LoaderSt),
      isPLine line → pDeclared line ≤ 0 →
      loadGo (line :: rest) st = Except.error "Invalid vertex count") ∧
    (∀ lines : List String, (∀ l ∈ lines, ¬ isPLine l) →
      ∃ e, load_graph lines = Except.error e) ∧
    (∀ (lines : List String) (g : Graph),
      load_graph lines = Except.ok g → 1 ≤ g.vertex_count) :=
  ⟨loadGo_bad_pline, load_graph_no_pline, load_graph_pos⟩
